import Mathlib

/-!
lm-arena-scraper: row classification, field extraction and the category loop

A shallow embedding of `scrape-lmarena.mjs`.

* JavaScript strings are lists of characters (`Str`).  Every pattern of the
  program is made of ASCII characters and the two characters U+00C2 U+00B1, so
  a character outside the Basic Multilingual Plane behaves like any other
  character that no pattern mentions.
* JavaScript numbers are doubles (`JSNumber`): a finite double is given by its
  value, a rational, and `toDouble` rounds a rational to the nearest double,
  with ties to even and the infinities beyond the range.  The two zeros are not
  told apart, and `NaN`, which no parse of a match can give, is `none`.
  ECMAScript lets an engine cut a literal at its twentieth significant digit
  before rounding; the value rounded here is that of the whole literal.
* `null` and `undefined` are `none`.
* The regular expressions of the program are values of `RegExp`, run by a
  backtracking matcher that follows the ECMAScript matching rules for the
  constructs the program uses.
-/

namespace LmArena

/-- JavaScript strings, as the sequence of their characters. -/
abbrev Str := List Char

/-! ## Regular expressions -/

/-- The characters matched by the class `\s` (and removed by `trim`). -/
def isWhiteSpace (c : Char) : Bool :=
  let n := c.toNat
  (9 ≤ n && n ≤ 13) || n == 32 || n == 160 || n == 5760 || (8192 ≤ n && n ≤ 8202)
    || n == 8232 || n == 8233 || n == 8239 || n == 8287 || n == 12288 || n == 65279

/-- Patterns that consume exactly one character. -/
inductive Atom where
  /-- A literal character. -/
  | chr (c : Char)
  /-- The class of decimal digits, written backslash-d. -/
  | digit
  /-- The class of white space, written backslash-s. -/
  | space

/-- The pattern language of the program: atoms, concatenation, alternation,
the greedy optional group and the greedy bounded repetition of an atom. -/
inductive Re where
  | eps
  | atom (a : Atom)
  | seq (r s : Re)
  | alt (r s : Re)
  | opt (r : Re)
  | rep (a : Atom) (lo : Nat) (hi : Option Nat)

/-- Canonicalisation of a character under the flag `i`.  Without the flag `u`
a character outside ASCII never canonicalises to an ASCII character, so for
the ASCII patterns of the program this is upper-casing of `a`..`z`. -/
def canon (ic : Bool) (c : Char) : Char := if ic then c.toUpper else c

/-- Whether the atom accepts the character. -/
def Atom.test (ic : Bool) : Atom → Char → Bool
  | .chr c, x => canon ic x == canon ic c
  | .digit, x => x.isDigit
  | .space, x => isWhiteSpace x

/-- Greedy repetition of a one-character test, between `lo` and `hi` times, `n`
being the number of iterations already done: one more iteration is tried
first, the continuation `k` after it. -/
def repeatAtom (p : Char → Bool) (lo : Nat) (hi : Option Nat) (k : Str → Option Str) :
    Nat → Str → Option Str
  | n, [] => if lo ≤ n then k [] else none
  | n, x :: xs =>
    if p x && (match hi with
        | some h => decide (n < h)
        | none => true) then
      match repeatAtom p lo hi k (n + 1) xs with
      | some r => some r
      | none => if lo ≤ n then k (x :: xs) else none
    else if lo ≤ n then k (x :: xs) else none

/-- The backtracking matcher: `run ic r s k` matches `r` at the front of `s` and
hands the rest of the input to the continuation `k`; the first alternative that
lets the continuation succeed wins. -/
def Re.run (ic : Bool) : Re → Str → (Str → Option Str) → Option Str
  | .eps, s, k => k s
  | .atom a, s, k =>
    match s with
    | [] => none
    | x :: xs => if a.test ic x then k xs else none
  | .seq r1 r2, s, k => Re.run ic r1 s (fun t => Re.run ic r2 t k)
  | .alt r1 r2, s, k =>
    match Re.run ic r1 s k with
    | some r => some r
    | none => Re.run ic r2 s k
  | .opt r, s, k =>
    match Re.run ic r s k with
    | some r => some r
    | none => k s
  | .rep a lo hi, s, k => repeatAtom (a.test ic) lo hi k 0 s

/-- A regular expression literal: its body, whether it starts with `^`, and
whether it carries the flag `i`. -/
structure RegExp where
  body : Re
  anchored : Bool
  ignoreCase : Bool

/-- A match of the expression at the front of `s`: the input left after it. -/
def RegExp.matchAt (re : RegExp) (s : Str) : Option Str :=
  re.body.run re.ignoreCase s some

/-- The text consumed when `rest` is what a match left of `s`. -/
def matchedText (s rest : Str) : Str := s.take (s.length - rest.length)

/-- The leftmost match, tried at every start position from left to right: the
matched text and the input after it. -/
def RegExp.searchFrom (re : RegExp) : Str → Option (Str × Str)
  | [] =>
    match re.matchAt [] with
    | some r => some ([], r)
    | none => none
  | x :: xs =>
    match re.matchAt (x :: xs) with
    | some r => some (matchedText (x :: xs) r, r)
    | none => re.searchFrom xs

/-- What `s.match(re)` gives as `m[0]` for an expression without the flag `g`:
the text of the leftmost match, `none` for `null`. -/
def RegExp.exec (re : RegExp) (s : Str) : Option Str :=
  if re.anchored then (re.matchAt s).map (matchedText s)
  else (re.searchFrom s).map Prod.fst

/-- What `re.test(s)` gives. -/
def RegExp.test (re : RegExp) (s : Str) : Bool := (re.exec s).isSome

/-- What `s.replace(re, rep)` gives for an expression with the flag `g`: every
match, found from left to right, is replaced; after an empty match the
search moves on by one character.  `fuel` bounds the number of steps. -/
def replaceAllAux (re : RegExp) (rep : Str) : Nat → Str → Str
  | 0, s => s
  | _ + 1, [] =>
    match re.matchAt [] with
    | some _ => rep
    | none => []
  | fuel + 1, x :: xs =>
    match re.matchAt (x :: xs) with
    | some r =>
      if r.length < (x :: xs).length then rep ++ replaceAllAux re rep fuel r
      else rep ++ x :: replaceAllAux re rep fuel xs
    | none => x :: replaceAllAux re rep fuel xs

/-- Global replacement with enough fuel for the whole string. -/
def replaceAll (re : RegExp) (rep : Str) (s : Str) : Str :=
  replaceAllAux re rep (s.length + 1) s

/-- What `s.replace(pat, rep)` gives for a string pattern: only the first
occurrence of `pat` is replaced. -/
def replaceFirst (pat rep : Str) : Str → Str
  | [] => if pat.isEmpty then rep else []
  | x :: xs =>
    if pat.isPrefixOf (x :: xs) then rep ++ (x :: xs).drop pat.length
    else x :: replaceFirst pat rep xs

/-- What `s.includes(sub)` gives. -/
def includes (sub : Str) : Str → Bool
  | [] => sub.isEmpty
  | x :: xs => sub.isPrefixOf (x :: xs) || includes sub xs

/-- What `s.trim()` gives. -/
def trim (s : Str) : Str :=
  ((s.dropWhile isWhiteSpace).reverse.dropWhile isWhiteSpace).reverse

/-! ## Number parsing -/

/-- The value of a decimal digit. -/
def digitVal (c : Char) : Nat := c.toNat - 48

/-- The value of a string of decimal digits. -/
def digitsVal (ds : Str) : Nat := ds.foldl (fun acc c => acc * 10 + digitVal c) 0

/-- The sign and the unsigned part of a numeric string. -/
def splitSign : Str → Bool × Str
  | '-' :: r => (true, r)
  | '+' :: r => (false, r)
  | t => (false, t)

/-- A JavaScript number other than `NaN`, up to the sign of zero: a finite
double, given by its value, or an infinity. -/
inductive JSNumber where
  /-- A finite double. -/
  | fin (q : ℚ)
  /-- The values `Infinity` and `-Infinity`. -/
  | inf (neg : Bool)
  deriving DecidableEq

/-- A numeral denotes the finite number of its value. -/
instance (n : Nat) : OfNat JSNumber n := ⟨.fin n⟩

/-- The integer nearest to `n / d`, the even one of two that are equally near. -/
def roundHalfEven (n d : Nat) : Nat :=
  let q := n / d
  let r := n % d
  if 2 * r < d then q
  else if d < 2 * r then q + 1
  else if q % 2 = 0 then q else q + 1

/-- The binary logarithm of `n`, rounded down, by halving at most `fuel` times. -/
def log2Fuel : Nat → Nat → Nat
  | 0, _ => 0
  | fuel + 1, n => if n < 2 then 0 else log2Fuel fuel (n / 2) + 1

/-- The binary logarithm of a positive number, rounded down. -/
def log2 (n : Nat) : Nat := log2Fuel n n

/-- The binary logarithm of the positive fraction `n / d`, rounded down. -/
def floorLog2 (n d : Nat) : Int :=
  let k : Int := (log2 n : Int) - (log2 d : Int)
  if (if 0 ≤ k then d * 2 ^ k.toNat ≤ n else d ≤ n * 2 ^ (-k).toNat) then k else k - 1

/-- The double nearest to the positive fraction `n / d`, `none` when it is
beyond the finite doubles: with `e` the binary exponent of the fraction, not
below -1022, the exponent of the subnormal numbers, it is the multiple of
`2 ^ (e - 52)` nearest to the fraction, the even multiple of two that are
equally near. -/
def roundMagnitude (n d : Nat) : Option ℚ :=
  let e : Int := max (floorLog2 n d) (-1022)
  let up : Nat := (e - 52).toNat
  let down : Nat := (52 - e).toNat
  let m := roundHalfEven (n * 2 ^ down) (d * 2 ^ up)
  if 2 ^ 1024 * 2 ^ down ≤ m * 2 ^ up then none
  else some ((m * 2 ^ up : Nat) / (2 ^ down : Nat))

/-- The Number value of a rational: the IEEE 754 binary64 number nearest to it,
with ties to even, and an infinity when the magnitude is too large. -/
def toDouble (q : ℚ) : JSNumber :=
  if q = 0 then .fin 0
  else
    match roundMagnitude q.num.natAbs q.den with
    | none => .inf (decide (q < 0))
    | some a => .fin (if q < 0 then -a else a)

/-- What `parseInt(s, 10)` gives: leading white space is skipped, a sign is
read, then the longest run of digits, and the Number value of the integer they
denote is returned; `none` stands for `NaN`. -/
def parseInt (s : Str) : Option JSNumber :=
  let p := splitSign (s.dropWhile isWhiteSpace)
  let ds := p.2.takeWhile Char.isDigit
  if ds.isEmpty then none
  else some (toDouble (if p.1 then -(digitsVal ds : ℚ) else (digitsVal ds : ℚ)))

/-- The digits of the fraction that follows the integer digits of a numeric
string: those after a `.`, none when no `.` follows. -/
def fractionDigits : Str → Str
  | '.' :: r => r.takeWhile Char.isDigit
  | _ => []

/-- What `parseFloat(s)` gives on a string with no exponent part: leading white
space is skipped, a sign is read, then digits and an optional fraction, and the
Number value of the decimal they denote is returned; `none` stands for `NaN`.
The only argument in the program is a match of `-?\d+(\.\d+)?`, which has no
exponent. -/
def parseFloat (s : Str) : Option JSNumber :=
  let p := splitSign (s.dropWhile isWhiteSpace)
  let ds := p.2.takeWhile Char.isDigit
  let fs := fractionDigits (p.2.dropWhile Char.isDigit)
  if ds.isEmpty && fs.isEmpty then none
  else
    let v : ℚ := (digitsVal ds : ℚ) + (digitsVal fs : ℚ) / (10 : ℚ) ^ fs.length
    some (toDouble (if p.1 then -v else v))

/-- The expression `/\./g` of `toInt`. -/
def reDot : RegExp := ⟨.atom (.chr '.'), false, false⟩

/-- The expression `-?\d+` (between slashes) of `toInt`. -/
def reInt : RegExp :=
  ⟨.seq (.opt (.atom (.chr '-'))) (.rep .digit 1 none), false, false⟩

/-- The expression `-?\d+(\.\d+)?` (between slashes) of `toFloat`. -/
def reFloat : RegExp :=
  ⟨.seq (.opt (.atom (.chr '-')))
      (.seq (.rep .digit 1 none)
        (.opt (.seq (.atom (.chr '.')) (.rep .digit 1 none)))), false, false⟩

/-- The function `toInt`: `null` for a missing argument, otherwise the dots are
removed and the first match of `-?\d+` (between slashes) is parsed. -/
def toInt (s : Option Str) : Option JSNumber :=
  match s with
  | none => none
  | some s =>
    match reInt.exec (replaceAll reDot [] s) with
    | some m => parseInt m
    | none => none

/-- The function `toFloat`: `null` for a missing argument, otherwise the first
comma becomes a dot and the first match of `-?\d+(\.\d+)?` (between slashes) is parsed. -/
def toFloat (s : Option Str) : Option JSNumber :=
  match s with
  | none => none
  | some s =>
    match reFloat.exec (replaceFirst [','] ['.'] s) with
    | some m => parseFloat m
    | none => none

/-! ## Rendered pages -/

/-- A row element of the rendered page, as its locators expose it: the inner
texts of `row.getByRole('cell')`, the inner texts of
`row.locator('td, div[role="cell"]')`, and the inner text of the first
`a[href]` of the row (`none` when the row has no link or reading it fails, which
the source catches). -/
structure RenderedRow where
  roleCells : List Str
  locatorCells : List Str
  anchor : Option Str

/-- A rendered page: the rows under `table tbody tr` and the rows of
`page.getByRole('row')`. -/
structure Page where
  tableRows : List RenderedRow
  roleRows : List RenderedRow

/-- What `s.toLowerCase()` gives for one character, as far as the program can
observe it.  The lower-cased text is only searched for `rank`, `model`, digits
and `.`; besides `A`..`Z` the characters whose lower case contains an ASCII
character are U+212A (Kelvin sign, to `k`) and U+0130 (to `i` followed by
U+0307).  Every other character outside ASCII lower-cases to characters
outside ASCII and is left in place. -/
def lowerChar (c : Char) : Str :=
  if c = '\u212A' then ['k']
  else if c = '\u0130' then ['i', '\u0307']
  else [c.toLower]

/-- What `s.toLowerCase()` gives. -/
def toLowerCase (s : Str) : Str := s.flatMap lowerChar

/-- What `cells.join(sep)` gives. -/
def joinWith (sep : Str) : List Str → Str
  | [] => []
  | [a] => a
  | a :: b :: rest => a ++ sep ++ joinWith sep (b :: rest)

/-- What `a ?? b` gives. -/
def nullish {α : Type} (a b : Option α) : Option α :=
  match a with
  | some x => some x
  | none => b

/-- What `cells[cells.length - k]` gives: `undefined` when the index is negative. -/
def fromEnd (cells : List Str) (k : Nat) : Option Str :=
  if k ≤ cells.length then cells[cells.length - k]? else none

/-- The pattern matching the characters of `w` in a row. -/
def Re.word : Str → Re
  | [] => .eps
  | [c] => .atom (.chr c)
  | c :: cs => .seq (.atom (.chr c)) (Re.word cs)

/-- The alternation `(w1|w2|...)` of literal words. -/
def Re.anyWord : List String → Re
  | [] => .eps
  | [w] => Re.word w.toList
  | w :: ws => .alt (Re.word w.toList) (Re.anyWord ws)

/-- The expression `/\s+/g` of the cell normalisation. -/
def reSpaces : RegExp := ⟨.rep .space 1 none, false, false⟩

/-- The expression `/\d{3,4}(\.\d+)?/` behind `hasScore`. -/
def reHasScore : RegExp :=
  ⟨.seq (.rep .digit 3 (some 4)) (.opt (.seq (.atom (.chr '.')) (.rep .digit 1 none))),
    false, false⟩

/-- The marker expression of the score search.  The source file holds the four
bytes C3 82 C2 B1 between the slashes, which in UTF-8 are the two characters
U+00C2 U+00B1. -/
def reMarker : RegExp := ⟨Re.word ['\u00C2', '\u00B1'], false, false⟩

/-- The expression `/^\d{3,4}/` of the score search. -/
def reLeadScore : RegExp := ⟨.rep .digit 3 (some 4), true, false⟩

/-- The expression `/vote/i` of the votes search. -/
def reVote : RegExp := ⟨Re.word "vote".toList, false, true⟩

/-- The organization expression, with the flag `i`. -/
def reOrganization : RegExp :=
  ⟨Re.anyWord ["openai", "anthropic", "google", "meta", "alibaba", "minimax", "mistral",
      "z.ai", "microsoft", "tencent", "bytedance", "cohere", "stepfun", "perplexity",
      "nvidia", "qwen", "moonshot", "deepseek", "gemma", "gemini", "llama", "api", "ai",
      ".com", ".cn", ".co"], false, true⟩

/-- The license expression, with the flag `i`. -/
def reLicense : RegExp :=
  ⟨Re.anyWord ["MIT", "Apache", "Proprietary", "Llama", "Open Model", "CC-", "Gemma"],
    false, true⟩

/-- The elements of the loop variable `cells`.  The condition of the source,
`await row.getByRole('cell').all().length`, reads `length` from the promise
returned by `all()`, before it is awaited; a promise has no such property, so
the condition is `undefined` and the second branch is taken for every row. -/
def rowCells (row : RenderedRow) : List Str :=
  let lengthOfPromise : Option Nat := none
  match lengthOfPromise with
  | some (_ + 1) => row.roleCells
  | _ => row.locatorCells

/-- The text pushed to `textCells` for one cell. -/
def normalizeCell (t : Str) : Str := replaceAll reSpaces [' '] (trim t)

/-- The array `textCells` of a row. -/
def textCellsOf (row : RenderedRow) : List Str := (rowCells row).map normalizeCell

/-- The string `joined` of a row. -/
def joinedOf (textCells : List Str) : Str := toLowerCase (joinWith " | ".toList textCells)

/-- The variable `hasScore`. -/
def hasScore (joined : Str) : Bool := reHasScore.test joined

/-- The variable `looksLikeHeader`. -/
def looksLikeHeader (joined : Str) : Bool :=
  includes "rank".toList joined && includes "model".toList joined

/-- An element of `items`. -/
structure Item where
  rankUB : Option JSNumber
  model : Option Str
  score : Option JSNumber
  votes : Option JSNumber
  organization : Option Str
  license : Option Str
  deriving DecidableEq

/-- The field mapping of an accepted row. -/
def mapFields (textCells : List Str) (anchor : Option Str) : Item :=
  { rankUB := toInt textCells[0]?
    model :=
      match anchor with
      | some a => some (trim a)
      | none => textCells[1]?
    score :=
      toFloat (nullish (textCells.find? reMarker.test) (textCells.find? reLeadScore.test))
    votes :=
      toInt (nullish (textCells.find? reVote.test)
        (nullish (fromEnd textCells 3) (nullish (fromEnd textCells 2) (fromEnd textCells 1))))
    organization := textCells.find? reOrganization.test
    license := textCells.find? reLicense.test }

/-- One pass of the loop body: `none` when the row is skipped by a
`continue`, the pushed item otherwise. -/
def rowItem (row : RenderedRow) : Option Item :=
  if (rowCells row).isEmpty then none
  else
    let textCells := textCellsOf row
    let joined := joinedOf textCells
    if !hasScore joined || looksLikeHeader joined then none
    else some (mapFields textCells row.anchor)

/-- The loop body acting on the array `items`. -/
def rowStep (items : List Item) (row : RenderedRow) : List Item :=
  match rowItem row with
  | none => items
  | some item => items ++ [item]

/-- The rows the loop runs over: the table rows, or the rows by role when the
table has none. -/
def pageRows (page : Page) : List RenderedRow :=
  if page.tableRows.isEmpty then page.roleRows else page.tableRows

/-- The predicate of the final filter, `r.model && r.score`: the model is a
non-empty string and the score is a number other than zero. -/
def keeps (r : Item) : Bool :=
  (match r.model with
    | some m => !m.isEmpty
    | none => false) &&
  (match r.score with
    | some v => decide (v ≠ 0)
    | none => false)

/-- The function `extractTableRows`. -/
def extractTableRows (page : Page) : List Item :=
  ((pageRows page).foldl rowStep []).filter keeps

/-- The constant `BASE`. -/
def BASE : Str := "https://lmarena.ai/leaderboard".toList

/-- An element of the array returned by `scrapeArena`. -/
structure Record where
  arena : Str
  rank_position : JSNumber
  model_name : Option Str
  organization : Option Str
  overall_score : Option JSNumber
  votes : Option JSNumber
  license : Option Str
  source_url : Str
  deriving DecidableEq

/-- The callback of `rows.map` in `scrapeArena`. -/
def toRecord (slug url : Str) (r : Item) (i : Nat) : Record :=
  { arena := slug
    rank_position :=
      match r.rankUB with
      | some v => v
      | none => .fin ((i + 1 : Nat) : ℚ)
    model_name := r.model
    organization := r.organization
    overall_score := r.score
    votes := r.votes
    license := r.license
    source_url := url }

/-- What `rows.map((r, i) => f(r, i))` gives, the first index being `i`. -/
def mapWithIndex {α β : Type} (f : α → Nat → β) : Nat → List α → List β
  | _, [] => []
  | i, a :: as => f a i :: mapWithIndex f (i + 1) as

/-- The function `scrapeArena` on the page that `page.goto` rendered. -/
def scrapeArena (page : Page) (slug : Str) : List Record :=
  let url := BASE ++ "/".toList ++ slug
  mapWithIndex (toRecord slug url) 0 (extractTableRows page)

/-! ## The run over the categories -/

/-- An element of the array `payload`: the record, the timestamp of the run and
the field `row_json`. -/
structure Payload where
  record : Record
  scraped_at : Str
  row_json : Record
  deriving DecidableEq

/-- What the program does to the outside, in order. -/
inductive Event where
  /-- The call `page.goto(url, ...)`. -/
  | goto (url : Str)
  /-- The call `supabase.from(table).upsert(payload, { onConflict })`. -/
  | upsert (table : Str) (payload : List Payload) (onConflict : Str)
  /-- A call of `console.warn`. -/
  | warn (msg : Str)
  /-- A call of `console.error`, with its second argument if it has one. -/
  | error (msg : Str) (detail : Option Str)
  /-- A call of `console.log`. -/
  | log (msg : Str)
  /-- The call `browser.close()`. -/
  | close
  deriving DecidableEq

/-- A computation with effects: from the events so far it gives the events
after it and either a value or the message of the exception it throws. -/
def Eff (α : Type) : Type := List Event → Except Str α × List Event

/-- A computation that returns at once. -/
def Eff.pure {α : Type} (a : α) : Eff α := fun t => (.ok a, t)

/-- The statement `throw`. -/
def Eff.throw {α : Type} (e : Str) : Eff α := fun t => (.error e, t)

/-- One effect. -/
def Eff.emit (ev : Event) : Eff Unit := fun t => (.ok (), t ++ [ev])

/-- Sequencing: an exception of the first part skips the second. -/
def Eff.bind {α β : Type} (m : Eff α) (f : α → Eff β) : Eff β := fun t =>
  match m t with
  | (.ok a, t1) => f a t1
  | (.error e, t1) => (.error e, t1)

/-- The statement `try { body } catch (e) { handler }`. -/
def Eff.tryCatch {α : Type} (body : Eff α) (handler : Str → Eff α) : Eff α := fun t =>
  match body t with
  | (.ok a, t1) => (.ok a, t1)
  | (.error e, t1) => handler e t1

/-- The statement `try { body } finally { cleanup }`. -/
def Eff.tryFinally {α : Type} (body : Eff α) (cleanup : Eff Unit) : Eff α := fun t =>
  match body t with
  | (r, t1) =>
    match cleanup t1 with
    | (.ok _, t2) => (r, t2)
    | (.error e, t2) => (.error e, t2)

/-- The collaborators of a run: what rendering the page of a category gives
(the page, or the message of the exception thrown while scraping), and what
an upsert gives (the `error` field of the response, `none` for a response
without error, or the message of a thrown exception). -/
structure World where
  render : Str → Except Str Page
  store : Str → List Payload → Str → Except Str (Option Str)

/-- The call `scrapeArena(page, slug)` inside the run: the page is requested,
and the rendered page is scraped unless rendering throws. -/
def callScrapeArena (w : World) (slug : Str) : Eff (List Record) :=
  Eff.bind (Eff.emit (.goto (BASE ++ "/".toList ++ slug))) fun _ =>
    match w.render slug with
    | .ok page => Eff.pure (scrapeArena page slug)
    | .error e => Eff.throw e

/-- The name of the table. -/
def TABLE : Str := "lm_arena_leaderboard_snapshots".toList

/-- The option `onConflict` of the upsert. -/
def ON_CONFLICT : Str := "arena, scraped_at, model_name, rank_position".toList

/-- The awaited upsert call. -/
def callUpsert (w : World) (payload : List Payload) : Eff (Option Str) :=
  Eff.bind (Eff.emit (.upsert TABLE payload ON_CONFLICT)) fun _ =>
    match w.store TABLE payload ON_CONFLICT with
    | .ok r => Eff.pure r
    | .error e => Eff.throw e

/-- The callback of `rows.map` that builds `payload`. -/
def toPayload (scraped_at : Str) (r : Record) : Payload := ⟨r, scraped_at, r⟩

/-- The decimal numeral of a length, as a template literal prints it. -/
def showNat (n : Nat) : Str := (Nat.toDigits 10 n)

/-- The body of the loop over `ARENAS`, with its `try` and `catch`. -/
def processArena (w : World) (scraped_at slug : Str) : Eff Unit :=
  Eff.tryCatch
    (Eff.bind (callScrapeArena w slug) fun rows =>
      if rows.isEmpty then
        Eff.emit (.warn ("[WARN] Geen rijen voor ".toList ++ slug))
      else
        let payload := rows.map (toPayload scraped_at)
        Eff.bind (callUpsert w payload) fun error =>
          match error with
          | some e => Eff.emit (.error ("[ERROR] Upsert ".toList ++ slug ++ ":".toList) (some e))
          | none =>
            Eff.emit (.log ("[OK] ".toList ++ slug ++ ": ".toList ++ showNat rows.length
              ++ " rijen".toList)))
    (fun e => Eff.emit (.error ("[ARENA FAIL] ".toList ++ slug ++ ": ".toList ++ e) none))

/-- The loop `for (const slug of ARENAS)`. -/
def arenaLoop (w : World) (scraped_at : Str) : List Str → Eff Unit
  | [] => Eff.pure ()
  | slug :: rest => Eff.bind (processArena w scraped_at slug) fun _ => arenaLoop w scraped_at rest

/-- The constant `ARENAS`. -/
def ARENAS : List Str :=
  ["text", "webdev", "vision", "text-to-image", "image-edit", "search", "text-to-video",
    "image-to-video", "copilot"].map String.toList

/-- The body of the program once the browser is up: the loop inside
`try`, and `browser.close()` in `finally`. -/
def main (w : World) (scraped_at : Str) (arenas : List Str) : Eff Unit :=
  Eff.tryFinally (arenaLoop w scraped_at arenas) (Eff.emit .close)

/-- A row given by its cell texts, with no link. -/
def rowOfCells (cells : List String) : RenderedRow :=
  ⟨[], cells.map String.toList, none⟩

/-- A page with a header row, a row without score and three data rows, the
last of which has no parsable rank. -/
def rankPage : Page :=
  ⟨[rowOfCells ["Rank", "Model", "Score"],
    rowOfCells ["1", "Alpha", "1300"],
    rowOfCells ["", "sponsored", ""],
    rowOfCells ["2", "Beta", "1250"],
    rowOfCells ["n/a", "Gamma", "1200"]], []⟩

/-- The cell texts of the end-to-end scenario. -/
def scenarioCells : List Str :=
  ["1", "Model-Z", "1234 ± 5", "12,345 votes", "OpenAI", "Proprietary"].map String.toList

/-- The row of the end-to-end scenario. -/
def scenarioRow : RenderedRow :=
  rowOfCells ["1", "Model-Z", "1234 ± 5", "12,345 votes", "OpenAI", "Proprietary"]

/-- The record the end-to-end scenario names, with 12345 votes. -/
def scenarioClaimed : Item :=
  ⟨some 1, some "Model-Z".toList, some 1234, some 12345, some "OpenAI".toList,
    some "Proprietary".toList⟩

/-- The record the code extracts in the end-to-end scenario, with 12 votes. -/
def scenarioExtracted : Item :=
  ⟨some 1, some "Model-Z".toList, some 1234, some 12, some "OpenAI".toList,
    some "Proprietary".toList⟩

/-- A row whose score cell carries the sign U+00B1 and whose rank has three
digits. -/
def markerRow : RenderedRow := rowOfCells ["100", "Model-Z", "1234 ± 5"]

/-- The row of the votes example: no cell mentions votes. -/
def votesRow : RenderedRow := rowOfCells ["1", "Model-Z", "1234", "OpenAI", "MIT", "5000"]

/-- A run in which rendering the category `webdev` throws, every other
category renders `rankPage`, and every upsert succeeds. -/
def isolationWorld : World :=
  ⟨fun slug => if slug = "webdev".toList then .error "Timeout 60000ms exceeded".toList
      else .ok rankPage,
    fun _ _ _ => .ok none⟩

/-! ## Notions of the specification -/

/-- The text contains a run of at least three consecutive decimal digits. -/
def DigitRun3 (s : Str) : Prop :=
  ∃ pre a b c post, s = pre ++ a :: b :: c :: post ∧
    a.isDigit = true ∧ b.isDigit = true ∧ c.isDigit = true

/-- The address of a page request. -/
def Event.gotoUrl? : Event → Option Str
  | .goto url => some url
  | _ => none

/-- The events of one category, read off its own outcomes: the page request,
then the failure line when rendering throws, the warning when no record
survives, and otherwise the upsert of the batch followed by the line for its
result. -/
def arenaEvents (w : World) (scraped_at slug : Str) : List Event :=
  .goto (BASE ++ "/".toList ++ slug) ::
    match w.render slug with
    | .error e => [.error ("[ARENA FAIL] ".toList ++ slug ++ ": ".toList ++ e) none]
    | .ok page =>
      if (scrapeArena page slug).isEmpty then
        [.warn ("[WARN] Geen rijen voor ".toList ++ slug)]
      else
        .upsert TABLE ((scrapeArena page slug).map (toPayload scraped_at)) ON_CONFLICT ::
          match w.store TABLE ((scrapeArena page slug).map (toPayload scraped_at)) ON_CONFLICT with
          | .ok none =>
            [.log ("[OK] ".toList ++ slug ++ ": ".toList ++ showNat (scrapeArena page slug).length
              ++ " rijen".toList)]
          | .ok (some e) => [.error ("[ERROR] Upsert ".toList ++ slug ++ ":".toList) (some e)]
          | .error e => [.error ("[ARENA FAIL] ".toList ++ slug ++ ": ".toList ++ e) none]

/-- The text contains the word, letters compared without regard to case. -/
def ContainsCI (w s : Str) : Prop := w.map Char.toUpper <:+: s.map Char.toUpper

/-- The votes fallback as the specification words it: of the third-from-last,
second-from-last and last cell, in that order, the first that parses as an
integer. -/
def votesFallbackSpec (textCells : List Str) : Option JSNumber :=
  nullish (toInt (fromEnd textCells 3))
    (nullish (toInt (fromEnd textCells 2)) (toInt (fromEnd textCells 1)))

/-- One or more decimal digits. -/
def IsDigits (ds : Str) : Prop := ds ≠ [] ∧ ∀ c ∈ ds, c.isDigit = true

/-- A text of the given kind, or `-` followed by one. -/
def OptMinus (P : Str → Prop) (l : Str) : Prop := P l ∨ ∃ u, l = '-' :: u ∧ P u

/-- A signed integer literal: an optional `-` followed by one or more digits. -/
def IsIntLiteral : Str → Prop := OptMinus IsDigits

/-- Digits, optionally followed by `.` and digits. -/
def IsUnsignedDecimal (l : Str) : Prop :=
  ∃ ds, IsDigits ds ∧ (l = ds ∨ ∃ fs, IsDigits fs ∧ l = ds ++ '.' :: fs)

/-- A signed decimal literal: an optional `-`, digits, and optionally `.` and
digits. -/
def IsDecimalLiteral : Str → Prop := OptMinus IsUnsignedDecimal

/-- The text `l` is the first literal of the kind `P` in `t`: it occurs in `t`,
and every occurrence of such a literal in `t` starts further right, or starts
at the same place and is no longer. -/
def IsFirst (P : Str → Prop) (t l : Str) : Prop :=
  ∃ pre post, t = pre ++ l ++ post ∧ P l ∧
    ∀ pre2 l2 post2, t = pre2 ++ l2 ++ post2 → P l2 →
      pre.length < pre2.length ∨ (pre.length = pre2.length ∧ l2.length ≤ l.length)

/-- A literal of the kind `P` occurs in `t`. -/
def Occurs (P : Str → Prop) (t : Str) : Prop := ∃ pre l post, t = pre ++ l ++ post ∧ P l

/-- The text with every `.` removed. -/
def removeDots (s : Str) : Str := s.filter (fun c => c != '.')

/-- The number a string of digits denotes in base ten. -/
def decimalValue (ds : Str) : Nat := Nat.ofDigits 10 (ds.reverse.map digitVal)

/-- The integer a signed integer literal denotes. -/
def intLiteralValue (l : Str) : Int :=
  if l.head? = some '-' then -(decimalValue l.tail : Int) else (decimalValue l : Int)

/-- The number an unsigned decimal literal denotes: the digits before the dot,
plus the digits after it scaled by their number. -/
def unsignedDecimalValue (u : Str) : ℚ :=
  let ip := u.takeWhile (fun c => c != '.')
  let fp := (u.dropWhile (fun c => c != '.')).drop 1
  (decimalValue ip : ℚ) + (decimalValue fp : ℚ) / (10 : ℚ) ^ fp.length

/-- The number a signed decimal literal denotes. -/
def decimalLiteralValue (l : Str) : ℚ :=
  if l.head? = some '-' then -unsignedDecimalValue l.tail else unsignedDecimalValue l

/-- The text `t` is `s` with its first `,` replaced by `.`, or `s` itself when
it has no comma. -/
def FirstCommaReplaced (s t : Str) : Prop :=
  (',' ∉ s ∧ t = s) ∨ ∃ pre post, s = pre ++ ',' :: post ∧ ',' ∉ pre ∧ t = pre ++ '.' :: post

/-- The float parsing as the specification words it: every `,` becomes `.`,
then the first signed decimal literal is read. -/
def toFloatAllCommas (s : Str) : Option JSNumber :=
  match reFloat.exec (s.map (fun c => if c = ',' then '.' else c)) with
  | some m => parseFloat m
  | none => none

/-! ## Notions and examples for the snapshot records -/

/-- A row with a score cell of zeros. -/
def zeroRow : RenderedRow := rowOfCells ["1", "Model-Z", "000"]

/-- A row whose score cell starts with `0` and carries the marker of the code,
the two characters U+00C2 U+00B1. -/
def zeroMarkerRow : RenderedRow := rowOfCells ["1", "Model-Z", "0 \u00C2\u00B1 5", "1234 votes"]

/-- The words of the organization expression. -/
def organizationTokens : List String :=
  ["openai", "anthropic", "google", "meta", "alibaba", "minimax", "mistral",
    "z.ai", "microsoft", "tencent", "bytedance", "cohere", "stepfun", "perplexity",
    "nvidia", "qwen", "moonshot", "deepseek", "gemma", "gemini", "llama", "api", "ai",
    ".com", ".cn", ".co"]

/-- The words of the license expression. -/
def licenseTokens : List String :=
  ["MIT", "Apache", "Proprietary", "Llama", "Open Model", "CC-", "Gemma"]

/-- The text contains one of the words, letters compared without regard to
case. -/
def MentionsAny (ws : List String) (c : Str) : Prop := ∃ w ∈ ws, ContainsCI w.toList c

/-- The value `o` is the first of the cells, in column order, with the property
`P`, and null when no cell has it. -/
def FirstMatching (P : Str → Prop) (cells : List Str) : Option Str → Prop
  | none => ∀ c ∈ cells, ¬ P c
  | some c => ∃ pre post, cells = pre ++ c :: post ∧ P c ∧ ∀ d ∈ pre, ¬ P d

/-- A row whose model cell mentions a word of the organization expression
before the organization cell does. -/
def haikuRow : RenderedRow :=
  rowOfCells ["3", "Claude 3 Haiku", "1179", "Anthropic", "Proprietary"]

/-- A row with a rank of three digits, a later score cell and no marker. -/
def rankScoreRow : RenderedRow := rowOfCells ["100", "Model-Z", "1234"]

/-- A row whose first cell is a decimal of three digits before the dot, with a
later score cell and no marker. -/
def decimalRankRow : RenderedRow := rowOfCells ["100.5", "Model-Z", "1234"]

/-- Whether a row is accepted and its item passes the final filter. -/
def survives (row : RenderedRow) : Bool :=
  match rowItem row with
  | some item => keeps item
  | none => false

/-- The item a row is mapped to. -/
def itemOf (row : RenderedRow) : Item := mapFields (textCellsOf row) row.anchor

/-- The natural key of a snapshot record: the columns named by the option
`onConflict`. -/
abbrev NaturalKey : Type := Str × Str × Option Str × JSNumber

/-- The natural key of an element of the payload. -/
def naturalKey (p : Payload) : NaturalKey :=
  (p.record.arena, p.scraped_at, p.record.model_name, p.record.rank_position)

/-- The batch handed to upsert for one category: `scrapeArena` followed by the
payload mapping. -/
def snapshotBatch (page : Page) (slug scraped_at : Str) : List Payload :=
  (scrapeArena page slug).map (toPayload scraped_at)

/-- A page that renders the same row twice. -/
def duplicatePage : Page :=
  ⟨[rowOfCells ["1", "Alpha", "1300"], rowOfCells ["1", "Alpha", "1300"]], []⟩

/-- Two pages of one row each, which differ in the last cell only. -/
def auditPageA : Page := ⟨[rowOfCells ["1", "Model-Z", "1234", "foo"]], []⟩

/-- The second of the two pages. -/
def auditPageB : Page := ⟨[rowOfCells ["1", "Model-Z", "1234", "bar"]], []⟩

/-- Modelled from the spec: the persistence backend, which is not part of the
repository, as a map from the natural key to the stored row. -/
def Store : Type := NaturalKey → Option Payload

/-- Modelled from the spec: the upsert of one record, which replaces the row
stored under the key of the record or stores the record under a new key. -/
def Store.put (s : Store) (p : Payload) : Store :=
  fun k => if k = naturalKey p then some p else s k

/-- Modelled from the spec: the upsert of a batch, record after record. -/
def Store.upsert (s : Store) (batch : List Payload) : Store := batch.foldl Store.put s

/-- Whether an event is a line on the console. -/
def Event.isConsole : Event → Bool
  | .warn _ => true
  | .error _ _ => true
  | .log _ => true
  | _ => false

/-- The first argument of a console call. -/
def Event.text? : Event → Option Str
  | .warn msg => some msg
  | .error msg _ => some msg
  | .log msg => some msg
  | _ => none

/-- The one console call of a category, read off its outcomes. -/
def outcomeLine (w : World) (scraped_at slug : Str) : Event :=
  match w.render slug with
  | .error e => .error ("[ARENA FAIL] ".toList ++ slug ++ ": ".toList ++ e) none
  | .ok page =>
    if (scrapeArena page slug).isEmpty then .warn ("[WARN] Geen rijen voor ".toList ++ slug)
    else
      match w.store TABLE ((scrapeArena page slug).map (toPayload scraped_at)) ON_CONFLICT with
      | .ok none =>
        .log ("[OK] ".toList ++ slug ++ ": ".toList ++ showNat (scrapeArena page slug).length
          ++ " rijen".toList)
      | .ok (some e) => .error ("[ERROR] Upsert ".toList ++ slug ++ ":".toList) (some e)
      | .error e => .error ("[ARENA FAIL] ".toList ++ slug ++ ": ".toList ++ e) none

/-- The line of the specification for a persisted batch. -/
def specOkLine (slug : Str) (n : Nat) : Str :=
  "OK ".toList ++ slug ++ ": ".toList ++ showNat n ++ " rows".toList

/-- The line of the specification for a category without records. -/
def specWarnLine (slug : Str) : Str := "WARN ".toList ++ slug ++ ": no rows".toList

/-- The line of the specification for a failed category. -/
def specErrorLine (slug msg : Str) : Str := "ERROR ".toList ++ slug ++ ": ".toList ++ msg

/-- A run in which `text` renders three records, `webdev` throws and `vision`
renders a page without rows. -/
def logWorld : World :=
  ⟨fun slug =>
      if slug = "webdev".toList then .error "Timeout 60000ms exceeded".toList
      else if slug = "vision".toList then .ok ⟨[], []⟩
      else .ok rankPage,
    fun _ _ _ => .ok none⟩

/-- The record of the one row of `auditPageA` in the category `text`. -/
def auditRecord : Record :=
  ⟨"text".toList, 1, some "Model-Z".toList, none, some 1234, none, none,
    "https://lmarena.ai/leaderboard/text".toList⟩

/-! ## The matcher: general facts -/

/-- The number of iterations a greedy repetition makes on a run of `m`
matching characters when `n` iterations are already done. -/
def capLen (hi : Option Nat) (n m : Nat) : Nat :=
  match hi with
  | none => m
  | some h => min m (h - n)

theorem capLen_zero (hi : Option Nat) (n : Nat) : capLen hi n 0 = 0 := by
  cases hi <;> simp [capLen]

/-- With a continuation that never fails, a greedy repetition takes as many
characters as the bounds allow. -/
theorem repeatAtom_total (p : Char → Bool) (lo : Nat) (hi : Option Nat) (k : Str → Option Str)
    (hk : ∀ t, (k t).isSome = true) (s : Str) :
    ∀ n, repeatAtom p lo hi k n s =
      if lo ≤ n + capLen hi n (s.takeWhile p).length
      then k (s.drop (capLen hi n (s.takeWhile p).length)) else none := by
  induction s with
  | nil => intro n; simp [repeatAtom, capLen_zero]
  | cons x xs ih =>
    intro n
    unfold repeatAtom
    by_cases hp : p x = true
    · cases hi with
      | none =>
        simp only [hp, Bool.and_self, if_true, List.takeWhile_cons_of_pos, List.length_cons,
          capLen, List.drop_succ_cons, ih (n + 1)]
        by_cases hlo : lo ≤ n + 1 + (List.takeWhile p xs).length
        · have hlo2 : lo ≤ n + ((List.takeWhile p xs).length + 1) := by omega
          simp only [hlo, hlo2, if_true]
          split
          · next r heq => exact heq.symm
          · next heq => have hs := hk (List.drop (List.takeWhile p xs).length xs); rw [heq] at hs; simp at hs
        · have hlo2 : ¬ lo ≤ n + ((List.takeWhile p xs).length + 1) := by omega
          have hlo3 : ¬ lo ≤ n := by omega
          simp [hlo, hlo2, hlo3]
      | some h =>
        by_cases hn : n < h
        · have hc : min ((List.takeWhile p xs).length + 1) (h - n)
              = min (List.takeWhile p xs).length (h - (n + 1)) + 1 := by omega
          simp only [hp, hn, decide_True, Bool.and_self, if_true, List.takeWhile_cons_of_pos,
            List.length_cons, capLen, hc, List.drop_succ_cons, ih (n + 1)]
          by_cases hlo : lo ≤ n + 1 + min (List.takeWhile p xs).length (h - (n + 1))
          · have hlo2 : lo ≤ n + (min (List.takeWhile p xs).length (h - (n + 1)) + 1) := by
              omega
            simp only [hlo, hlo2, if_true]
            split
            · next r heq => exact heq.symm
            · next heq =>
              have hs := hk (List.drop (min (List.takeWhile p xs).length (h - (n + 1))) xs)
              rw [heq] at hs; simp at hs
          · have hlo2 : ¬ lo ≤ n + (min (List.takeWhile p xs).length (h - (n + 1)) + 1) := by
              omega
            have hlo3 : ¬ lo ≤ n := by omega
            simp [hlo, hlo2, hlo3]
        · have hc : min (List.takeWhile p (x :: xs)).length (h - n) = 0 := by omega
          simp [hn, capLen, hc]
    · have hp2 : p x = false := by simpa using hp
      simp [hp2, capLen_zero]

theorem drop_length_takeWhile (p : Char → Bool) (s : Str) :
    s.drop (s.takeWhile p).length = s.dropWhile p := by
  induction s with
  | nil => rfl
  | cons x xs ih =>
    by_cases hp : p x = true
    · simp [hp, ih]
    · have hp2 : p x = false := by simpa using hp
      simp [hp2]

/-- What a repetition hands to its continuation is a suffix of its input. -/
theorem repeatAtom_suffix (p : Char → Bool) (lo : Nat) (hi : Option Nat) (k : Str → Option Str)
    (s : Str) : ∀ n r, repeatAtom p lo hi k n s = some r → ∃ t, t <:+ s ∧ k t = some r := by
  induction s with
  | nil =>
    intro n r h
    unfold repeatAtom at h
    split at h
    · exact ⟨[], List.suffix_refl _, h⟩
    · simp at h
  | cons x xs ih =>
    intro n r h
    unfold repeatAtom at h
    have key : ∀ o : Option Str, (if lo ≤ n then k (x :: xs) else none) = o → o = some r →
        ∃ t, t <:+ x :: xs ∧ k t = some r := by
      intro o ho hr
      subst ho
      split at hr
      · exact ⟨x :: xs, List.suffix_refl _, hr⟩
      · simp at hr
    split at h
    · cases hrec : repeatAtom p lo hi k (n + 1) xs with
      | some r2 =>
        rw [hrec] at h
        obtain ⟨t, ht, hkt⟩ := ih (n + 1) r2 hrec
        refine ⟨t, ht.trans (List.suffix_cons x xs), ?_⟩
        simpa [hkt] using h
      | none =>
        rw [hrec] at h
        exact key _ rfl h
    · exact key _ rfl h

/-- What the matcher hands to its continuation is a suffix of its input. -/
theorem run_suffix (ic : Bool) (re : Re) :
    ∀ (s : Str) (k : Str → Option Str) (r : Str),
      re.run ic s k = some r → ∃ t, t <:+ s ∧ k t = some r := by
  induction re with
  | eps => intro s k r h; exact ⟨s, List.suffix_refl _, h⟩
  | atom a =>
    intro s k r h
    cases s with
    | nil => simp [Re.run] at h
    | cons x xs =>
      simp only [Re.run] at h
      split at h
      · exact ⟨xs, List.suffix_cons x xs, h⟩
      · simp at h
  | seq r1 r2 ih1 ih2 =>
    intro s k r h
    simp only [Re.run] at h
    obtain ⟨t, ht, h2⟩ := ih1 s _ r h
    obtain ⟨u, hu, h3⟩ := ih2 t k r h2
    exact ⟨u, hu.trans ht, h3⟩
  | alt r1 r2 ih1 ih2 =>
    intro s k r h
    simp only [Re.run] at h
    cases h1 : Re.run ic r1 s k with
    | some r0 =>
      rw [h1] at h
      have : r0 = r := by simpa using h
      subst this
      exact ih1 s k r0 h1
    | none =>
      rw [h1] at h
      exact ih2 s k r h
  | opt r1 ih1 =>
    intro s k r h
    simp only [Re.run] at h
    cases h1 : Re.run ic r1 s k with
    | some r0 =>
      rw [h1] at h
      have : r0 = r := by simpa using h
      subst this
      exact ih1 s k r0 h1
    | none =>
      rw [h1] at h
      exact ⟨s, List.suffix_refl _, h⟩
  | rep a lo hi =>
    intro s k r h
    simp only [Re.run] at h
    exact repeatAtom_suffix _ lo hi k s 0 r h

/-- What a match leaves is a suffix of the input. -/
theorem matchAt_suffix (re : RegExp) (s r : Str) (h : re.matchAt s = some r) : r <:+ s := by
  obtain ⟨t, ht, hk⟩ := run_suffix re.ignoreCase re.body s some r h
  have : t = r := by simpa using hk
  exact this ▸ ht

theorem matchedText_append (s r : Str) (h : r <:+ s) : matchedText s r ++ r = s := by
  obtain ⟨pre, rfl⟩ := h
  simp [matchedText]

/-- The search fails exactly when no suffix of the input has a match in front. -/
theorem searchFrom_eq_none (re : RegExp) (s : Str) :
    re.searchFrom s = none ↔ ∀ t, t <:+ s → re.matchAt t = none := by
  induction s with
  | nil =>
    unfold RegExp.searchFrom
    constructor
    · intro h t ht
      have : t = [] := List.eq_nil_of_suffix_nil ht
      subst this
      cases hm : re.matchAt [] with
      | none => rfl
      | some r => simp [hm] at h
    · intro h
      simp [h [] (List.suffix_refl _)]
  | cons x xs ih =>
    unfold RegExp.searchFrom
    constructor
    · intro h t ht
      cases hm : re.matchAt (x :: xs) with
      | some r => simp [hm] at h
      | none =>
        rw [hm] at h
        rcases List.suffix_cons_iff.mp ht with rfl | ht2
        · exact hm
        · exact (ih.mp h) t ht2
    · intro h
      rw [h (x :: xs) (List.suffix_refl _)]
      exact ih.mpr (fun t ht => h t (ht.trans (List.suffix_cons x xs)))

/-- A successful search: the input splits into what precedes the match, the
matched text and the rest; the match is found at that position and at no
earlier one. -/
theorem searchFrom_eq_some (re : RegExp) (s m r : Str) :
    re.searchFrom s = some (m, r) ↔
      ∃ pre, s = pre ++ (m ++ r) ∧ re.matchAt (m ++ r) = some r ∧
        ∀ p t, s = p ++ t → p.length < pre.length → re.matchAt t = none := by
  induction s with
  | nil =>
    unfold RegExp.searchFrom
    constructor
    · intro h
      cases hm : re.matchAt [] with
      | none => simp [hm] at h
      | some r0 =>
        rw [hm] at h
        simp only [Option.some.injEq, Prod.mk.injEq] at h
        obtain ⟨rfl, rfl⟩ := h
        have hr : r0 = [] := List.eq_nil_of_suffix_nil (matchAt_suffix re [] r0 hm)
        subst hr
        exact ⟨[], by simp, by simpa using hm, by intro p t _ hp; simp at hp⟩
    · rintro ⟨pre, hs, hm, -⟩
      have h1 : pre = [] ∧ m = [] ∧ r = [] := by
        have := congrArg List.length hs
        simp at this
        refine ⟨?_, ?_, ?_⟩ <;> apply List.eq_nil_of_length_eq_zero <;> omega
      obtain ⟨rfl, rfl, rfl⟩ := h1
      simp at hm
      simp [hm]
  | cons x xs ih =>
    unfold RegExp.searchFrom
    constructor
    · intro h
      cases hm : re.matchAt (x :: xs) with
      | some r0 =>
        rw [hm] at h
        simp only [Option.some.injEq, Prod.mk.injEq] at h
        obtain ⟨rfl, rfl⟩ := h
        have hsplit := matchedText_append (x :: xs) r0 (matchAt_suffix re _ _ hm)
        refine ⟨[], by simpa using hsplit.symm, by rw [hsplit]; exact hm, ?_⟩
        intro p t _ hp
        simp at hp
      | none =>
        rw [hm] at h
        obtain ⟨pre, hs, hmr, hmin⟩ := ih.mp h
        refine ⟨x :: pre, by simp [hs], hmr, ?_⟩
        intro p t hpt hp
        cases p with
        | nil =>
          simp at hpt
          rw [← hpt]
          exact hm
        | cons y ys =>
          simp at hpt
          exact hmin ys t hpt.2 (by simpa using hp)
    · rintro ⟨pre, hs, hmr, hmin⟩
      cases pre with
      | nil =>
        simp at hs
        rw [hs, hmr]
        simp [matchedText]
      | cons y ys =>
        have h0 := hmin [] (x :: xs) (by simp) (by simp)
        rw [h0]
        simp at hs
        exact ih.mpr ⟨ys, hs.2, hmr, fun p t hpt hp => hmin (x :: p) t (by simp [hpt]) (by simpa using hp)⟩

/-! ## The loop of `extractTableRows` -/

theorem foldl_rowStep (rows : List RenderedRow) :
    ∀ acc, rows.foldl rowStep acc = acc ++ rows.filterMap rowItem := by
  induction rows with
  | nil => intro acc; simp
  | cons r rs ih =>
    intro acc
    rw [List.foldl_cons, ih]
    cases h : rowItem r <;> simp [rowStep, h, List.filterMap_cons]

theorem extractTableRows_eq (page : Page) :
    extractTableRows page = ((pageRows page).filterMap rowItem).filter keeps := by
  simp [extractTableRows, foldl_rowStep]

/-- A row that is skipped leaves the output as if it were not on the page. -/
theorem skipped_row_contributes_nothing (row : RenderedRow) (h : rowItem row = none) :
    (∀ items, rowStep items row = items) ∧
      ∀ page pre post, pageRows page = pre ++ row :: post →
        extractTableRows page = ((pre ++ post).foldl rowStep []).filter keeps := by
  refine ⟨fun items => by simp [rowStep, h], ?_⟩
  intro page pre post hp
  simp [extractTableRows, hp, foldl_rowStep, List.filterMap_cons, h, rowStep]

theorem rowItem_of_textCells (row : RenderedRow) (h : textCellsOf row ≠ []) :
    rowItem row =
      if !hasScore (joinedOf (textCellsOf row)) || looksLikeHeader (joinedOf (textCellsOf row))
      then none else some (mapFields (textCellsOf row) row.anchor) := by
  have hc : (rowCells row).isEmpty = false := by
    cases hr : rowCells row with
    | nil => simp [textCellsOf, hr] at h
    | cons x xs => rfl
  simp [rowItem, hc]

/-- An accepted row: its cells are not empty, its joined text has a score and
is no header, and the pushed item is the field mapping of its cell texts. -/
theorem rowItem_eq_some (row : RenderedRow) (item : Item) (h : rowItem row = some item) :
    textCellsOf row ≠ [] ∧ hasScore (joinedOf (textCellsOf row)) = true ∧
      looksLikeHeader (joinedOf (textCellsOf row)) = false ∧
      item = mapFields (textCellsOf row) row.anchor := by
  unfold rowItem at h
  split at h
  · simp at h
  · next hc =>
    simp only at h
    split at h
    · simp at h
    · next hcond =>
      simp only [Bool.or_eq_true, Bool.not_eq_true', not_or, Bool.not_eq_false] at hcond
      refine ⟨?_, hcond.1, by simpa using hcond.2, by simpa using h.symm⟩
      intro hnil
      apply hc
      cases hr : rowCells row with
      | nil => rfl
      | cons x xs => simp [textCellsOf, hr] at hnil

theorem mem_extractTableRows (page : Page) (r : Item) :
    r ∈ extractTableRows page ↔ (∃ row ∈ pageRows page, rowItem row = some r) ∧ keeps r = true := by
  simp [extractTableRows_eq, List.mem_filter, List.mem_filterMap]

/-! ## Substring search -/

theorem includes_iff (sub s : Str) : includes sub s = true ↔ sub <:+: s := by
  induction s with
  | nil =>
    cases sub <;> simp [includes]
  | cons x xs ih =>
    rw [includes, Bool.or_eq_true, ih, List.infix_cons_iff, List.isPrefixOf_iff_prefix]

/-! ## The score pattern of the classifier -/

theorem test_iff_exists_suffix (re : RegExp) (ha : re.anchored = false) (s : Str) :
    re.test s = true ↔ ∃ t, t <:+ s ∧ (re.matchAt t).isSome = true := by
  unfold RegExp.test RegExp.exec
  simp only [ha, Bool.false_eq_true, if_false, Option.isSome_map]
  constructor
  · intro h
    by_contra hne
    have hnone : re.searchFrom s = none := by
      rw [searchFrom_eq_none]
      intro t ht
      cases hm : re.matchAt t with
      | none => rfl
      | some r => exact absurd ⟨t, ht, by simp [hm]⟩ hne
    simp [hnone] at h
  · rintro ⟨t, ht, hm⟩
    cases hs : re.searchFrom s with
    | some _ => rfl
    | none =>
      rw [searchFrom_eq_none] at hs
      simp [hs t ht] at hm

theorem reHasScore_matchAt_isSome (t : Str) :
    (reHasScore.matchAt t).isSome = true ↔ 3 ≤ (t.takeWhile Char.isDigit).length := by
  have hk : ∀ u : Str, (Re.run false (.opt (.seq (.atom (.chr '.')) (.rep .digit 1 none))) u
      some).isSome = true := by
    intro u
    simp only [Re.run]
    split <;> simp
  change (repeatAtom (Atom.test false .digit) 3 (some 4)
    (fun u => Re.run false (.opt (.seq (.atom (.chr '.')) (.rep .digit 1 none))) u some)
    0 t).isSome = true ↔ _
  rw [repeatAtom_total _ _ _ _ hk]
  have hfun : Atom.test false Atom.digit = Char.isDigit := by
    funext c; rfl
  simp only [hfun, capLen, Nat.zero_add, Nat.sub_zero]
  split
  · next h => simp only [hk, true_iff]; omega
  · next h => simp only [Option.isSome_none, Bool.false_eq_true, false_iff]; omega

theorem three_le_takeWhile_iff (t : Str) :
    3 ≤ (t.takeWhile Char.isDigit).length ↔
      ∃ a b c post, t = a :: b :: c :: post ∧
        a.isDigit = true ∧ b.isDigit = true ∧ c.isDigit = true := by
  constructor
  · intro h
    match t, h with
    | a :: b :: c :: post, h =>
      refine ⟨a, b, c, post, rfl, ?_⟩
      by_cases ha : a.isDigit = true
      · by_cases hb : b.isDigit = true
        · by_cases hc : c.isDigit = true
          · exact ⟨ha, hb, hc⟩
          · simp [List.takeWhile, ha, hb, hc] at h
        · simp [List.takeWhile, ha, hb] at h
      · simp [List.takeWhile, ha] at h
    | [a, b], h =>
      have := (List.takeWhile_sublist Char.isDigit (l := [a, b])).length_le
      simp at this; omega
    | [a], h =>
      have := (List.takeWhile_sublist Char.isDigit (l := [a])).length_le
      simp at this; omega
    | [], h => simp at h
  · rintro ⟨a, b, c, post, rfl, ha, hb, hc⟩
    simp [List.takeWhile, ha, hb, hc]

/-- The test behind `hasScore` succeeds exactly on the texts with a run of three
digits. -/
theorem hasScore_iff (s : Str) : hasScore s = true ↔ DigitRun3 s := by
  unfold hasScore
  rw [test_iff_exists_suffix reHasScore rfl]
  constructor
  · rintro ⟨t, ⟨pre, rfl⟩, hm⟩
    rw [reHasScore_matchAt_isSome, three_le_takeWhile_iff] at hm
    obtain ⟨a, b, c, post, rfl, h⟩ := hm
    exact ⟨pre, a, b, c, post, rfl, h⟩
  · rintro ⟨pre, a, b, c, post, rfl, h⟩
    refine ⟨a :: b :: c :: post, ⟨pre, rfl⟩, ?_⟩
    rw [reHasScore_matchAt_isSome, three_le_takeWhile_iff]
    exact ⟨a, b, c, post, rfl, h⟩

/-! ## Lower-casing keeps the digits -/

theorem isDigit_iff (c : Char) : c.isDigit = true ↔ 48 ≤ c.toNat ∧ c.toNat ≤ 57 := by
  simp only [Char.isDigit, Bool.and_eq_true, decide_eq_true_eq, ge_iff_le, Char.toNat]
  rw [UInt32.le_def, UInt32.le_def]
  rfl

theorem toNat_ofNat_small (n : Nat) (h : n < 55296) : (Char.ofNat n).toNat = n := by
  unfold Char.ofNat
  have hv : n.isValidChar := Or.inl h
  simp only [hv, dite_true]
  unfold Char.ofNatAux Char.toNat
  simp [UInt32.toNat]

theorem toLower_isDigit (c : Char) : c.toLower.isDigit = c.isDigit := by
  unfold Char.toLower
  simp only
  split
  · next h =>
    have h1 : ¬ (c.isDigit = true) := by rw [isDigit_iff]; omega
    have h2 : ¬ ((Char.ofNat (c.toNat + 32)).isDigit = true) := by
      rw [isDigit_iff, toNat_ofNat_small _ (by omega)]; omega
    simp [h1, h2]
  · rfl

theorem toLower_of_isDigit (c : Char) (h : c.isDigit = true) : c.toLower = c := by
  unfold Char.toLower
  rw [isDigit_iff] at h
  simp only
  split
  · next h2 => omega
  · rfl

theorem lowerChar_of_isDigit (c : Char) (h : c.isDigit = true) : lowerChar c = [c] := by
  unfold lowerChar
  have h1 : c ≠ '\u212A' := by rintro rfl; simp at h
  have h2 : c ≠ '\u0130' := by rintro rfl; simp at h
  simp [h1, h2, toLower_of_isDigit c h]

theorem lowerChar_of_not_isDigit (c : Char) (h : c.isDigit = false) :
    ∃ y ys, lowerChar c = y :: ys ∧ y.isDigit = false ∧ ∀ z ∈ ys, z.isDigit = false := by
  unfold lowerChar
  split
  · exact ⟨'k', [], rfl, by decide, by simp⟩
  · split
    · exact ⟨'i', ['\u0307'], rfl, by decide, by simp⟩
    · exact ⟨c.toLower, [], rfl, by rw [toLower_isDigit]; exact h, by simp⟩

theorem toLowerCase_cons (c : Char) (s : Str) :
    toLowerCase (c :: s) = lowerChar c ++ toLowerCase s := by
  simp [toLowerCase]

theorem takeWhile_toLowerCase (s : Str) :
    (toLowerCase s).takeWhile Char.isDigit = s.takeWhile Char.isDigit := by
  induction s with
  | nil => rfl
  | cons x xs ih =>
    rw [toLowerCase_cons]
    cases hx : x.isDigit with
    | true => simp [lowerChar_of_isDigit x hx, hx, ih]
    | false =>
      obtain ⟨y, ys, hl, hy, -⟩ := lowerChar_of_not_isDigit x hx
      simp [hl, hx, hy]

theorem digitRun3_nil : ¬ DigitRun3 [] := by
  rintro ⟨pre, a, b, c, post, h, -⟩
  simp at h

theorem digitRun3_cons (x : Char) (xs : Str) :
    DigitRun3 (x :: xs) ↔ 3 ≤ ((x :: xs).takeWhile Char.isDigit).length ∨ DigitRun3 xs := by
  rw [three_le_takeWhile_iff]
  constructor
  · rintro ⟨pre, a, b, c, post, h, hd⟩
    cases pre with
    | nil => exact Or.inl ⟨a, b, c, post, by simpa using h, hd⟩
    | cons y ys =>
      simp only [List.cons_append, List.cons.injEq] at h
      exact Or.inr ⟨ys, a, b, c, post, h.2, hd⟩
  · rintro (⟨a, b, c, post, h, hd⟩ | ⟨pre, a, b, c, post, h, hd⟩)
    · exact ⟨[], a, b, c, post, by simpa using h, hd⟩
    · exact ⟨x :: pre, a, b, c, post, by simp [h], hd⟩

theorem digitRun3_cons_of_not_isDigit (x : Char) (xs : Str) (h : x.isDigit = false) :
    DigitRun3 (x :: xs) ↔ DigitRun3 xs := by
  rw [digitRun3_cons]
  simp [h]

theorem digitRun3_append_of_not_isDigit (ys r : Str) (h : ∀ z ∈ ys, z.isDigit = false) :
    DigitRun3 (ys ++ r) ↔ DigitRun3 r := by
  induction ys with
  | nil => simp
  | cons y ys ih =>
    rw [List.cons_append, digitRun3_cons_of_not_isDigit _ _ (h y (by simp))]
    exact ih (fun z hz => h z (by simp [hz]))

/-- Lower-casing neither creates nor destroys a run of three digits. -/
theorem digitRun3_toLowerCase (s : Str) : DigitRun3 (toLowerCase s) ↔ DigitRun3 s := by
  induction s with
  | nil => simp [toLowerCase]
  | cons x xs ih =>
    rw [toLowerCase_cons]
    cases hx : x.isDigit with
    | true =>
      rw [lowerChar_of_isDigit x hx]
      simp only [List.singleton_append]
      rw [digitRun3_cons, digitRun3_cons, ih]
      simp only [List.takeWhile_cons, hx, if_true, List.length_cons, takeWhile_toLowerCase]
    | false =>
      obtain ⟨y, ys, hl, hy, hys⟩ := lowerChar_of_not_isDigit x hx
      rw [hl, List.cons_append, digitRun3_cons_of_not_isDigit _ _ hy,
        digitRun3_append_of_not_isDigit _ _ hys, digitRun3_cons_of_not_isDigit _ _ hx, ih]

/-! ## The classifier: header rows and rows without a score -/

/-- C2 (header detection): a row whose lower-cased joined text contains both
`rank` and `model` is skipped by the loop whatever else it contains: the loop
body leaves `items` as it is, and the output of `extractTableRows` is the one
computed from the other rows. -/
theorem header_row_rejected (row : RenderedRow)
    (hrank : "rank".toList <:+: joinedOf (textCellsOf row))
    (hmodel : "model".toList <:+: joinedOf (textCellsOf row)) :
    rowItem row = none ∧ (∀ items, rowStep items row = items) ∧
      ∀ page pre post, pageRows page = pre ++ row :: post →
        extractTableRows page = ((pre ++ post).foldl rowStep []).filter keeps := by
  have hnone : rowItem row = none := by
    unfold rowItem
    split
    · rfl
    · have hh : looksLikeHeader (joinedOf (textCellsOf row)) = true := by
        unfold looksLikeHeader
        rw [(includes_iff _ _).mpr hrank, (includes_iff _ _).mpr hmodel]
        rfl
      simp [hh]
  exact ⟨hnone, skipped_row_contributes_nothing row hnone⟩

/-- C2, the row of the specification: the cells `Rank`, `Model`, `Score`,
`Votes` are a header row. -/
theorem header_row_rejected_witness :
    rowItem (rowOfCells ["Rank", "Model", "Score", "Votes"]) = none ∧
    (∀ items, rowStep items (rowOfCells ["Rank", "Model", "Score", "Votes"]) = items) ∧
      ∀ page pre post,
        pageRows page = pre ++ rowOfCells ["Rank", "Model", "Score", "Votes"] :: post →
        extractTableRows page = ((pre ++ post).foldl rowStep []).filter keeps :=
  header_row_rejected (rowOfCells ["Rank", "Model", "Score", "Votes"])
    ((includes_iff _ _).mp (by decide)) ((includes_iff _ _).mp (by decide))

/-- C3 (no-score rule): a row whose joined text has no run of three
consecutive decimal digits, before or after lower-casing, is skipped by the loop:
the loop body leaves `items` as it is, and the output of `extractTableRows` is
the one computed from the other rows. -/
theorem row_without_score_rejected (row : RenderedRow)
    (h : ¬ DigitRun3 (joinWith " | ".toList (textCellsOf row)) ∨
      ¬ DigitRun3 (joinedOf (textCellsOf row))) :
    rowItem row = none ∧ (∀ items, rowStep items row = items) ∧
      ∀ page pre post, pageRows page = pre ++ row :: post →
        extractTableRows page = ((pre ++ post).foldl rowStep []).filter keeps := by
  have hlow : ¬ DigitRun3 (joinedOf (textCellsOf row)) := by
    rcases h with h | h
    · unfold joinedOf
      rwa [digitRun3_toLowerCase]
    · exact h
  have hs : hasScore (joinedOf (textCellsOf row)) = false := by
    cases hh : hasScore (joinedOf (textCellsOf row)) with
    | false => rfl
    | true => exact absurd ((hasScore_iff _).mp hh) hlow
  have hnone : rowItem row = none := by
    unfold rowItem
    split
    · rfl
    · simp [hs]
  exact ⟨hnone, skipped_row_contributes_nothing row hnone⟩

/-- C3 at a row with two-digit numbers only. -/
theorem row_without_score_rejected_witness :
    rowItem (rowOfCells ["7", "Model-Q", "99", "12 votes"]) = none ∧
    (∀ items, rowStep items (rowOfCells ["7", "Model-Q", "99", "12 votes"]) = items) ∧
      ∀ page pre post,
        pageRows page = pre ++ rowOfCells ["7", "Model-Q", "99", "12 votes"] :: post →
        extractTableRows page = ((pre ++ post).foldl rowStep []).filter keeps :=
  row_without_score_rejected (rowOfCells ["7", "Model-Q", "99", "12 votes"])
    (Or.inr (fun h => by
      have hs := (hasScore_iff _).mpr h
      revert hs
      decide))

/-! ## Ranks and validity of the records -/

theorem getElem?_mapWithIndex {α β : Type} (f : α → Nat → β) (l : List α) :
    ∀ k i, (mapWithIndex f k l)[i]? = (l[i]?).map (fun a => f a (k + i)) := by
  induction l with
  | nil => intro k i; simp [mapWithIndex]
  | cons a as ih =>
    intro k i
    cases i with
    | zero => simp [mapWithIndex]
    | succ i =>
      simp only [mapWithIndex, List.getElem?_cons_succ, ih]
      congr 1
      funext x
      congr 1
      omega

theorem mem_mapWithIndex {α β : Type} (f : α → Nat → β) (l : List α) :
    ∀ k b, b ∈ mapWithIndex f k l → ∃ a ∈ l, ∃ i, b = f a i := by
  induction l with
  | nil => intro k b h; simp [mapWithIndex] at h
  | cons a as ih =>
    intro k b h
    simp only [mapWithIndex, List.mem_cons] at h
    rcases h with rfl | h
    · exact ⟨a, by simp, k, rfl⟩
    · obtain ⟨a2, ha2, i, hb⟩ := ih (k + 1) b h
      exact ⟨a2, by simp [ha2], i, hb⟩

/-- C8 (rank fallback): the record that `scrapeArena` builds from the surviving
item at index `i` has the parsed rank when there is one and `i + 1` otherwise,
the index being the one among the items returned by `extractTableRows`; the
parsed rank is `toInt` of the first cell of the row the item was mapped from. -/
theorem rank_fallback (page : Page) (slug : Str) (i : Nat) (r : Item)
    (h : (extractTableRows page)[i]? = some r) :
    (∃ rec, (scrapeArena page slug)[i]? = some rec ∧
      rec.rank_position =
        (match r.rankUB with
          | some v => v
          | none => JSNumber.fin ((i + 1 : Nat) : ℚ))) ∧
    ∃ row ∈ pageRows page, rowItem row = some r ∧ r.rankUB = toInt (textCellsOf row)[0]? := by
  constructor
  · refine ⟨toRecord slug (BASE ++ "/".toList ++ slug) r i, ?_, rfl⟩
    simp [scrapeArena, getElem?_mapWithIndex, h]
  · have hmem : r ∈ extractTableRows page := List.getElem?_mem h
    obtain ⟨⟨row, hrow, hitem⟩, -⟩ := (mem_extractTableRows page r).mp hmem
    refine ⟨row, hrow, hitem, ?_⟩
    obtain ⟨-, -, -, hmap⟩ := rowItem_eq_some row r hitem
    rw [hmap]
    rfl

/-- C8 at a page of five rendered rows of which three survive: the third
survivor, whose rank cell `n/a` does not parse, gets rank 3. -/
theorem rank_fallback_witness :
    ∃ rec, (scrapeArena rankPage "text".toList)[2]? = some rec ∧ rec.rank_position = 3 :=
  (rank_fallback rankPage "text".toList 2
    ⟨none, some "Gamma".toList, some 1200, none, none, none⟩ (by decide!)).1

/-- C9 (validity invariant): every item returned by `extractTableRows`, and so
every record of `scrapeArena`, has a non-empty model name and a score that is a
number; the output is the list of mapped items with those lacking either left
out, and the functions are total, so nothing is raised for them. -/
theorem returned_records_valid (page : Page) :
    (∀ r ∈ extractTableRows page,
      (∃ m, r.model = some m ∧ m ≠ []) ∧ ∃ v, r.score = some v) ∧
    (∀ slug, ∀ rec ∈ scrapeArena page slug,
      (∃ m, rec.model_name = some m ∧ m ≠ []) ∧ ∃ v, rec.overall_score = some v) ∧
    (∀ r, (r.model = none ∨ r.model = some [] ∨ r.score = none) →
      r ∉ extractTableRows page) ∧
    extractTableRows page = ((pageRows page).filterMap rowItem).filter keeps := by
  have hkeep : ∀ r : Item, keeps r = true →
      (∃ m, r.model = some m ∧ m ≠ []) ∧ ∃ v, r.score = some v := by
    intro r hk
    unfold keeps at hk
    rw [Bool.and_eq_true] at hk
    obtain ⟨h1, h2⟩ := hk
    constructor
    · cases hm : r.model with
      | none => simp [hm] at h1
      | some m =>
        refine ⟨m, rfl, ?_⟩
        rintro rfl
        simp [hm] at h1
    · cases hv : r.score with
      | none => simp [hv] at h2
      | some v => exact ⟨v, rfl⟩
  have hall : ∀ r ∈ extractTableRows page,
      (∃ m, r.model = some m ∧ m ≠ []) ∧ ∃ v, r.score = some v := by
    intro r hr
    exact hkeep r ((mem_extractTableRows page r).mp hr).2
  refine ⟨hall, ?_, ?_, extractTableRows_eq page⟩
  · intro slug rec hrec
    obtain ⟨r, hr, i, rfl⟩ := mem_mapWithIndex _ _ _ _ hrec
    exact hall r hr
  · intro r hbad hr
    obtain ⟨⟨m, hm, hne⟩, ⟨v, hv⟩⟩ := hall r hr
    rcases hbad with h | h | h
    · simp [hm] at h
    · rw [hm] at h
      exact hne (by simpa using h)
    · simp [hv] at h

/-! ## The run over the categories -/

/-- One pass of the loop never throws, and adds the events of its category. -/
theorem processArena_run (w : World) (scraped_at slug : Str) (t : List Event) :
    processArena w scraped_at slug t = (.ok (), t ++ arenaEvents w scraped_at slug) := by
  unfold processArena arenaEvents callScrapeArena
  cases hr : w.render slug with
  | error e =>
    simp [Eff.tryCatch, Eff.bind, Eff.emit, Eff.throw]
  | ok page =>
    by_cases hrows : (scrapeArena page slug).isEmpty = true
    · simp [Eff.tryCatch, Eff.bind, Eff.emit, Eff.pure, hrows]
    · unfold callUpsert
      cases hst : w.store TABLE ((scrapeArena page slug).map (toPayload scraped_at)) ON_CONFLICT with
      | error e =>
        simp [Eff.tryCatch, Eff.bind, Eff.emit, Eff.pure, Eff.throw, hrows, hst]
      | ok res =>
        cases res with
        | none => simp [Eff.tryCatch, Eff.bind, Eff.emit, Eff.pure, hrows, hst]
        | some e => simp [Eff.tryCatch, Eff.bind, Eff.emit, Eff.pure, hrows, hst]

theorem arenaLoop_run (w : World) (scraped_at : Str) (arenas : List Str) :
    ∀ t, arenaLoop w scraped_at arenas t =
      (.ok (), t ++ arenas.flatMap (arenaEvents w scraped_at)) := by
  induction arenas with
  | nil => intro t; simp [arenaLoop, Eff.pure]
  | cons slug rest ih =>
    intro t
    simp [arenaLoop, Eff.bind, processArena_run, ih]

theorem main_run (w : World) (scraped_at : Str) (arenas : List Str) (t : List Event) :
    main w scraped_at arenas t =
      (.ok (), t ++ arenas.flatMap (arenaEvents w scraped_at) ++ [.close]) := by
  simp [main, Eff.tryFinally, arenaLoop_run, Eff.emit]

theorem gotoUrl_arenaEvents (w : World) (scraped_at slug : Str) :
    (arenaEvents w scraped_at slug).filterMap Event.gotoUrl? = [BASE ++ "/".toList ++ slug] := by
  unfold arenaEvents
  rw [List.filterMap_cons]
  simp only [Event.gotoUrl?]
  congr 1
  cases w.render slug with
  | error e => rfl
  | ok page =>
    simp only
    split
    · rfl
    · rw [List.filterMap_cons]
      simp only [Event.gotoUrl?]
      cases w.store TABLE ((scrapeArena page slug).map (toPayload scraped_at)) ON_CONFLICT with
      | error e => rfl
      | ok res => cases res <;> rfl

/-- C10 (failure isolation): whatever rendering and persistence do for each
category, the run ends without an exception, requests the page of every category
in list order, hands to upsert the batch of every category whose scrape gives
records, and its events are those of each category in turn, each determined by
the outcomes of that category alone, followed by the closing of the browser. -/
theorem failure_isolation (w : World) (scraped_at : Str) (arenas : List Str) :
    (main w scraped_at arenas []).1 = .ok () ∧
    (main w scraped_at arenas []).2.filterMap Event.gotoUrl? =
      arenas.map (fun slug => BASE ++ "/".toList ++ slug) ∧
    (∀ slug ∈ arenas, ∀ page, w.render slug = .ok page → scrapeArena page slug ≠ [] →
      Event.upsert TABLE ((scrapeArena page slug).map (toPayload scraped_at)) ON_CONFLICT
        ∈ (main w scraped_at arenas []).2) ∧
    (main w scraped_at arenas []).2 = arenas.flatMap (arenaEvents w scraped_at) ++ [.close] := by
  rw [main_run]
  refine ⟨rfl, ?_, ?_, by simp⟩
  · simp only [List.nil_append, List.filterMap_append]
    have : ∀ l : List Str, (l.flatMap (arenaEvents w scraped_at)).filterMap Event.gotoUrl? =
        l.map (fun slug => BASE ++ "/".toList ++ slug) := by
      intro l
      induction l with
      | nil => rfl
      | cons a as ih =>
        rw [List.flatMap_cons, List.filterMap_append, gotoUrl_arenaEvents, ih]
        rfl
    rw [this]
    simp [Event.gotoUrl?]
  · intro slug hslug page hpage hne
    simp only [List.nil_append, List.mem_append, List.mem_flatMap]
    refine Or.inl ⟨slug, hslug, ?_⟩
    unfold arenaEvents
    have hemp : (scrapeArena page slug).isEmpty = false := by
      cases hs : scrapeArena page slug with
      | nil => exact absurd hs hne
      | cons a as => rfl
    simp [hpage, hemp]

/-- C10 at three categories of which the second throws while its page is
rendered: the run ends without an exception and the batches of the first and of
the third category are both handed to upsert. -/
theorem failure_isolation_witness :
    (main isolationWorld "2025-01-01T00:00:00.000Z".toList
      ["text".toList, "webdev".toList, "vision".toList] []).1 = .ok () ∧
    Event.upsert TABLE ((scrapeArena rankPage "text".toList).map
        (toPayload "2025-01-01T00:00:00.000Z".toList)) ON_CONFLICT
      ∈ (main isolationWorld "2025-01-01T00:00:00.000Z".toList
        ["text".toList, "webdev".toList, "vision".toList] []).2 ∧
    Event.upsert TABLE ((scrapeArena rankPage "vision".toList).map
        (toPayload "2025-01-01T00:00:00.000Z".toList)) ON_CONFLICT
      ∈ (main isolationWorld "2025-01-01T00:00:00.000Z".toList
        ["text".toList, "webdev".toList, "vision".toList] []).2 :=
  ⟨(failure_isolation isolationWorld _ _).1,
    (failure_isolation isolationWorld _ _).2.2.1 "text".toList (by decide) rankPage
      rfl (by decide!),
    (failure_isolation isolationWorld _ _).2.2.1 "vision".toList (by decide) rankPage
      rfl (by decide!)⟩

/-! ## Literal words -/

/-- A literal word matches when it is a prefix of the input up to
canonicalisation, and consumes as many characters as it has. -/
theorem run_word (ic : Bool) (w : Str) :
    ∀ (s : Str) (k : Str → Option Str),
      (Re.word w).run ic s k =
        if (w.map (canon ic)).isPrefixOf (s.map (canon ic)) then k (s.drop w.length) else none := by
  induction w with
  | nil => intro s k; simp [Re.word, Re.run]
  | cons c cs ih =>
    intro s k
    cases cs with
    | nil =>
      cases s with
      | nil => simp [Re.word, Re.run]
      | cons x xs =>
        simp only [Re.word, Re.run, Atom.test, List.map_cons, List.map_nil, List.isPrefixOf,
          Bool.and_true, List.length_cons, List.length_nil, List.drop_succ_cons, List.drop_zero,
          Nat.zero_add]
        by_cases h : canon ic x = canon ic c
        · simp [h]
        · have h2 : ¬ canon ic c = canon ic x := fun e => h e.symm
          simp [h, h2]
    | cons c2 cs2 =>
      cases s with
      | nil => simp [Re.word, Re.run]
      | cons x xs =>
        simp only [Re.word, Re.run, Atom.test]
        rw [ih xs k]
        by_cases h : canon ic x = canon ic c
        · simp [h, List.isPrefixOf]
        · have h2 : ¬ canon ic c = canon ic x := fun e => h e.symm
          simp [h, h2, List.isPrefixOf]

theorem exists_suffix_prefix_map_iff (f : Char → Char) (w s : Str) :
    (∃ t, t <:+ s ∧ w <+: t.map f) ↔ w <:+: s.map f := by
  constructor
  · rintro ⟨t, ⟨p, rfl⟩, ⟨q, hq⟩⟩
    exact ⟨p.map f, q, by simp [hq]⟩
  · rintro ⟨a, b, h⟩
    have h2 : List.map f s = a ++ (w ++ b) := by simp [← h]
    obtain ⟨s1, s2, hs, h1, h3⟩ := List.map_eq_append_iff.mp h2
    exact ⟨s2, ⟨s1, hs.symm⟩, ⟨b, h3.symm⟩⟩

/-- The test of a literal word that is not anchored: the word occurs in the
text up to canonicalisation. -/
theorem test_word_iff (w : Str) (ic : Bool) (s : Str) :
    RegExp.test ⟨Re.word w, false, ic⟩ s = true ↔ w.map (canon ic) <:+: s.map (canon ic) := by
  rw [test_iff_exists_suffix _ rfl, ← exists_suffix_prefix_map_iff]
  constructor
  · rintro ⟨t, ht, hm⟩
    refine ⟨t, ht, ?_⟩
    unfold RegExp.matchAt at hm
    simp only [run_word] at hm
    split at hm
    · next hp => exact List.isPrefixOf_iff_prefix.mp hp
    · simp at hm
  · rintro ⟨t, ht, hp⟩
    refine ⟨t, ht, ?_⟩
    unfold RegExp.matchAt
    simp only [run_word]
    rw [List.isPrefixOf_iff_prefix.mpr hp]
    simp

theorem reVote_test_iff (s : Str) : reVote.test s = true ↔ ContainsCI "vote".toList s := by
  unfold reVote ContainsCI
  rw [test_word_iff]
  rfl

/-! ## The end-to-end scenario -/

/-- C1, as stated, fails: for the row of the scenario the only record
extracted is not the one with 12345 votes. -/
theorem end_to_end_counterexample :
    textCellsOf scenarioRow = scenarioCells ∧ scenarioRow.anchor = none ∧
      rowItem scenarioRow ≠ some scenarioClaimed ∧
      extractTableRows ⟨[scenarioRow], []⟩ ≠ [scenarioClaimed] := by
  decide!

/-- C1, amended: a row with the cell texts of the scenario and no link is
accepted and mapped to rank 1, model `Model-Z`, score 1234, organization
`OpenAI`, license `Proprietary` and 12 votes: `toInt` removes dots only, so the
literal it finds in `12,345 votes` ends at the comma.  A page with that row
alone yields exactly that record. -/
theorem end_to_end_extraction (row : RenderedRow) (hcells : textCellsOf row = scenarioCells)
    (hlink : row.anchor = none) :
    rowItem row = some scenarioExtracted ∧
      ∀ page, pageRows page = [row] → extractTableRows page = [scenarioExtracted] := by
  have hitem : rowItem row = some scenarioExtracted := by
    rw [rowItem_of_textCells row (by rw [hcells]; decide), hcells, hlink]
    decide!
  refine ⟨hitem, ?_⟩
  intro page hp
  rw [extractTableRows_eq, hp]
  simp only [List.filterMap_cons, hitem, List.filterMap_nil]
  decide!

/-- C1, amended, at the row of the scenario. -/
theorem end_to_end_extraction_witness :
    rowItem scenarioRow = some scenarioExtracted ∧
      ∀ page, pageRows page = [scenarioRow] → extractTableRows page = [scenarioExtracted] :=
  end_to_end_extraction scenarioRow (by decide) rfl

/-! ## Score and votes -/

/-- C6 at the failing input: the third cell contains the sign U+00B1, yet no
cell passes the marker test of the code, whose expression is the two characters
U+00C2 U+00B1, and the score is read from the rank cell `100`. -/
theorem score_marker_not_recognised :
    (textCellsOf markerRow)[2]? = some "1234 ± 5".toList ∧
      ['\u00B1'] <:+: "1234 ± 5".toList ∧
      (textCellsOf markerRow).find? reMarker.test = none ∧
      rowItem markerRow =
        some ⟨some 100, some "Model-Z".toList, some 100, some 100, none, none⟩ ∧
      toFloat (some "1234 ± 5".toList) = some 1234 := by
  refine ⟨by decide, (includes_iff _ _).mp (by decide), by decide, by decide!, by decide!⟩

/-- C7, as stated, fails: in the row of the example no cell mentions votes and
the first of the last three cells that parses is `5000`, yet the votes of the
extracted item are null, the third-from-last cell `OpenAI` being taken. -/
theorem votes_fallback_counterexample :
    (∀ c ∈ textCellsOf votesRow, reVote.test c = false) ∧
      votesFallbackSpec (textCellsOf votesRow) = some 5000 ∧
      rowItem votesRow =
        some ⟨some 1, some "Model-Z".toList, some 1234, none, some "OpenAI".toList,
          some "MIT".toList⟩ := by
  refine ⟨by decide, by decide!, by decide!⟩

theorem fromEnd_eq (cells : List Str) (k : Nat) (hk : 0 < k) (h : k ≤ cells.length) :
    fromEnd cells k = cells[cells.length - k]? ∧ (fromEnd cells k).isSome = true := by
  unfold fromEnd
  simp only [h, if_true, true_and]
  rw [List.getElem?_eq_getElem (by omega)]
  rfl

theorem fromEnd_eq_none (cells : List Str) (k : Nat) (h : cells.length < k) :
    fromEnd cells k = none := by
  unfold fromEnd
  simp [Nat.not_le.mpr h]

theorem nullish_none {α : Type} (b : Option α) : nullish none b = b := rfl

theorem nullish_of_isSome {α : Type} (a b : Option α) (h : a.isSome = true) :
    nullish a b = a := by
  cases a with
  | none => simp at h
  | some x => rfl

/-- C7, amended: in an accepted row in which no cell contains `vote` in any
letter case, the votes are `toInt` of one cell chosen by position alone: the
third-from-last when the row has three cells or more, otherwise the first cell
(the second-from-last of a row of two cells, the last of a row of one); they are
null when that cell does not parse, whatever the cells after it hold. -/
theorem votes_fallback (row : RenderedRow) (item : Item) (h : rowItem row = some item)
    (hvote : ∀ c ∈ textCellsOf row, ¬ ContainsCI "vote".toList c) :
    (3 ≤ (textCellsOf row).length →
      item.votes = toInt (textCellsOf row)[(textCellsOf row).length - 3]?) ∧
    ((textCellsOf row).length < 3 → item.votes = toInt (textCellsOf row)[0]?) := by
  obtain ⟨hne, -, -, hmap⟩ := rowItem_eq_some row item h
  have hfind : (textCellsOf row).find? reVote.test = none := by
    rw [List.find?_eq_none]
    intro c hc hcontra
    exact hvote c hc ((reVote_test_iff c).mp hcontra)
  have hlen : 0 < (textCellsOf row).length := List.length_pos.mpr hne
  have hvotes : item.votes = toInt (nullish (fromEnd (textCellsOf row) 3)
      (nullish (fromEnd (textCellsOf row) 2) (fromEnd (textCellsOf row) 1))) := by
    rw [hmap]
    simp only [mapFields, hfind]
    rfl
  rw [hvotes]
  constructor
  · intro h3
    obtain ⟨h1, h2⟩ := fromEnd_eq (textCellsOf row) 3 (by omega) h3
    rw [nullish_of_isSome _ _ h2, h1]
  · intro h3
    rw [fromEnd_eq_none _ 3 h3, nullish_none]
    by_cases h2 : (textCellsOf row).length = 2
    · obtain ⟨h4, h5⟩ := fromEnd_eq (textCellsOf row) 2 (by omega) (by omega)
      rw [nullish_of_isSome _ _ h5, h4, h2]
    · have h1 : (textCellsOf row).length = 1 := by omega
      obtain ⟨h4, h5⟩ := fromEnd_eq (textCellsOf row) 1 (by omega) (by omega)
      rw [fromEnd_eq_none _ 2 (by omega), nullish_none, h4, h1]

/-- C7, amended, at the row of the example: the votes are `toInt` of the cell
`OpenAI`, that is null. -/
theorem votes_fallback_witness :
    Item.votes ⟨some 1, some "Model-Z".toList, some 1234, none, some "OpenAI".toList,
        some "MIT".toList⟩ = toInt (some "OpenAI".toList) :=
  (votes_fallback votesRow
    ⟨some 1, some "Model-Z".toList, some 1234, none, some "OpenAI".toList, some "MIT".toList⟩
    (by decide!)
    (fun c hc hcontra => by
      have hall : ∀ c ∈ textCellsOf votesRow, reVote.test c = false := by decide
      have ht := (reVote_test_iff c).mpr hcontra
      rw [hall c hc] at ht
      exact Bool.false_ne_true ht)).1 (by decide)

/-! ## First literals -/

theorem isFirst_unique (P : Str → Prop) (t l1 l2 : Str) (h1 : IsFirst P t l1)
    (h2 : IsFirst P t l2) : l1 = l2 := by
  obtain ⟨pre1, post1, ht1, hp1, hf1⟩ := h1
  obtain ⟨pre2, post2, ht2, hp2, hf2⟩ := h2
  have ha := hf1 pre2 l2 post2 ht2 hp2
  have hb := hf2 pre1 l1 post1 ht1 hp1
  have hpre : pre1.length = pre2.length := by omega
  have hlen : l1.length = l2.length := by omega
  have heq : pre1 ++ (l1 ++ post1) = pre2 ++ (l2 ++ post2) := by
    rw [← List.append_assoc, ← List.append_assoc, ← ht1, ← ht2]
  have h3 := (List.append_inj heq hpre).2
  exact (List.append_inj h3 hlen).1

/-- When the match at a position is the longest literal of kind `P` starting
there, and exists whenever one starts there, the searched match is the first
literal of the text, and the search fails exactly when no literal occurs. -/
theorem exec_isFirst (re : RegExp) (P : Str → Prop) (hanch : re.anchored = false)
    (ha : ∀ t r, re.matchAt t = some r →
      ∃ l, P l ∧ t = l ++ r ∧ ∀ l2 post2, t = l2 ++ post2 → P l2 → l2.length ≤ l.length)
    (hb : ∀ l post, P l → (re.matchAt (l ++ post)).isSome = true) (t : Str) :
    (∀ m, re.exec t = some m ↔ IsFirst P t m) ∧ (re.exec t = none ↔ ¬ Occurs P t) := by
  have hnone : re.exec t = none ↔ ¬ Occurs P t := by
    unfold RegExp.exec
    simp only [hanch, Bool.false_eq_true, if_false, Option.map_eq_none', searchFrom_eq_none]
    constructor
    · rintro h ⟨pre, l, post, ht, hp⟩
      have h1 := hb l post hp
      rw [h (l ++ post) ⟨pre, by rw [ht, List.append_assoc]⟩] at h1
      simp at h1
    · intro h u hu
      cases hm : re.matchAt u with
      | none => rfl
      | some r =>
        exfalso
        obtain ⟨l, hp, hl, -⟩ := ha u r hm
        obtain ⟨pre, hpre⟩ := hu
        exact h ⟨pre, l, r, by rw [← hpre, hl, List.append_assoc], hp⟩
  have hsome : ∀ m, re.exec t = some m → IsFirst P t m := by
    intro m hm
    unfold RegExp.exec at hm
    simp only [hanch, Bool.false_eq_true, if_false, Option.map_eq_some', Prod.exists,
      exists_and_right, exists_eq_right] at hm
    obtain ⟨r, hs⟩ := hm
    obtain ⟨pre, ht, hmr, hmin⟩ := (searchFrom_eq_some re t m r).mp hs
    obtain ⟨l, hp, hl, hmax⟩ := ha (m ++ r) r hmr
    have hml : m = l := List.append_cancel_right hl
    subst hml
    refine ⟨pre, r, by rw [ht, List.append_assoc], hp, ?_⟩
    intro pre2 l2 post2 ht2 hp2
    by_cases hlt : pre2.length < pre.length
    · exfalso
      have h1 := hb l2 post2 hp2
      rw [hmin pre2 (l2 ++ post2) (by rw [ht2, List.append_assoc]) hlt] at h1
      simp at h1
    · by_cases heq : pre.length = pre2.length
      · right
        refine ⟨heq, ?_⟩
        have h3 : pre ++ (m ++ r) = pre2 ++ (l2 ++ post2) := by
          rw [← ht, ht2, List.append_assoc]
        exact hmax l2 post2 (List.append_inj h3 heq).2 hp2
      · left; omega
  refine ⟨fun m => ⟨hsome m, ?_⟩, hnone⟩
  intro hfirst
  cases he : re.exec t with
  | none =>
    exfalso
    obtain ⟨pre, post, ht, hp, -⟩ := hfirst
    exact (hnone.mp he) ⟨pre, m, post, ht, hp⟩
  | some m2 =>
    rw [isFirst_unique P t m m2 hfirst (hsome m2 he)]

/-! ## Runs of digits and the optional sign -/

theorem length_le_takeWhile (p : Char → Bool) (l post : Str) (h : ∀ c ∈ l, p c = true) :
    l.length ≤ ((l ++ post).takeWhile p).length := by
  induction l with
  | nil => simp
  | cons x xs ih =>
    have hx : p x = true := h x (by simp)
    simp only [List.cons_append, List.takeWhile_cons, hx, if_true, List.length_cons]
    exact Nat.succ_le_succ (ih (fun c hc => h c (by simp [hc])))

theorem takeWhile_append_of_stop (p : Char → Bool) (l : Str) (x : Char) (post : Str)
    (h : ∀ c ∈ l, p c = true) (hx : p x = false) :
    (l ++ x :: post).takeWhile p = l ∧ (l ++ x :: post).dropWhile p = x :: post := by
  induction l with
  | nil => simp [hx]
  | cons y ys ih =>
    have hy : p y = true := h y (by simp)
    obtain ⟨h1, h2⟩ := ih (fun c hc => h c (by simp [hc]))
    simp [hy, h1, h2]

theorem isDigits_takeWhile (t : Str) (h : 1 ≤ (t.takeWhile Char.isDigit).length) :
    IsDigits (t.takeWhile Char.isDigit) := by
  refine ⟨?_, fun c hc => List.mem_takeWhile_imp hc⟩
  intro h0
  rw [h0] at h
  simp at h

theorem isDigits_head (l : Str) (h : IsDigits l) :
    ∃ c rest, l = c :: rest ∧ c.isDigit = true := by
  obtain ⟨hne, hall⟩ := h
  cases l with
  | nil => exact absurd rfl hne
  | cons c rest => exact ⟨c, rest, rfl, hall c (by simp)⟩

theorem takeWhile_pos_head (t : Str) (h : 1 ≤ (t.takeWhile Char.isDigit).length) :
    ∃ c rest, t = c :: rest ∧ c.isDigit = true := by
  cases t with
  | nil => simp at h
  | cons c rest =>
    refine ⟨c, rest, rfl, ?_⟩
    by_contra hc
    simp [hc] at h

/-- The pattern of one or more digits, with a continuation that never fails. -/
theorem run_digits (k : Str → Option Str) (hk : ∀ t, (k t).isSome = true) (u : Str) :
    Re.run false (.rep .digit 1 none) u k =
      if 1 ≤ (u.takeWhile Char.isDigit).length then k (u.dropWhile Char.isDigit) else none := by
  have hfun : Atom.test false Atom.digit = Char.isDigit := by
    funext c; rfl
  simp only [Re.run, hfun]
  rw [repeatAtom_total _ _ _ _ hk]
  simp only [capLen, Nat.zero_add, drop_length_takeWhile]

theorem minus_not_isDigit : Char.isDigit '-' = false := by decide

/-- An optional `-` in front of a pattern that only matches texts starting with a
digit: the match is the longest literal with optional sign. -/
theorem optMinus_run (body : Re) (PU : Str → Prop)
    (hdig : ∀ t r, body.run false t some = some r → ∃ c rest, t = c :: rest ∧ c.isDigit = true)
    (haU : ∀ t r, body.run false t some = some r →
      ∃ l, PU l ∧ t = l ++ r ∧ ∀ l2 post2, t = l2 ++ post2 → PU l2 → l2.length ≤ l.length)
    (hbU : ∀ l post, PU l → (body.run false (l ++ post) some).isSome = true)
    (hcU : ∀ l, PU l → ∃ c rest, l = c :: rest ∧ c.isDigit = true) :
    (∀ t r, Re.run false (.seq (.opt (.atom (.chr '-'))) body) t some = some r →
      ∃ l, OptMinus PU l ∧ t = l ++ r ∧
        ∀ l2 post2, t = l2 ++ post2 → OptMinus PU l2 → l2.length ≤ l.length) ∧
    (∀ l post, OptMinus PU l →
      (Re.run false (.seq (.opt (.atom (.chr '-'))) body) (l ++ post) some).isSome = true) := by
  have hrun : ∀ t, Re.run false (.seq (.opt (.atom (.chr '-'))) body) t some =
      match (match t with
        | [] => none
        | x :: xs => if x = '-' then body.run false xs some else none) with
      | some r => some r
      | none => body.run false t some := by
    intro t
    cases t with
    | nil => simp [Re.run]
    | cons x xs => simp [Re.run, Atom.test, canon]
  constructor
  · intro t r h
    rw [hrun] at h
    cases t with
    | nil =>
      simp only at h
      obtain ⟨c, rest, hc, -⟩ := hdig [] r h
      simp at hc
    | cons x xs =>
      by_cases hx : x = '-'
      · subst hx
        simp only [if_true] at h
        cases hU : body.run false xs some with
        | some r2 =>
          rw [hU] at h
          have hr : r2 = r := by simpa using h
          subst hr
          obtain ⟨l, hl, ht, hmax⟩ := haU xs r2 hU
          refine ⟨'-' :: l, Or.inr ⟨l, rfl, hl⟩, by simp [ht], ?_⟩
          intro l2 post2 ht2 hl2
          rcases hl2 with hl2 | ⟨u, rfl, hu⟩
          · obtain ⟨c, rest, rfl, hc⟩ := hcU l2 hl2
            simp only [List.cons_append, List.cons.injEq] at ht2
            rw [← ht2.1] at hc
            simp [minus_not_isDigit] at hc
          · simp only [List.cons_append, List.cons.injEq, true_and] at ht2
            simpa using hmax u post2 ht2 hu
        | none =>
          rw [hU] at h
          simp only at h
          obtain ⟨c, rest, hc, hd⟩ := hdig _ r h
          simp only [List.cons.injEq] at hc
          rw [← hc.1] at hd
          simp [minus_not_isDigit] at hd
      · simp only [hx, if_false] at h
        obtain ⟨l, hl, ht, hmax⟩ := haU _ r h
        refine ⟨l, Or.inl hl, ht, ?_⟩
        intro l2 post2 ht2 hl2
        rcases hl2 with hl2 | ⟨u, rfl, hu⟩
        · exact hmax l2 post2 ht2 hl2
        · simp only [List.cons_append, List.cons.injEq] at ht2
          exact absurd ht2.1 hx
  · intro l post hl
    rw [hrun]
    rcases hl with hl | ⟨u, rfl, hu⟩
    · obtain ⟨c, rest, rfl, hc⟩ := hcU l hl
      have hx : c ≠ '-' := by
        rintro rfl
        simp [minus_not_isDigit] at hc
      simp only [List.cons_append, hx, if_false]
      exact hbU (c :: rest) post hl
    · have h1 := hbU u post hu
      simp only [List.cons_append, if_true]
      cases hU : body.run false (u ++ post) some with
      | some r2 => rfl
      | none => rw [hU] at h1; simp at h1


/-! ## The integer pattern -/

theorem reInt_matchAt :
    (∀ t r, reInt.matchAt t = some r →
      ∃ l, IsIntLiteral l ∧ t = l ++ r ∧
        ∀ l2 post2, t = l2 ++ post2 → IsIntLiteral l2 → l2.length ≤ l.length) ∧
    (∀ l post, IsIntLiteral l → (reInt.matchAt (l ++ post)).isSome = true) := by
  have hsome : ∀ t : Str, (some t).isSome = true := fun _ => rfl
  apply optMinus_run (.rep .digit 1 none) IsDigits
  · intro t r h
    rw [run_digits some hsome] at h
    split at h
    · next hpos => exact takeWhile_pos_head t hpos
    · simp at h
  · intro t r h
    rw [run_digits some hsome] at h
    split at h
    · next hpos =>
      have hr : t.dropWhile Char.isDigit = r := by simpa using h
      refine ⟨t.takeWhile Char.isDigit, isDigits_takeWhile t hpos, ?_, ?_⟩
      · rw [← hr, List.takeWhile_append_dropWhile]
      · rintro l2 post2 rfl ⟨-, hall⟩
        exact length_le_takeWhile _ l2 post2 hall
    · simp at h
  · rintro l post ⟨hne, hall⟩
    rw [run_digits some hsome]
    have h1 := length_le_takeWhile Char.isDigit l post hall
    have h2 : 0 < l.length := List.length_pos.mpr hne
    have h3 : 1 ≤ ((l ++ post).takeWhile Char.isDigit).length := by omega
    simp [h3]
  · exact isDigits_head

/-- The match of the integer pattern is the first signed integer literal. -/
theorem reInt_exec (t : Str) :
    (∀ m, reInt.exec t = some m ↔ IsFirst IsIntLiteral t m) ∧
      (reInt.exec t = none ↔ ¬ Occurs IsIntLiteral t) :=
  exec_isFirst reInt IsIntLiteral rfl reInt_matchAt.1 reInt_matchAt.2 t

/-! ## Removing the dots -/

theorem reDot_matchAt (x : Char) (xs : Str) :
    reDot.matchAt (x :: xs) = if x = '.' then some xs else none := by
  simp [RegExp.matchAt, reDot, Re.run, Atom.test, canon]

theorem replaceAllAux_reDot (fuel : Nat) :
    ∀ s : Str, s.length < fuel → replaceAllAux reDot [] fuel s = removeDots s := by
  induction fuel with
  | zero => intro s h; omega
  | succ n ih =>
    intro s h
    cases s with
    | nil => simp [replaceAllAux, RegExp.matchAt, reDot, Re.run, removeDots]
    | cons x xs =>
      have hlen : xs.length < n := by simpa using h
      simp only [replaceAllAux, reDot_matchAt]
      by_cases hx : x = '.'
      · simp [hx, ih xs hlen, removeDots]
      · simp [hx, ih xs hlen, removeDots]

theorem replaceAll_reDot (s : Str) : replaceAll reDot [] s = removeDots s :=
  replaceAllAux_reDot _ s (Nat.lt_succ_self _)

/-! ## The value of a literal -/

theorem foldl_digits (ds : Str) :
    ∀ acc, ds.foldl (fun acc c => acc * 10 + digitVal c) acc =
      acc * 10 ^ ds.length + decimalValue ds := by
  induction ds with
  | nil => intro acc; simp [decimalValue]
  | cons x xs ih =>
    intro acc
    rw [List.foldl_cons, ih]
    simp only [decimalValue, List.reverse_cons, List.map_append, List.map_cons, List.map_nil,
      Nat.ofDigits_append, Nat.ofDigits_singleton, List.length_map, List.length_reverse,
      List.length_cons]
    ring

theorem digitsVal_eq (ds : Str) : digitsVal ds = decimalValue ds := by
  unfold digitsVal
  rw [foldl_digits]
  simp

theorem not_isWhiteSpace_of_isDigit (c : Char) (h : c.isDigit = true) :
    isWhiteSpace c = false := by
  rw [isDigit_iff] at h
  cases hw : isWhiteSpace c with
  | false => rfl
  | true =>
    exfalso
    simp only [isWhiteSpace, Bool.or_eq_true, Bool.and_eq_true, decide_eq_true_eq,
      beq_iff_eq] at hw
    omega

theorem takeWhile_eq_self (p : Char → Bool) (l : Str) (h : ∀ c ∈ l, p c = true) :
    l.takeWhile p = l ∧ l.dropWhile p = [] := by
  induction l with
  | nil => simp
  | cons x xs ih =>
    have hx : p x = true := h x (by simp)
    obtain ⟨h1, h2⟩ := ih (fun c hc => h c (by simp [hc]))
    simp [hx, h1, h2]

theorem splitSign_of_isDigit (c : Char) (rest : Str) (h : c.isDigit = true) :
    splitSign (c :: rest) = (false, c :: rest) := by
  unfold splitSign
  split
  · next heq =>
    simp only [List.cons.injEq] at heq
    rw [heq.1] at h
    simp at h
  · next heq =>
    simp only [List.cons.injEq] at heq
    rw [heq.1] at h
    simp at h
  · rfl

/-! ## Rounding to a double -/

theorem roundHalfEven_one (n : Nat) : roundHalfEven n 1 = n := by
  simp [roundHalfEven, Nat.mod_one]

theorem log2Fuel_spec (fuel : Nat) :
    ∀ n, n ≤ fuel → 0 < n → 2 ^ log2Fuel fuel n ≤ n ∧ n < 2 ^ (log2Fuel fuel n + 1) := by
  induction fuel with
  | zero => intro n h1 h2; omega
  | succ f ih =>
    intro n h1 h2
    unfold log2Fuel
    by_cases hn : n < 2
    · have : n = 1 := by omega
      subst this
      simp
    · simp only [hn, if_false]
      have hdiv : n / 2 ≤ f := by omega
      have hpos : 0 < n / 2 := by omega
      obtain ⟨h3, h4⟩ := ih (n / 2) hdiv hpos
      constructor
      · rw [pow_succ]; omega
      · rw [pow_succ]; omega

theorem log2_spec (n : Nat) (h : 0 < n) : 2 ^ log2 n ≤ n ∧ n < 2 ^ (log2 n + 1) :=
  log2Fuel_spec n n (le_refl n) h

theorem log2_one : log2 1 = 0 := rfl

/-- A positive integer below `2 ^ 53` is a double. -/
theorem roundMagnitude_nat (n : Nat) (h0 : 0 < n) (h : n < 2 ^ 53) :
    roundMagnitude n 1 = some (n : ℚ) := by
  obtain ⟨h1, h2⟩ := log2_spec n h0
  have hL : log2 n ≤ 52 := by
    by_contra hc
    have : 2 ^ 53 ≤ 2 ^ log2 n := Nat.pow_le_pow_right (by norm_num) (by omega)
    omega
  have hfl : floorLog2 n 1 = (log2 n : Int) := by
    unfold floorLog2
    simp only [log2_one, Nat.cast_zero, sub_zero, Int.natCast_nonneg, if_true, Int.toNat_ofNat,
      one_mul, h1]
  unfold roundMagnitude
  simp only [hfl]
  have hmax : max (log2 n : Int) (-1022) = (log2 n : Int) := by omega
  have hup : ((log2 n : Int) - 52).toNat = 0 := by omega
  have hdown : (52 - (log2 n : Int)).toNat = 52 - log2 n := by omega
  simp only [hmax, hup, hdown, pow_zero, mul_one, roundHalfEven_one]
  have hno : ¬ 2 ^ 1024 * 2 ^ (52 - log2 n) ≤ n * 2 ^ (52 - log2 n) := by
    intro hle
    have hpos : 0 < 2 ^ (52 - log2 n) := by positivity
    have := Nat.le_of_mul_le_mul_right hle hpos
    have h53 : (2 : Nat) ^ 53 ≤ 2 ^ 1024 := Nat.pow_le_pow_right (by decide) (by decide)
    omega
  simp only [hno, if_false, Option.some.injEq]
  push_cast
  field_simp

theorem toDouble_of_pos (q : ℚ) (h : 0 < q) :
    toDouble q =
      match roundMagnitude q.num.natAbs q.den with
      | none => .inf false
      | some a => .fin a := by
  have hne : q ≠ 0 := ne_of_gt h
  have hnn : ¬ q < 0 := not_lt.mpr (le_of_lt h)
  unfold toDouble
  rw [if_neg hne]
  cases roundMagnitude q.num.natAbs q.den with
  | none => simp [hnn]
  | some a => simp [hnn]

theorem toDouble_neg_of_pos (q : ℚ) (h : 0 < q) :
    toDouble (-q) =
      match roundMagnitude q.num.natAbs q.den with
      | none => .inf true
      | some a => .fin (-a) := by
  have hne : -q ≠ 0 := by
    intro h0
    have : q = 0 := by linarith
    exact (ne_of_gt h) this
  have hneg : -q < 0 := by linarith
  unfold toDouble
  rw [if_neg hne, Rat.num_neg_eq_neg_num, Int.natAbs_neg, Rat.neg_den]
  cases roundMagnitude q.num.natAbs q.den with
  | none => simp [hneg]
  | some a => simp [hneg]

theorem toDouble_zero : toDouble 0 = .fin 0 := by
  unfold toDouble
  rw [if_pos rfl]

/-- A natural number up to `2 ^ 53` is a double. -/
theorem toDouble_natCast (n : Nat) (h : n ≤ 2 ^ 53) : toDouble (n : ℚ) = .fin n := by
  rcases Nat.eq_zero_or_pos n with rfl | h0
  · simpa using toDouble_zero
  · rcases Nat.lt_or_ge n (2 ^ 53) with hlt | hge
    · have hpos : (0 : ℚ) < n := by exact_mod_cast h0
      rw [toDouble_of_pos _ hpos, Rat.num_natCast, Int.natAbs_ofNat, Rat.den_natCast,
        roundMagnitude_nat n h0 hlt]
    · have : n = 2 ^ 53 := by omega
      subst this
      decide!

/-- The negative of a natural number up to `2 ^ 53` is a double. -/
theorem toDouble_neg_natCast (n : Nat) (h : n ≤ 2 ^ 53) :
    toDouble (-(n : ℚ)) = .fin (-(n : ℚ)) := by
  rcases Nat.eq_zero_or_pos n with rfl | h0
  · simpa using toDouble_zero
  · rcases Nat.lt_or_ge n (2 ^ 53) with hlt | hge
    · have hpos : (0 : ℚ) < n := by exact_mod_cast h0
      rw [toDouble_neg_of_pos _ hpos, Rat.num_natCast, Int.natAbs_ofNat, Rat.den_natCast,
        roundMagnitude_nat n h0 hlt]
    · have : n = 2 ^ 53 := by omega
      subst this
      decide!

/-- An integer of magnitude at most `2 ^ 53` is a double. -/
theorem toDouble_intCast (z : Int) (h : z.natAbs ≤ 2 ^ 53) : toDouble (z : ℚ) = .fin z := by
  obtain ⟨n, rfl | rfl⟩ := Int.eq_nat_or_neg z
  · simpa using toDouble_natCast n (by simpa using h)
  · have := toDouble_neg_natCast n (by simpa using h)
    simpa using this

/-- The choice of `roundHalfEven` is within half a unit of the quotient. -/
theorem roundHalfEven_near (n d : Nat) (hd : 0 < d) :
    2 * (roundHalfEven n d * d) ≤ 2 * n + d ∧ 2 * n ≤ 2 * (roundHalfEven n d * d) + d := by
  have hdiv : d * (n / d) + n % d = n := Nat.div_add_mod n d
  have hmod : n % d < d := Nat.mod_lt n hd
  have hmul : ∀ x : Nat, (x + 1) * d = x * d + d := fun x => by ring
  have hc : n / d * d = d * (n / d) := Nat.mul_comm _ _
  unfold roundHalfEven
  simp only
  split_ifs with h1 h2 h3
  · rw [hc]; omega
  · rw [hmul, hc]; omega
  · rw [hc]; omega
  · rw [hmul, hc]; omega

/-- At exactly half a unit from the quotient `roundHalfEven` is even. -/
theorem roundHalfEven_tie (n d : Nat) (hd : 0 < d)
    (h : 2 * (roundHalfEven n d * d) = 2 * n + d ∨ 2 * n = 2 * (roundHalfEven n d * d) + d) :
    roundHalfEven n d % 2 = 0 := by
  have hdiv : d * (n / d) + n % d = n := Nat.div_add_mod n d
  have hmod : n % d < d := Nat.mod_lt n hd
  have hmul : ∀ x : Nat, (x + 1) * d = x * d + d := fun x => by ring
  have hc : n / d * d = d * (n / d) := Nat.mul_comm _ _
  unfold roundHalfEven at h ⊢
  simp only at h ⊢
  split_ifs at h ⊢ with h1 h2 h3
  · rw [hc] at h; omega
  · rw [hmul, hc] at h; omega
  · exact h3
  · omega

/-- The exponent `floorLog2` is the binary exponent of the fraction. -/
theorem floorLog2_spec (n d : Nat) (hn : 0 < n) (hd : 0 < d) :
    (2 : ℚ) ^ (floorLog2 n d) ≤ (n : ℚ) / d ∧ (n : ℚ) / d < (2 : ℚ) ^ (floorLog2 n d + 1) := by
  obtain ⟨hn1, hn2⟩ := log2_spec n hn
  obtain ⟨hd1, hd2⟩ := log2_spec d hd
  have hdq : (0 : ℚ) < d := by exact_mod_cast hd
  have hnq : (0 : ℚ) < n := by exact_mod_cast hn
  have hn1q : (2 : ℚ) ^ (log2 n : Int) ≤ n := by
    rw [zpow_natCast]; exact_mod_cast hn1
  have hn2q : (n : ℚ) < (2 : ℚ) ^ ((log2 n : Int) + 1) := by
    have : ((log2 n : Int) + 1) = ((log2 n + 1 : Nat) : Int) := by push_cast; ring
    rw [this, zpow_natCast]; exact_mod_cast hn2
  have hd1q : (2 : ℚ) ^ (log2 d : Int) ≤ d := by
    rw [zpow_natCast]; exact_mod_cast hd1
  have hd2q : (d : ℚ) < (2 : ℚ) ^ ((log2 d : Int) + 1) := by
    have : ((log2 d : Int) + 1) = ((log2 d + 1 : Nat) : Int) := by push_cast; ring
    rw [this, zpow_natCast]; exact_mod_cast hd2
  have h2 : (0 : ℚ) < 2 := by norm_num
  have h2ne : (2 : ℚ) ≠ 0 := by norm_num
  -- the test of the definition
  have htest : ∀ k : Int,
      (if 0 ≤ k then d * 2 ^ k.toNat ≤ n else d ≤ n * 2 ^ (-k).toNat) ↔
        (2 : ℚ) ^ k ≤ (n : ℚ) / d := by
    intro k
    rw [le_div_iff₀ hdq]
    by_cases hk : 0 ≤ k
    · rw [if_pos hk]
      obtain ⟨m, rfl⟩ := Int.eq_ofNat_of_zero_le hk
      simp only [Int.toNat_ofNat, zpow_natCast]
      rw [mul_comm]
      exact_mod_cast Iff.rfl
    · rw [if_neg hk]
      have hk2 : k = -((-k).toNat : Int) := by omega
      generalize (-k).toNat = m at hk2
      subst hk2
      rw [zpow_neg, zpow_natCast, inv_mul_le_iff₀ (by positivity)]
      rw [mul_comm (2 ^ m : ℚ)]
      exact_mod_cast Iff.rfl
  unfold floorLog2
  simp only [htest]
  split_ifs with ht
  · refine ⟨ht, ?_⟩
    rw [div_lt_iff₀ hdq]
    calc (n : ℚ) < (2 : ℚ) ^ ((log2 n : Int) + 1) := hn2q
      _ = (2 : ℚ) ^ ((log2 n : Int) - (log2 d : Int) + 1) * (2 : ℚ) ^ (log2 d : Int) := by
          rw [← zpow_add₀ h2ne]; congr 1; ring
      _ ≤ (2 : ℚ) ^ ((log2 n : Int) - (log2 d : Int) + 1) * d :=
          mul_le_mul_of_nonneg_left hd1q (by positivity)
  · have hlt : (n : ℚ) / d < (2 : ℚ) ^ ((log2 n : Int) - (log2 d : Int)) :=
      not_le.mp ht
    refine ⟨?_, ?_⟩
    · rw [le_div_iff₀ hdq]
      calc (2 : ℚ) ^ ((log2 n : Int) - (log2 d : Int) - 1) * d
          ≤ (2 : ℚ) ^ ((log2 n : Int) - (log2 d : Int) - 1) * (2 : ℚ) ^ ((log2 d : Int) + 1) :=
            mul_le_mul_of_nonneg_left (le_of_lt hd2q) (by positivity)
        _ = (2 : ℚ) ^ (log2 n : Int) := by
            rw [← zpow_add₀ h2ne]; congr 1; ring
        _ ≤ n := hn1q
    · have : (log2 n : Int) - (log2 d : Int) - 1 + 1 = (log2 n : Int) - (log2 d : Int) := by ring
      rw [this]
      exact hlt

/-- The scale of the doubles of binary exponent `e`, as a fraction of powers. -/
theorem scale_eq (e : Int) :
    ((2 ^ (e - 52).toNat : Nat) : ℚ) / ((2 ^ (52 - e).toNat : Nat) : ℚ) = (2 : ℚ) ^ (e - 52) := by
  have h2ne : (2 : ℚ) ≠ 0 := by norm_num
  by_cases h : 52 ≤ e
  · have h1 : (52 - e).toNat = 0 := by omega
    have h2 : e - 52 = ((e - 52).toNat : Int) := by omega
    rw [h1]
    conv_rhs => rw [h2]
    rw [zpow_natCast]
    simp
  · have h1 : (e - 52).toNat = 0 := by omega
    have h2 : e - 52 = -((52 - e).toNat : Int) := by omega
    rw [h1]
    conv_rhs => rw [h2]
    rw [zpow_neg, zpow_natCast]
    simp

/-- The value of `roundMagnitude` as significand times scale. -/
theorem roundMagnitude_eq (n d : Nat) :
    roundMagnitude n d =
      if (2 : ℚ) ^ (1024 : Int) ≤
          (roundHalfEven (n * 2 ^ (52 - max (floorLog2 n d) (-1022)).toNat)
            (d * 2 ^ (max (floorLog2 n d) (-1022) - 52).toNat) : ℚ) *
            (2 : ℚ) ^ (max (floorLog2 n d) (-1022) - 52)
      then none
      else some ((roundHalfEven (n * 2 ^ (52 - max (floorLog2 n d) (-1022)).toNat)
            (d * 2 ^ (max (floorLog2 n d) (-1022) - 52).toNat) : ℚ) *
            (2 : ℚ) ^ (max (floorLog2 n d) (-1022) - 52)) := by
  unfold roundMagnitude
  simp only
  generalize max (floorLog2 n d) (-1022) = e
  generalize roundHalfEven (n * 2 ^ (52 - e).toNat) (d * 2 ^ (e - 52).toNat) = m
  have hs := scale_eq e
  have hdpos : (0 : ℚ) < ((2 ^ (52 - e).toNat : Nat) : ℚ) := by positivity
  have hval : ((m * 2 ^ (e - 52).toNat : Nat) : ℚ) / ((2 ^ (52 - e).toNat : Nat) : ℚ) =
      (m : ℚ) * (2 : ℚ) ^ (e - 52) := by
    rw [← hs]; push_cast; ring
  have hcond : (2 ^ 1024 * 2 ^ (52 - e).toNat ≤ m * 2 ^ (e - 52).toNat) ↔
      (2 : ℚ) ^ (1024 : Int) ≤ (m : ℚ) * (2 : ℚ) ^ (e - 52) := by
    rw [← hval, le_div_iff₀ hdpos]
    have : (2 : ℚ) ^ (1024 : Int) = ((2 ^ 1024 : Nat) : ℚ) := by
      rw [show (1024 : Int) = ((1024 : Nat) : Int) from rfl, zpow_natCast]; push_cast; rfl
    rw [this]
    exact_mod_cast Iff.rfl
  simp only [hcond, hval]

/-- The significand chosen for the positive fraction `n / d` at exponent `e`:
it is at most 2^53, and the multiple of `2 ^ (e - 52)` it gives is within half
a step of the fraction, and an even multiple when it is exactly half a step
away. -/
theorem significand_spec (n d : Nat) (hd : 0 < d) (e : Int)
    (hlt : (n : ℚ) / d < (2 : ℚ) ^ (e + 1)) :
    roundHalfEven (n * 2 ^ (52 - e).toNat) (d * 2 ^ (e - 52).toNat) ≤ 2 ^ 53 ∧
    |(roundHalfEven (n * 2 ^ (52 - e).toNat) (d * 2 ^ (e - 52).toNat) : ℚ) * (2 : ℚ) ^ (e - 52)
        - (n : ℚ) / d| ≤ (2 : ℚ) ^ (e - 53) ∧
    (|(roundHalfEven (n * 2 ^ (52 - e).toNat) (d * 2 ^ (e - 52).toNat) : ℚ) * (2 : ℚ) ^ (e - 52)
        - (n : ℚ) / d| = (2 : ℚ) ^ (e - 53) →
      roundHalfEven (n * 2 ^ (52 - e).toNat) (d * 2 ^ (e - 52).toNat) % 2 = 0) := by
  have h2ne : (2 : ℚ) ≠ 0 := by norm_num
  have hs := scale_eq e
  have hDpos : 0 < d * 2 ^ (e - 52).toNat := Nat.mul_pos hd (by positivity)
  obtain ⟨hn1, hn2⟩ := roundHalfEven_near (n * 2 ^ (52 - e).toNat) (d * 2 ^ (e - 52).toNat) hDpos
  have htie := roundHalfEven_tie (n * 2 ^ (52 - e).toNat) (d * 2 ^ (e - 52).toNat) hDpos
  generalize roundHalfEven (n * 2 ^ (52 - e).toNat) (d * 2 ^ (e - 52).toNat) = m at hn1 hn2 htie ⊢
  have hdq : (0 : ℚ) < d := by exact_mod_cast hd
  set U : ℚ := ((2 ^ (e - 52).toNat : Nat) : ℚ) with hU
  set W : ℚ := ((2 ^ (52 - e).toNat : Nat) : ℚ) with hW
  have hUpos : 0 < U := by positivity
  have hWpos : 0 < W := by positivity
  have hn1q : 2 * ((m : ℚ) * (d * U)) ≤ 2 * ((n : ℚ) * W) + d * U := by
    rw [hU, hW]; exact_mod_cast hn1
  have hn2q : 2 * ((n : ℚ) * W) ≤ 2 * ((m : ℚ) * (d * U)) + d * U := by
    rw [hU, hW]; exact_mod_cast hn2
  have hhalf : (2 : ℚ) ^ (e - 53) = U / W / 2 := by
    rw [hs, show e - 53 = e - 52 - 1 by ring, zpow_sub_one₀ h2ne]
    rfl
  have hdiff : (m : ℚ) * (2 : ℚ) ^ (e - 52) - (n : ℚ) / d =
      ((m : ℚ) * (d * U) - (n : ℚ) * W) / (d * W) := by
    rw [← hs]; field_simp; ring
  have hdW : 0 < (d : ℚ) * W := by positivity
  have hbound : U / W / 2 = (d * U / 2) / (d * W) := by field_simp; ring
  refine ⟨?_, ?_, ?_⟩
  · -- the significand is at most 2^53
    have h1 : (n : ℚ) * W < (2 : ℚ) ^ (53 : Nat) * (d * U) := by
      have : (2 : ℚ) ^ (e + 1) = (2 : ℚ) ^ (53 : Nat) * (U / W) := by
        rw [hs, ← zpow_natCast, ← zpow_add₀ h2ne]; congr 1; push_cast; ring
      rw [this, div_lt_iff₀ hdq] at hlt
      have h3 : (n : ℚ) * W < (2 : ℚ) ^ (53 : Nat) * (U / W) * d * W :=
        mul_lt_mul_of_pos_right hlt hWpos
      calc (n : ℚ) * W < (2 : ℚ) ^ (53 : Nat) * (U / W) * d * W := h3
        _ = (2 : ℚ) ^ (53 : Nat) * (d * U) := by field_simp; ring
    have h2 : 2 * ((m : ℚ) * (d * U)) < (2 * (2 : ℚ) ^ (53 : Nat) + 1) * (d * U) := by
      nlinarith
    have hdU : 0 < (d : ℚ) * U := by positivity
    have h3 : 2 * (m : ℚ) < 2 * (2 : ℚ) ^ (53 : Nat) + 1 := by
      by_contra hc
      rw [not_lt] at hc
      have := mul_le_mul_of_nonneg_right hc (le_of_lt hdU)
      nlinarith
    have h4 : 2 * m < 2 * 2 ^ 53 + 1 := by exact_mod_cast h3
    omega
  · rw [hdiff, hhalf, hbound, abs_div, abs_of_pos hdW, div_le_div_iff_of_pos_right hdW, abs_le]
    constructor <;> linarith
  · intro heq
    rw [hdiff, hhalf, hbound, abs_div, abs_of_pos hdW, div_left_inj' (ne_of_gt hdW)] at heq
    apply htie
    rcases abs_eq (by positivity : (0 : ℚ) ≤ d * U / 2) |>.mp heq with h | h
    · left
      have : 2 * ((m : ℚ) * (d * U)) = 2 * ((n : ℚ) * W) + d * U := by linarith
      rw [hU, hW] at this
      exact_mod_cast this
    · right
      have : 2 * ((n : ℚ) * W) = 2 * ((m : ℚ) * (d * U)) + d * U := by linarith
      rw [hU, hW] at this
      exact_mod_cast this

theorem abs_eq_natAbs_div_den (q : ℚ) : |q| = (q.num.natAbs : ℚ) / (q.den : ℚ) := by
  have hden : (0 : ℚ) < q.den := by exact_mod_cast q.den_pos
  conv_lhs => rw [← Rat.num_div_den q]
  rw [abs_div, abs_of_pos hden, Nat.cast_natAbs, Int.cast_abs]

/-- The rounding of `toDouble` is to nearest, ties to even: for `q` other than
zero there are a binary exponent `e`, that of `q` or -1022 for a `q` below the
normal numbers, and a significand `m` of at most 53 bits such that
`m * 2 ^ (e - 52)` is within half a step `2 ^ (e - 52)` of the magnitude of `q`,
with `m` even when it is exactly half a step away; `toDouble q` is that number
with the sign of `q`, or the infinity of that sign when it reaches `2 ^ 1024`. -/
theorem toDouble_nearest (q : ℚ) (hq : q ≠ 0) :
    ∃ (m : Nat) (e : Int), -1022 ≤ e ∧ m ≤ 2 ^ 53 ∧
      ((2 : ℚ) ^ e ≤ |q| ∨ e = -1022) ∧ |q| < (2 : ℚ) ^ (e + 1) ∧
      |(m : ℚ) * (2 : ℚ) ^ (e - 52) - abs q| ≤ (2 : ℚ) ^ (e - 53) ∧
      (|(m : ℚ) * (2 : ℚ) ^ (e - 52) - abs q| = (2 : ℚ) ^ (e - 53) → m % 2 = 0) ∧
      toDouble q =
        if (2 : ℚ) ^ (1024 : Int) ≤ (m : ℚ) * (2 : ℚ) ^ (e - 52) then .inf (decide (q < 0))
        else .fin (if q < 0 then -((m : ℚ) * (2 : ℚ) ^ (e - 52))
          else (m : ℚ) * (2 : ℚ) ^ (e - 52)) := by
  have habs := abs_eq_natAbs_div_den q
  have hn : 0 < q.num.natAbs := Int.natAbs_pos.mpr (Rat.num_ne_zero.mpr hq)
  have hd : 0 < q.den := q.den_pos
  obtain ⟨hf1, hf2⟩ := floorLog2_spec q.num.natAbs q.den hn hd
  have hle : floorLog2 q.num.natAbs q.den ≤ max (floorLog2 q.num.natAbs q.den) (-1022) :=
    le_max_left _ _
  have hlt : (q.num.natAbs : ℚ) / q.den <
      (2 : ℚ) ^ (max (floorLog2 q.num.natAbs q.den) (-1022) + 1) :=
    lt_of_lt_of_le hf2 (zpow_le_zpow_right₀ (by norm_num) (by omega))
  obtain ⟨hm, hnear, htie⟩ := significand_spec q.num.natAbs q.den hd _ hlt
  refine ⟨roundHalfEven
      (q.num.natAbs * 2 ^ (52 - max (floorLog2 q.num.natAbs q.den) (-1022)).toNat)
      (q.den * 2 ^ (max (floorLog2 q.num.natAbs q.den) (-1022) - 52).toNat),
    max (floorLog2 q.num.natAbs q.den) (-1022), le_max_right _ _, hm, ?_, ?_, ?_, ?_, ?_⟩
  · rcases le_total (floorLog2 q.num.natAbs q.den) (-1022) with h | h
    · right; exact max_eq_right h
    · left; rw [max_eq_left h, habs]; exact hf1
  · rw [habs]; exact hlt
  · rw [habs]; exact hnear
  · rw [habs]; exact htie
  · unfold toDouble
    rw [if_neg hq, roundMagnitude_eq]
    split_ifs <;> rfl

/-- Values of `toDouble` where the rounding shows: a tenth and a third, the
odd integers next to 2^53, which are ties, the largest double and the tie above
it, which overflows, and the smallest subnormal with the ties next to it. -/
theorem toDouble_examples :
    toDouble (1 / 10) = .fin (3602879701896397 / 36028797018963968) ∧
    toDouble (9007199254740993 : ℚ) = .fin 9007199254740992 ∧
    toDouble (9007199254740995 : ℚ) = .fin 9007199254740996 ∧
    toDouble (-(1 / 3)) = .fin (-(6004799503160661 / 18014398509481984)) ∧
    toDouble ((2 : ℚ) ^ 1024 - 2 ^ 971) = .fin ((2 : ℚ) ^ 1024 - 2 ^ 971) ∧
    toDouble ((2 : ℚ) ^ 1024 - 2 ^ 970) = .inf false ∧
    toDouble (-(10 : ℚ) ^ 400) = .inf true ∧
    toDouble (1 / (2 : ℚ) ^ 1074) = .fin (1 / (2 : ℚ) ^ 1074) ∧
    toDouble (1 / (2 : ℚ) ^ 1075) = .fin 0 ∧
    toDouble (3 / (2 : ℚ) ^ 1075) = .fin (2 / (2 : ℚ) ^ 1074) := by
  refine ⟨by decide!, by decide!, by decide!, by decide!, by decide!, by decide!, by decide!,
    by decide!, by decide!, by decide!⟩

/-! ## The integer parsed from a literal -/

theorem head?_ne_minus_of_isDigits (l : Str) (h : IsDigits l) : ¬ l.head? = some '-' := by
  obtain ⟨c, rest, rfl, hc⟩ := isDigits_head l h
  intro he
  simp only [List.head?_cons, Option.some.injEq] at he
  rw [he] at hc
  simp at hc

theorem intLiteralValue_digits (l : Str) (h : IsDigits l) :
    intLiteralValue l = (decimalValue l : Int) := by
  unfold intLiteralValue
  rw [if_neg (head?_ne_minus_of_isDigits l h)]

theorem intLiteralValue_minus (u : Str) :
    intLiteralValue ('-' :: u) = -(decimalValue u : Int) := by
  simp [intLiteralValue]

/-- On a signed integer literal `parseInt` gives the Number value of the integer
the literal denotes. -/
theorem parseInt_literal (l : Str) (h : IsIntLiteral l) :
    parseInt l = some (toDouble (intLiteralValue l : ℚ)) := by
  rcases h with h | ⟨u, rfl, h⟩
  · rw [intLiteralValue_digits l h]
    obtain ⟨c, rest, rfl, hc⟩ := isDigits_head l h
    have h1 : (c :: rest).dropWhile isWhiteSpace = c :: rest := by
      simp [List.dropWhile, not_isWhiteSpace_of_isDigit c hc]
    have h2 := (takeWhile_eq_self Char.isDigit _ h.2).1
    simp only [parseInt, h1, splitSign_of_isDigit c rest hc, h2, digitsVal_eq]
    simp
  · rw [intLiteralValue_minus]
    have hws : ('-' :: u).dropWhile isWhiteSpace = '-' :: u := by
      have : isWhiteSpace '-' = false := by decide
      simp [List.dropWhile, this]
    have h2 := (takeWhile_eq_self Char.isDigit _ h.2).1
    have h3 : u.isEmpty = false := by
      cases u with
      | nil => exact absurd rfl h.1
      | cons _ _ => rfl
    simp only [parseInt, hws, splitSign, h2, digitsVal_eq, h3]
    simp

/-- C4, as stated, fails beyond the integers that doubles hold: the first
literal of `9007199254740993` is the whole text, of value 2^53 + 1, and `toInt`
gives 2^53, the double nearest to it; for a literal of four hundred digits it
gives `Infinity`. -/
theorem toInt_counterexample :
    IsFirst IsIntLiteral (removeDots "9007199254740993".toList) "9007199254740993".toList ∧
    intLiteralValue "9007199254740993".toList = 9007199254740993 ∧
    toInt (some "9007199254740993".toList) = some 9007199254740992 ∧
    toInt (some "9007199254740993".toList) ≠ some 9007199254740993 ∧
    toInt (some (List.replicate 400 '9')) = some (.inf false) := by
  refine ⟨((reInt_exec _).1 _).mp (by decide), by decide!, by decide!, by decide!, by decide!⟩

/-- C4, amended: `toInt` gives the double nearest to the value of the first
signed integer literal of the text with every `.` removed, which is that value
itself when its magnitude is at most 2^53, and null exactly when that text has
no such literal; it is a total function.  The three inputs of the
specification give 12345, -7 and null. -/
theorem toInt_first_literal :
    (∀ s v, toInt (some s) = some v ↔
      ∃ l, IsFirst IsIntLiteral (removeDots s) l ∧ v = toDouble (intLiteralValue l : ℚ)) ∧
    (∀ z : Int, z.natAbs ≤ 2 ^ 53 → toDouble (z : ℚ) = .fin (z : ℚ)) ∧
    (∀ s, toInt (some s) = none ↔ ¬ Occurs IsIntLiteral (removeDots s)) ∧
    toInt (some "12.345".toList) = some 12345 ∧
    toInt (some "-7".toList) = some (.fin (-7)) ∧
    toInt (some "abc".toList) = none := by
  have hcase : ∀ s, toInt (some s) =
      match reInt.exec (removeDots s) with
      | some m => parseInt m
      | none => none := by
    intro s
    simp only [toInt, replaceAll_reDot]
  refine ⟨?_, toDouble_intCast, ?_, by decide!, by decide!, by decide⟩
  · intro s v
    rw [hcase]
    obtain ⟨hsome, hnone⟩ := reInt_exec (removeDots s)
    cases he : reInt.exec (removeDots s) with
    | none =>
      constructor
      · intro h
        simp at h
      · rintro ⟨l, hl, -⟩
        rw [(hsome l).mpr hl] at he
        simp at he
    | some m =>
      have hm := (hsome m).mp he
      have hlit : IsIntLiteral m := by
        obtain ⟨-, -, -, hlit, -⟩ := hm
        exact hlit
      simp only [parseInt_literal m hlit, Option.some.injEq]
      constructor
      · intro hv
        exact ⟨m, hm, hv.symm⟩
      · rintro ⟨l, hl, rfl⟩
        rw [isFirst_unique _ _ _ _ hl hm]
  · intro s
    rw [hcase]
    obtain ⟨hsome, hnone⟩ := reInt_exec (removeDots s)
    cases he : reInt.exec (removeDots s) with
    | none => simpa using hnone.mp he
    | some m =>
      obtain ⟨pre, post, ht, hlit, -⟩ := (hsome m).mp he
      simp only [parseInt_literal m hlit]
      simp only [false_iff, not_not, reduceCtorEq]
      exact ⟨pre, m, post, ht, hlit⟩

/-- C4, amended, at the text `Rank 1.234 of 5`: without its dot the first
literal is `1234`, whose value is below 2^53, and `toInt` gives that value. -/
theorem toInt_first_literal_witness :
    IsFirst IsIntLiteral (removeDots "Rank 1.234 of 5".toList) "1234".toList ∧
    (intLiteralValue "1234".toList).natAbs ≤ 2 ^ 53 ∧
    toInt (some "Rank 1.234 of 5".toList) =
      some (.fin ((intLiteralValue "1234".toList : Int) : ℚ)) ∧
    intLiteralValue "1234".toList = 1234 :=
  have hfirst : IsFirst IsIntLiteral (removeDots "Rank 1.234 of 5".toList) "1234".toList :=
    ((reInt_exec _).1 _).mp (by decide)
  have hsmall : (intLiteralValue "1234".toList).natAbs ≤ 2 ^ 53 := by decide!
  ⟨hfirst, hsmall,
    (toInt_first_literal.2.1 (intLiteralValue "1234".toList) hsmall) ▸
      (toInt_first_literal.1 "Rank 1.234 of 5".toList
        (toDouble ((intLiteralValue "1234".toList : Int) : ℚ))).mpr ⟨_, hfirst, rfl⟩,
    by decide!⟩

/-! ## The decimal pattern -/

/-- The optional fraction at the end of the decimal pattern: it takes `.` and the
digits after it when there is at least one, and nothing otherwise. -/
theorem run_fraction (v : Str) :
    Re.run false (.opt (.seq (.atom (.chr '.')) (.rep .digit 1 none))) v some =
      if v.head? = some '.' ∧ 1 ≤ (v.tail.takeWhile Char.isDigit).length
      then some (v.tail.dropWhile Char.isDigit) else some v := by
  have hsome : ∀ t : Str, (some t).isSome = true := fun _ => rfl
  cases v with
  | nil => simp [Re.run]
  | cons x xs =>
    simp only [Re.run, Atom.test, canon, Bool.false_eq_true, if_false, List.head?_cons,
      List.tail_cons, Option.some.injEq, beq_iff_eq]
    have hd := run_digits some hsome xs
    simp only [Re.run] at hd
    by_cases hx : x = '.'
    · simp only [hx, if_true, true_and, hd]
      by_cases hp : 1 ≤ (List.takeWhile Char.isDigit xs).length
      · simp [hp]
      · simp [hp]
    · simp [hx]

theorem run_fraction_isSome (v : Str) :
    (Re.run false (.opt (.seq (.atom (.chr '.')) (.rep .digit 1 none))) v some).isSome = true := by
  rw [run_fraction]
  split <;> rfl

theorem run_unsignedDecimal (t : Str) :
    Re.run false (.seq (.rep .digit 1 none)
        (.opt (.seq (.atom (.chr '.')) (.rep .digit 1 none)))) t some =
      if 1 ≤ (t.takeWhile Char.isDigit).length then
        (if (t.dropWhile Char.isDigit).head? = some '.' ∧
            1 ≤ ((t.dropWhile Char.isDigit).tail.takeWhile Char.isDigit).length
          then some ((t.dropWhile Char.isDigit).tail.dropWhile Char.isDigit)
          else some (t.dropWhile Char.isDigit))
      else none := by
  change Re.run false (.rep .digit 1 none) t
    (fun v => Re.run false (.opt (.seq (.atom (.chr '.')) (.rep .digit 1 none))) v some) = _
  rw [run_digits _ run_fraction_isSome, run_fraction]

theorem dot_not_isDigit : Char.isDigit '.' = false := by decide

theorem isUnsignedDecimal_head (l : Str) (h : IsUnsignedDecimal l) :
    ∃ c rest, l = c :: rest ∧ c.isDigit = true := by
  obtain ⟨ds, hds, hl⟩ := h
  obtain ⟨c, rest, rfl, hc⟩ := isDigits_head ds hds
  rcases hl with rfl | ⟨fs, -, rfl⟩
  · exact ⟨c, rest, rfl, hc⟩
  · exact ⟨c, rest ++ '.' :: fs, rfl, hc⟩

theorem reFloat_matchAt :
    (∀ t r, reFloat.matchAt t = some r →
      ∃ l, IsDecimalLiteral l ∧ t = l ++ r ∧
        ∀ l2 post2, t = l2 ++ post2 → IsDecimalLiteral l2 → l2.length ≤ l.length) ∧
    (∀ l post, IsDecimalLiteral l → (reFloat.matchAt (l ++ post)).isSome = true) := by
  apply optMinus_run (.seq (.rep .digit 1 none)
    (.opt (.seq (.atom (.chr '.')) (.rep .digit 1 none)))) IsUnsignedDecimal
  · intro t r h
    rw [run_unsignedDecimal] at h
    split at h
    · next hpos => exact takeWhile_pos_head t hpos
    · simp at h
  · intro t r h
    rw [run_unsignedDecimal] at h
    split at h
    · next hpos =>
      have hds := isDigits_takeWhile t hpos
      have hsplit : t = t.takeWhile Char.isDigit ++ t.dropWhile Char.isDigit :=
        (List.takeWhile_append_dropWhile _ _).symm
      -- every literal in front of `t` has its digits inside the leading digits of `t`
      have hlead : ∀ ds2 post3, t = ds2 ++ post3 → IsDigits ds2 →
          ds2.length ≤ (t.takeWhile Char.isDigit).length := by
        rintro ds2 post3 rfl ⟨-, hall⟩
        exact length_le_takeWhile _ ds2 post3 hall
      -- a literal with a fraction in front of `t` fixes the leading digits and the dot
      have hfrac : ∀ ds2 fs2 post2, t = (ds2 ++ '.' :: fs2) ++ post2 → IsDigits ds2 →
          IsDigits fs2 →
          t.takeWhile Char.isDigit = ds2 ∧ t.dropWhile Char.isDigit = '.' :: (fs2 ++ post2) := by
        rintro ds2 fs2 post2 rfl hd2 -
        have := takeWhile_append_of_stop Char.isDigit ds2 '.' (fs2 ++ post2) hd2.2 dot_not_isDigit
        simpa using this
      split at h
      · next hcond =>
        obtain ⟨hhead, hfpos⟩ := hcond
        have hr : (t.dropWhile Char.isDigit).tail.dropWhile Char.isDigit = r := by simpa using h
        have hfs := isDigits_takeWhile _ hfpos
        have hdrop : t.dropWhile Char.isDigit = '.' :: (t.dropWhile Char.isDigit).tail := by
          cases hd : t.dropWhile Char.isDigit with
          | nil => rw [hd] at hhead; simp at hhead
          | cons y ys =>
            rw [hd] at hhead
            simp only [List.head?_cons, Option.some.injEq] at hhead
            simp [hhead]
        refine ⟨t.takeWhile Char.isDigit ++
          '.' :: (t.dropWhile Char.isDigit).tail.takeWhile Char.isDigit,
          ⟨_, hds, Or.inr ⟨_, hfs, rfl⟩⟩, ?_, ?_⟩
        · rw [← hr]
          simp only [List.append_assoc, List.cons_append, List.takeWhile_append_dropWhile]
          rw [← hdrop]
          exact hsplit
        · rintro l2 post2 ht2 ⟨ds2, hd2, hl2⟩
          rcases hl2 with rfl | ⟨fs2, hf2, rfl⟩
          · have := hlead l2 post2 ht2 hd2
            simp only [List.length_append, List.length_cons]
            omega
          · obtain ⟨h1, h2⟩ := hfrac ds2 fs2 post2 ht2 hd2 hf2
            have h3 : (t.dropWhile Char.isDigit).tail = fs2 ++ post2 := by rw [h2]; rfl
            have h4 := length_le_takeWhile Char.isDigit fs2 post2 hf2.2
            rw [h3, h1]
            simp only [List.length_append, List.length_cons]
            omega
      · next hcond =>
        have hr : t.dropWhile Char.isDigit = r := by simpa using h
        refine ⟨t.takeWhile Char.isDigit, ⟨_, hds, Or.inl rfl⟩, ?_, ?_⟩
        · rw [← hr]; exact hsplit
        · rintro l2 post2 ht2 ⟨ds2, hd2, hl2⟩
          rcases hl2 with rfl | ⟨fs2, hf2, rfl⟩
          · exact hlead l2 post2 ht2 hd2
          · exfalso
            obtain ⟨h1, h2⟩ := hfrac ds2 fs2 post2 ht2 hd2 hf2
            apply hcond
            rw [h2]
            refine ⟨rfl, ?_⟩
            have h4 := length_le_takeWhile Char.isDigit fs2 post2 hf2.2
            have h5 : 0 < fs2.length := List.length_pos.mpr hf2.1
            simp only [List.tail_cons]
            omega
    · simp at h
  · rintro l post hl
    rw [run_unsignedDecimal]
    obtain ⟨ds, hds, hl2⟩ := hl
    have hpos : 1 ≤ ((l ++ post).takeWhile Char.isDigit).length := by
      have h5 : 0 < ds.length := List.length_pos.mpr hds.1
      rcases hl2 with rfl | ⟨fs, -, rfl⟩
      · have := length_le_takeWhile Char.isDigit l post hds.2
        omega
      · have := length_le_takeWhile Char.isDigit ds ('.' :: fs ++ post) hds.2
        simp only [List.append_assoc]
        omega
    simp only [hpos, if_true]
    split <;> rfl
  · exact isUnsignedDecimal_head

/-- The match of the decimal pattern is the first signed decimal literal. -/
theorem reFloat_exec (t : Str) :
    (∀ m, reFloat.exec t = some m ↔ IsFirst IsDecimalLiteral t m) ∧
      (reFloat.exec t = none ↔ ¬ Occurs IsDecimalLiteral t) :=
  exec_isFirst reFloat IsDecimalLiteral rfl reFloat_matchAt.1 reFloat_matchAt.2 t


/-! ## The value of a decimal literal -/

theorem ne_dot_of_isDigit (c : Char) (h : c.isDigit = true) : (c != '.') = true := by
  rw [bne_iff_ne]
  rintro rfl
  simp at h

/-- The digits and the fraction digits of an unsigned decimal literal, as
`parseFloat` and `unsignedDecimalValue` find them. -/
theorem unsignedDecimal_parts (u : Str) (h : IsUnsignedDecimal u) :
    ∃ ds fs, IsDigits ds ∧ u.takeWhile Char.isDigit = ds ∧
      fractionDigits (u.dropWhile Char.isDigit) = fs ∧
      u.takeWhile (fun c => c != '.') = ds ∧
      (u.dropWhile (fun c => c != '.')).drop 1 = fs := by
  obtain ⟨ds, hds, hu⟩ := h
  have hnd : ∀ c ∈ ds, (c != '.') = true := fun c hc => ne_dot_of_isDigit c (hds.2 c hc)
  rcases hu with rfl | ⟨fs, hfs, rfl⟩
  · obtain ⟨h1, h2⟩ := takeWhile_eq_self Char.isDigit u hds.2
    obtain ⟨h3, h4⟩ := takeWhile_eq_self (fun c => c != '.') u hnd
    exact ⟨u, [], hds, h1, by rw [h2]; rfl, h3, by rw [h4]; rfl⟩
  · obtain ⟨h1, h2⟩ := takeWhile_append_of_stop Char.isDigit ds '.' fs hds.2 dot_not_isDigit
    obtain ⟨h3, h4⟩ := takeWhile_append_of_stop (fun c => c != '.') ds '.' fs hnd (by simp)
    refine ⟨ds, fs, hds, h1, ?_, h3, by rw [h4]; rfl⟩
    rw [h2]
    exact (takeWhile_eq_self Char.isDigit fs hfs.2).1

/-- The value of an unsigned decimal literal, from its digits and its fraction
digits. -/
theorem unsignedDecimalValue_eq (u : Str) (h : IsUnsignedDecimal u) :
    unsignedDecimalValue u =
      (decimalValue (u.takeWhile Char.isDigit) : ℚ) +
        (decimalValue (fractionDigits (u.dropWhile Char.isDigit)) : ℚ) /
          (10 : ℚ) ^ (fractionDigits (u.dropWhile Char.isDigit)).length := by
  obtain ⟨ds, fs, -, h1, h2, h3, h4⟩ := unsignedDecimal_parts u h
  simp only [unsignedDecimalValue, h1, h2, h3, h4]

/-- On a signed decimal literal `parseFloat` gives the Number value of the
decimal the literal denotes. -/
theorem parseFloat_literal (l : Str) (h : IsDecimalLiteral l) :
    parseFloat l = some (toDouble (decimalLiteralValue l)) := by
  rcases h with h | ⟨u, rfl, h⟩
  · obtain ⟨c, rest, rfl, hc⟩ := isUnsignedDecimal_head l h
    have hval := unsignedDecimalValue_eq _ h
    obtain ⟨ds, fs, hds, h1, -, -, -⟩ := unsignedDecimal_parts _ h
    have hne : c ≠ '-' := by rintro rfl; simp at hc
    have hd : (c :: rest).dropWhile isWhiteSpace = c :: rest := by
      simp [List.dropWhile, not_isWhiteSpace_of_isDigit c hc]
    have hemp : ((c :: rest).takeWhile Char.isDigit).isEmpty = false := by
      rw [h1]
      cases ds with
      | nil => exact absurd rfl hds.1
      | cons _ _ => rfl
    have hlv : decimalLiteralValue (c :: rest) = unsignedDecimalValue (c :: rest) := by
      simp [decimalLiteralValue, hne]
    rw [hlv, hval]
    simp only [parseFloat, hd, splitSign_of_isDigit c rest hc, digitsVal_eq, hemp]
    simp
  · have hval := unsignedDecimalValue_eq _ h
    obtain ⟨ds, fs, hds, h1, -, -, -⟩ := unsignedDecimal_parts _ h
    have hws : ('-' :: u).dropWhile isWhiteSpace = '-' :: u := by
      have : isWhiteSpace '-' = false := by decide
      simp [List.dropWhile, this]
    have hemp : (u.takeWhile Char.isDigit).isEmpty = false := by
      rw [h1]
      cases ds with
      | nil => exact absurd rfl hds.1
      | cons _ _ => rfl
    have hlv : decimalLiteralValue ('-' :: u) = -unsignedDecimalValue u := by
      simp [decimalLiteralValue]
    rw [hlv, hval]
    simp only [parseFloat, hws, splitSign, digitsVal_eq, hemp]
    simp

/-! ## Replacing the first comma -/

theorem replaceFirst_comma_cons (x : Char) (xs : Str) :
    replaceFirst [','] ['.'] (x :: xs) =
      if x = ',' then '.' :: xs else x :: replaceFirst [','] ['.'] xs := by
  by_cases hx : x = ','
  · simp [replaceFirst, List.isPrefixOf, hx]
  · have hx2 : ¬ ',' = x := fun e => hx e.symm
    simp [replaceFirst, List.isPrefixOf, hx, hx2]

theorem firstCommaReplaced_iff (s t : Str) :
    FirstCommaReplaced s t ↔ t = replaceFirst [','] ['.'] s := by
  induction s generalizing t with
  | nil =>
    constructor
    · rintro (⟨-, rfl⟩ | ⟨pre, post, h, -⟩)
      · rfl
      · simp at h
    · rintro rfl
      exact Or.inl ⟨by simp, rfl⟩
  | cons x xs ih =>
    rw [replaceFirst_comma_cons]
    by_cases hx : x = ','
    · subst hx
      simp only [if_true]
      constructor
      · rintro (⟨hno, -⟩ | ⟨pre, post, h, hpre, rfl⟩)
        · simp at hno
        · cases pre with
          | nil =>
            simp only [List.nil_append, List.cons.injEq, true_and] at h
            simp [h]
          | cons y ys =>
            simp only [List.cons_append, List.cons.injEq] at h
            rw [← h.1] at hpre
            simp at hpre
      · rintro rfl
        exact Or.inr ⟨[], xs, rfl, by simp, rfl⟩
    · simp only [hx, if_false]
      constructor
      · rintro (⟨hno, rfl⟩ | ⟨pre, post, h, hpre, rfl⟩)
        · have hno2 : ',' ∉ xs := fun hm => hno (List.mem_cons_of_mem _ hm)
          rw [← (ih xs).mp (Or.inl ⟨hno2, rfl⟩)]
        · cases pre with
          | nil =>
            simp only [List.nil_append, List.cons.injEq] at h
            exact absurd h.1 hx
          | cons y ys =>
            simp only [List.cons_append, List.cons.injEq] at h
            obtain ⟨rfl, hxs⟩ := h
            have hys : ',' ∉ ys := fun hm => hpre (List.mem_cons_of_mem _ hm)
            rw [← (ih (ys ++ '.' :: post)).mp (Or.inr ⟨ys, post, hxs, hys, rfl⟩)]
            rfl
      · rintro rfl
        rcases (ih _).mpr rfl with ⟨hno, heq⟩ | ⟨pre, post, h, hpre, heq⟩
        · refine Or.inl ⟨?_, by rw [heq]⟩
          intro hm
          rcases List.mem_cons.mp hm with h1 | h1
          · exact hx h1.symm
          · exact hno h1
        · refine Or.inr ⟨x :: pre, post, by rw [h]; rfl, ?_, by rw [heq]; rfl⟩
          intro hm
          rcases List.mem_cons.mp hm with h1 | h1
          · exact hx h1.symm
          · exact hpre h1

/-! ## Literals and digits -/

theorem occurs_optMinus_iff (PU : Str → Prop)
    (hhead : ∀ l, PU l → ∃ c rest, l = c :: rest ∧ c.isDigit = true)
    (hone : ∀ c : Char, c.isDigit = true → PU [c]) (t : Str) :
    Occurs (OptMinus PU) t ↔ ∃ c ∈ t, c.isDigit = true := by
  constructor
  · rintro ⟨pre, l, post, rfl, hl⟩
    rcases hl with hl | ⟨u, rfl, hu⟩
    · obtain ⟨c, rest, rfl, hc⟩ := hhead l hl
      exact ⟨c, by simp, hc⟩
    · obtain ⟨c, rest, rfl, hc⟩ := hhead u hu
      exact ⟨c, by simp, hc⟩
  · rintro ⟨c, hmem, hc⟩
    obtain ⟨pre, post, rfl⟩ := List.append_of_mem hmem
    exact ⟨pre, [c], post, by simp, Or.inl (hone c hc)⟩

theorem occurs_decimal_iff (t : Str) :
    Occurs IsDecimalLiteral t ↔ ∃ c ∈ t, c.isDigit = true :=
  occurs_optMinus_iff IsUnsignedDecimal isUnsignedDecimal_head
    (fun c hc => ⟨[c], ⟨by simp, by simpa using hc⟩, Or.inl rfl⟩) t

theorem occurs_int_iff (t : Str) :
    Occurs IsIntLiteral t ↔ ∃ c ∈ t, c.isDigit = true :=
  occurs_optMinus_iff IsDigits isDigits_head (fun c hc => ⟨by simp, by simpa using hc⟩) t

theorem digit_mem_firstCommaReplaced (s t : Str) (h : FirstCommaReplaced s t) :
    (∃ c ∈ t, c.isDigit = true) ↔ ∃ c ∈ s, c.isDigit = true := by
  rcases h with ⟨-, rfl⟩ | ⟨pre, post, rfl, -, rfl⟩
  · rfl
  · constructor
    · rintro ⟨c, hc, hd⟩
      refine ⟨c, ?_, hd⟩
      simp only [List.mem_append, List.mem_cons] at hc ⊢
      rcases hc with h1 | rfl | h1
      · exact Or.inl h1
      · simp at hd
      · exact Or.inr (Or.inr h1)
    · rintro ⟨c, hc, hd⟩
      refine ⟨c, ?_, hd⟩
      simp only [List.mem_append, List.mem_cons] at hc ⊢
      rcases hc with h1 | rfl | h1
      · exact Or.inl h1
      · simp at hd
      · exact Or.inr (Or.inr h1)

theorem digit_mem_removeDots (s : Str) :
    (∃ c ∈ removeDots s, c.isDigit = true) ↔ ∃ c ∈ s, c.isDigit = true := by
  unfold removeDots
  constructor
  · rintro ⟨c, hc, hd⟩
    exact ⟨c, (List.mem_filter.mp hc).1, hd⟩
  · rintro ⟨c, hc, hd⟩
    exact ⟨c, List.mem_filter.mpr ⟨hc, ne_dot_of_isDigit c hd⟩, hd⟩

/-! ## Float parsing -/

/-- C5, as stated, fails in two ways.  When a comma precedes the decimal comma:
in `Elo, 1234,5` the first signed decimal literal after replacing the commas by
dots is `1234.5`, of value 12345/10, while `toFloat` replaces the first comma
only and gives 1234.  And the result is a double, not the rational the literal
denotes: for `123,4` it is 4341751515761869/35184372088832, the double nearest
to 1234/10, and not 1234/10. -/
theorem toFloat_counterexample :
    IsFirst IsDecimalLiteral
      ("Elo, 1234,5".toList.map (fun c => if c = ',' then '.' else c)) "1234.5".toList ∧
    decimalLiteralValue "1234.5".toList = 12345 / 10 ∧
    toFloatAllCommas "Elo, 1234,5".toList = some (.fin (12345 / 10)) ∧
    toFloat (some "Elo, 1234,5".toList) = some 1234 ∧
    toFloat (some "Elo, 1234,5".toList) ≠ some (.fin (12345 / 10)) ∧
    IsFirst IsDecimalLiteral "123.4".toList "123.4".toList ∧
    decimalLiteralValue "123.4".toList = 1234 / 10 ∧
    toFloat (some "123,4".toList) = some (.fin (4341751515761869 / 35184372088832)) ∧
    toFloat (some "123,4".toList) ≠ some (.fin (1234 / 10)) ∧
    toFloat (some "0.1234567890123456789".toList) =
      some (.fin (8895999183877727 / 72057594037927936)) ∧
    decimalLiteralValue "0.1234567890123456789".toList =
      1234567890123456789 / 10000000000000000000 := by
  refine ⟨((reFloat_exec _).1 _).mp (by decide), by decide!, by decide!, by decide!,
    by decide!, ((reFloat_exec _).1 _).mp (by decide), by decide!, by decide!, by decide!,
    by decide!, by decide!⟩

/-- C5, amended: `toFloat` gives the double nearest to the value of the first
signed decimal literal of the text in which the first `,` has become `.` (later
commas stay), and null exactly when the text has no such literal, that is no
digit; it is a total function.  The two inputs of the specification give the
double nearest to 1234/10 and null. -/
theorem toFloat_first_literal :
    (∀ s t v, FirstCommaReplaced s t →
      (toFloat (some s) = some v ↔
        ∃ l, IsFirst IsDecimalLiteral t l ∧ v = toDouble (decimalLiteralValue l))) ∧
    (∀ s, ∃ t, FirstCommaReplaced s t) ∧
    (∀ s, toFloat (some s) = none ↔ ¬ Occurs IsDecimalLiteral s) ∧
    toFloat (some "123,4".toList) = some (toDouble (1234 / 10)) ∧
    toFloat (some "no number".toList) = none := by
  have hcase : ∀ s, toFloat (some s) =
      match reFloat.exec (replaceFirst [','] ['.'] s) with
      | some m => parseFloat m
      | none => none := fun s => rfl
  refine ⟨?_, fun s => ⟨_, (firstCommaReplaced_iff s _).mpr rfl⟩, ?_, by decide!, by decide!⟩
  · intro s t v ht
    rw [(firstCommaReplaced_iff s t).mp ht, hcase]
    obtain ⟨hsome, hnone⟩ := reFloat_exec (replaceFirst [','] ['.'] s)
    cases he : reFloat.exec (replaceFirst [','] ['.'] s) with
    | none =>
      constructor
      · intro h
        simp at h
      · rintro ⟨l, hl, -⟩
        rw [(hsome l).mpr hl] at he
        simp at he
    | some m =>
      have hm := (hsome m).mp he
      have hlit : IsDecimalLiteral m := by
        obtain ⟨-, -, -, hlit, -⟩ := hm
        exact hlit
      simp only [parseFloat_literal m hlit, Option.some.injEq]
      constructor
      · intro hv
        exact ⟨m, hm, hv.symm⟩
      · rintro ⟨l, hl, rfl⟩
        rw [isFirst_unique _ _ _ _ hl hm]
  · intro s
    rw [hcase, occurs_decimal_iff,
      ← digit_mem_firstCommaReplaced s _ ((firstCommaReplaced_iff s _).mpr rfl),
      ← occurs_decimal_iff]
    obtain ⟨hsome, hnone⟩ := reFloat_exec (replaceFirst [','] ['.'] s)
    cases he : reFloat.exec (replaceFirst [','] ['.'] s) with
    | none => simpa using hnone.mp he
    | some m =>
      obtain ⟨pre, post, ht, hlit, -⟩ := (hsome m).mp he
      simp only [parseFloat_literal m hlit]
      simp only [false_iff, not_not, reduceCtorEq]
      exact ⟨pre, m, post, ht, hlit⟩

/-- C5, amended, at the input of the counterexample: the first comma of
`Elo, 1234,5` becomes a dot, the first literal of `Elo. 1234,5` is `1234`, and
`toFloat` gives the double nearest to its value. -/
theorem toFloat_first_literal_witness :
    toFloat (some "Elo, 1234,5".toList) =
      some (toDouble (decimalLiteralValue "1234".toList)) :=
  (toFloat_first_literal.1 "Elo, 1234,5".toList "Elo. 1234,5".toList
    (toDouble (decimalLiteralValue "1234".toList))
    ((firstCommaReplaced_iff _ _).mpr (by decide))).mpr
    ⟨"1234".toList, ((reFloat_exec _).1 _).mp (by decide), rfl⟩

/-! ## The classifier, exactly -/

/-- C17 (exact classifier characterisation): a row with cells reaches the
field mapping exactly when its lower-cased joined text has a run of three
digits and does not contain both `rank` and `model`; a row without cells never
does. -/
theorem classifier_exact (row : RenderedRow) :
    (rowCells row ≠ [] →
      (rowItem row = some (mapFields (textCellsOf row) row.anchor) ↔
        DigitRun3 (joinedOf (textCellsOf row)) ∧
          ¬ ("rank".toList <:+: joinedOf (textCellsOf row) ∧
            "model".toList <:+: joinedOf (textCellsOf row)))) ∧
    (rowCells row ≠ [] →
      (rowItem row = none ↔
        ¬ (DigitRun3 (joinedOf (textCellsOf row)) ∧
          ¬ ("rank".toList <:+: joinedOf (textCellsOf row) ∧
            "model".toList <:+: joinedOf (textCellsOf row))))) ∧
    (rowCells row = [] → rowItem row = none) := by
  have hhead : looksLikeHeader (joinedOf (textCellsOf row)) = true ↔
      ("rank".toList <:+: joinedOf (textCellsOf row) ∧
        "model".toList <:+: joinedOf (textCellsOf row)) := by
    unfold looksLikeHeader
    rw [Bool.and_eq_true, includes_iff, includes_iff]
  have hitem : rowCells row ≠ [] → rowItem row =
      if hasScore (joinedOf (textCellsOf row)) = true ∧
        ¬ looksLikeHeader (joinedOf (textCellsOf row)) = true
      then some (mapFields (textCellsOf row) row.anchor) else none := by
    intro hne
    have hc : (rowCells row).isEmpty = false := by
      cases hr : rowCells row with
      | nil => exact absurd hr hne
      | cons x xs => rfl
    unfold rowItem
    simp only [hc, Bool.false_eq_true, if_false]
    cases hasScore (joinedOf (textCellsOf row)) <;>
      cases looksLikeHeader (joinedOf (textCellsOf row)) <;> simp
  refine ⟨?_, ?_, ?_⟩
  · intro hne
    rw [hitem hne, ← hasScore_iff, ← hhead]
    split
    · next h => simp [h]
    · next h => simpa using h
  · intro hne
    rw [hitem hne, ← hasScore_iff, ← hhead]
    split
    · next h => simp [h]
    · next h => simpa using h
  · intro he
    unfold rowItem
    simp [he]

/-! ## The final filter and the score zero -/

/-- C18 (zero score is discarded): the final filter keeps an item exactly when
its model is a non-empty text and its score is a number other than zero, so an
accepted row whose score parses to zero never shows in the output; the rows with
the score cell `000` and with a marker cell starting with `0` are accepted,
mapped to the score zero, and dropped. -/
theorem zero_score_discarded :
    (∀ r : Item, keeps r = true ↔
      (∃ m, r.model = some m ∧ m ≠ []) ∧ ∃ v, r.score = some v ∧ v ≠ 0) ∧
    (∀ page item, item.score = some 0 → item ∉ extractTableRows page) ∧
    (∃ item, rowItem zeroRow = some item ∧ item.score = some 0 ∧
      extractTableRows ⟨[zeroRow], []⟩ = []) ∧
    (∃ item, rowItem zeroMarkerRow = some item ∧ item.score = some 0 ∧
      extractTableRows ⟨[zeroMarkerRow], []⟩ = []) := by
  have hkeeps : ∀ r : Item, keeps r = true ↔
      (∃ m, r.model = some m ∧ m ≠ []) ∧ ∃ v, r.score = some v ∧ v ≠ 0 := by
    intro r
    unfold keeps
    rw [Bool.and_eq_true]
    apply and_congr
    · cases r.model with
      | none => simp
      | some m => cases m <;> simp
    · cases r.score with
      | none => simp
      | some v => simp
  refine ⟨hkeeps, ?_, ?_, ?_⟩
  · intro page item hz hmem
    obtain ⟨-, v, hv, hne⟩ := (hkeeps item).mp ((mem_extractTableRows page item).mp hmem).2
    rw [hz] at hv
    exact hne (Option.some.inj hv).symm
  · exact ⟨⟨some 1, some "Model-Z".toList, some 0, some 1, none, none⟩, by decide!, rfl,
      by decide!⟩
  · exact ⟨⟨some 1, some "Model-Z".toList, some 0, some 1234, none, none⟩, by decide!, rfl,
      by decide!⟩

/-! ## Alternations of words -/

theorem run_anyWord_isSome (ic : Bool) (ws : List String) (hne : ws ≠ []) (t : Str) :
    (Re.run ic (Re.anyWord ws) t some).isSome = true ↔
      ∃ w ∈ ws, (w.toList.map (canon ic)).isPrefixOf (t.map (canon ic)) = true := by
  induction ws with
  | nil => exact absurd rfl hne
  | cons w rest ih =>
    cases rest with
    | nil =>
      simp only [Re.anyWord, run_word, List.mem_singleton, exists_eq_left]
      split
      · next h => simp only [Option.isSome_some, true_iff]; exact h
      · next h => simp only [Option.isSome_none, Bool.false_eq_true, false_iff]; exact h
    | cons w2 rest2 =>
      have ih2 := ih (by simp)
      simp only [Re.anyWord, Re.run, run_word]
      by_cases hw : (w.toList.map (canon ic)).isPrefixOf (t.map (canon ic)) = true
      · simp only [hw, if_true, Option.isSome_some, true_iff]
        exact ⟨w, by simp, hw⟩
      · simp only [hw, Bool.false_eq_true, if_false]
        rw [ih2]
        constructor
        · rintro ⟨v, hv, hp⟩
          exact ⟨v, List.mem_cons_of_mem _ hv, hp⟩
        · rintro ⟨v, hv, hp⟩
          rcases List.mem_cons.mp hv with rfl | hv2
          · exact absurd hp hw
          · exact ⟨v, hv2, hp⟩

/-- The test of an alternation of words with the flag `i`: one of the words
occurs in the text, whatever the letter case. -/
theorem test_anyWord_iff (ws : List String) (hne : ws ≠ []) (s : Str) :
    RegExp.test ⟨Re.anyWord ws, false, true⟩ s = true ↔ MentionsAny ws s := by
  rw [test_iff_exists_suffix _ rfl]
  unfold MentionsAny ContainsCI
  constructor
  · rintro ⟨t, ht, hm⟩
    obtain ⟨w, hw, hp⟩ := (run_anyWord_isSome true ws hne t).mp hm
    refine ⟨w, hw, ?_⟩
    exact (exists_suffix_prefix_map_iff Char.toUpper _ s).mp
      ⟨t, ht, List.isPrefixOf_iff_prefix.mp hp⟩
  · rintro ⟨w, hw, hin⟩
    obtain ⟨t, ht, hp⟩ := (exists_suffix_prefix_map_iff Char.toUpper _ s).mpr hin
    exact ⟨t, ht, (run_anyWord_isSome true ws hne t).mpr
      ⟨w, hw, List.isPrefixOf_iff_prefix.mpr hp⟩⟩

theorem reOrganization_test_iff (s : Str) :
    reOrganization.test s = true ↔ MentionsAny organizationTokens s :=
  test_anyWord_iff organizationTokens (by decide) s

theorem reLicense_test_iff (s : Str) :
    reLicense.test s = true ↔ MentionsAny licenseTokens s :=
  test_anyWord_iff licenseTokens (by decide) s

theorem firstMatching_find? (p : Str → Bool) (P : Str → Prop) (hp : ∀ c, p c = true ↔ P c)
    (cells : List Str) : FirstMatching P cells (cells.find? p) := by
  cases hf : cells.find? p with
  | none =>
    intro c hc hP
    have := List.find?_eq_none.mp hf c hc
    exact this ((hp c).mpr hP)
  | some c =>
    obtain ⟨hpc, pre, post, hcells, hpre⟩ := List.find?_eq_some.mp hf
    refine ⟨pre, post, hcells, (hp c).mp hpc, ?_⟩
    intro d hd hP
    have := hpre d hd
    simp [(hp d).mpr hP] at this

/-- C16 (organization and license lookup): in an accepted row the organization
is the first cell, in column order, that mentions a word of the organization
expression in any letter case, and null exactly when no cell does; the same
holds for the license and the words of the license expression; a value that is
not null is one of the cell texts of the row. -/
theorem organization_license_lookup (row : RenderedRow) (item : Item)
    (h : rowItem row = some item) :
    FirstMatching (MentionsAny organizationTokens) (textCellsOf row) item.organization ∧
    FirstMatching (MentionsAny licenseTokens) (textCellsOf row) item.license ∧
    (item.organization = none ↔
      ∀ c ∈ textCellsOf row, ¬ MentionsAny organizationTokens c) ∧
    (item.license = none ↔ ∀ c ∈ textCellsOf row, ¬ MentionsAny licenseTokens c) ∧
    (∀ c, item.organization = some c → c ∈ textCellsOf row) ∧
    (∀ c, item.license = some c → c ∈ textCellsOf row) := by
  obtain ⟨-, -, -, hmap⟩ := rowItem_eq_some row item h
  have horg : item.organization = (textCellsOf row).find? reOrganization.test := by
    rw [hmap]; rfl
  have hlic : item.license = (textCellsOf row).find? reLicense.test := by
    rw [hmap]; rfl
  refine ⟨?_, ?_, ?_, ?_, ?_, ?_⟩
  · rw [horg]
    exact firstMatching_find? _ _ reOrganization_test_iff _
  · rw [hlic]
    exact firstMatching_find? _ _ reLicense_test_iff _
  · rw [horg, List.find?_eq_none]
    exact forall₂_congr (fun c _ => not_congr (reOrganization_test_iff c))
  · rw [hlic, List.find?_eq_none]
    exact forall₂_congr (fun c _ => not_congr (reLicense_test_iff c))
  · intro c hc
    rw [horg] at hc
    exact List.mem_of_find?_eq_some hc
  · intro c hc
    rw [hlic] at hc
    exact List.mem_of_find?_eq_some hc

/-- C16 at a row whose model cell `Claude 3 Haiku` contains `ai`: the
organization is that cell, the first to mention a word of the expression, and
the license is the last cell. -/
theorem organization_license_lookup_witness :
    FirstMatching (MentionsAny organizationTokens) (textCellsOf haikuRow)
      (some "Claude 3 Haiku".toList) ∧
    FirstMatching (MentionsAny licenseTokens) (textCellsOf haikuRow)
      (some "Proprietary".toList) :=
  ⟨(organization_license_lookup haikuRow
      ⟨some 3, some "Claude 3 Haiku".toList, some 1179, some 1179,
        some "Claude 3 Haiku".toList, some "Proprietary".toList⟩ (by decide!)).1,
    (organization_license_lookup haikuRow
      ⟨some 3, some "Claude 3 Haiku".toList, some 1179, some 1179,
        some "Claude 3 Haiku".toList, some "Proprietary".toList⟩ (by decide!)).2.1⟩

/-! ## The score search -/

theorem reMarker_test_iff (c : Str) :
    reMarker.test c = true ↔ ['\u00C2', '\u00B1'] <:+: c := by
  unfold reMarker
  rw [test_word_iff]
  have hid : ∀ l : Str, l.map (canon false) = l := by
    intro l
    induction l with
    | nil => rfl
    | cons x xs ih => simp [canon, ih]
  rw [hid, hid]

theorem reLeadScore_test_iff (c : Str) :
    reLeadScore.test c = true ↔ 3 ≤ (c.takeWhile Char.isDigit).length := by
  have hsome : ∀ t : Str, (some t).isSome = true := fun _ => rfl
  have hfun : Atom.test false Atom.digit = Char.isDigit := by
    funext x; rfl
  have hm : reLeadScore.matchAt c =
      if 3 ≤ 0 + capLen (some 4) 0 (c.takeWhile Char.isDigit).length
      then some (c.drop (capLen (some 4) 0 (c.takeWhile Char.isDigit).length)) else none := by
    change repeatAtom (Atom.test false .digit) 3 (some 4) some 0 c = _
    rw [repeatAtom_total _ _ _ _ hsome, hfun]
  unfold RegExp.test RegExp.exec
  have ha : reLeadScore.anchored = true := rfl
  simp only [ha, if_true, Option.isSome_map, hm, capLen, Nat.zero_add, Nat.sub_zero]
  by_cases h3 : 3 ≤ (c.takeWhile Char.isDigit).length
  · have h4 : 3 ≤ min (c.takeWhile Char.isDigit).length 4 := by omega
    simp [h4, h3]
  · have h4 : ¬ 3 ≤ min (c.takeWhile Char.isDigit).length 4 := by omega
    simp [h4, h3]

theorem marker_of_pair (c : Str) (h : ['\u00C2', '\u00B1'] <:+: c) :
    ['\u00B1'] <:+: c := by
  obtain ⟨pre, post, rfl⟩ := h
  exact ⟨pre ++ ['\u00C2'], post, by simp⟩

/-! ## Cells of digits -/

theorem isFirst_self (P : Str → Prop) (l : Str) (h : P l) : IsFirst P l l := by
  refine ⟨[], [], by simp, h, ?_⟩
  intro pre2 l2 post2 hl _
  cases pre2 with
  | nil =>
    right
    refine ⟨rfl, ?_⟩
    have := congrArg List.length hl
    simp at this
    omega
  | cons x xs => left; simp

theorem toInt_digits (ds : Str) (h : IsDigits ds) :
    toInt (some ds) = some (toDouble (decimalValue ds : ℚ)) := by
  have hdots : replaceAll reDot [] ds = ds := by
    rw [replaceAll_reDot]
    unfold removeDots
    rw [List.filter_eq_self]
    intro c hc
    exact ne_dot_of_isDigit c (h.2 c hc)
  have hlit : IsIntLiteral ds := Or.inl h
  have hexec : reInt.exec ds = some ds :=
    ((reInt_exec ds).1 ds).mpr (isFirst_self _ ds hlit)
  simp only [toInt, hdots, hexec, parseInt_literal _ hlit, intLiteralValue_digits ds h]
  simp

theorem decimalLiteralValue_digits (ds : Str) (h : IsDigits ds) :
    decimalLiteralValue ds = (decimalValue ds : ℚ) := by
  have hnd : ∀ c ∈ ds, (c != '.') = true := fun c hc => ne_dot_of_isDigit c (h.2 c hc)
  obtain ⟨h1, h2⟩ := takeWhile_eq_self (fun c => c != '.') ds hnd
  unfold decimalLiteralValue
  rw [if_neg (head?_ne_minus_of_isDigits ds h)]
  simp only [unsignedDecimalValue, h1, h2]
  simp [decimalValue]

theorem toFloat_digits (ds : Str) (h : IsDigits ds) :
    toFloat (some ds) = some (toDouble (decimalValue ds : ℚ)) := by
  have hcomma : replaceFirst [','] ['.'] ds = ds := by
    refine ((firstCommaReplaced_iff ds ds).mp (Or.inl ⟨?_, rfl⟩)).symm
    intro hm
    have := h.2 _ hm
    simp at this
  have hlit : IsDecimalLiteral ds := Or.inl ⟨ds, h, Or.inl rfl⟩
  have hexec : reFloat.exec ds = some ds :=
    ((reFloat_exec ds).1 ds).mpr (isFirst_self _ ds hlit)
  simp only [toFloat, hcomma, hexec, parseFloat_literal _ hlit,
    decimalLiteralValue_digits ds h]

/-- C19, as stated, fails when the first cell is not a whole number: the row
`100.5`, `Model-Z`, `1234` is accepted and kept, has no marker cell, and its
first cell begins with three digits; its score is 100.5, the number `toFloat`
reads from the first cell, while its rank is 1005, the number `toInt` reads from
the same cell with the dot removed, so the score does not equal the rank. -/
theorem score_from_rank_cell_counterexample :
    rowItem decimalRankRow =
      some ⟨some 1005, some "Model-Z".toList, some (.fin (201 / 2)), some 1005, none, none⟩ ∧
    survives decimalRankRow = true ∧
    (∀ c ∈ textCellsOf decimalRankRow, includes ['\u00B1'] c = false) ∧
    (textCellsOf decimalRankRow)[0]? = some "100.5".toList ∧
    ("100.5".toList.take 3).all Char.isDigit = true ∧
    toFloat (some "100.5".toList) = some (.fin (201 / 2)) ∧
    toInt (some "100.5".toList) = some 1005 ∧
    toFloat (some "100.5".toList) ≠ toInt (some "100.5".toList) := by
  refine ⟨by decide!, by decide!, by decide, by decide, by decide, by decide!, by decide!,
    by decide!⟩

/-- C19, amended: in an accepted row without marker cell, whether the marker is
the sign U+00B1 or the pair U+00C2 U+00B1 the code looks for, whose first cell
begins with three digits, the score is the number `toFloat` parses from the
first cell, the cell the rank is parsed from by `toInt`, whatever the later
cells hold; when that cell consists of digits only, score and rank are the same
number, the double nearest to the number the digits denote. -/
theorem score_from_rank_cell (row : RenderedRow) (item : Item) (first : Str)
    (h : rowItem row = some item)
    (hmarker : (∀ c ∈ textCellsOf row, ¬ ['\u00B1'] <:+: c) ∨
      (∀ c ∈ textCellsOf row, ¬ ['\u00C2', '\u00B1'] <:+: c))
    (hfirst : (textCellsOf row)[0]? = some first)
    (hdigits : ∃ a b c rest, first = a :: b :: c :: rest ∧
      a.isDigit = true ∧ b.isDigit = true ∧ c.isDigit = true) :
    item.score = toFloat (some first) ∧ item.rankUB = toInt (some first) ∧
      (IsDigits first →
        item.score = item.rankUB ∧
          item.score = some (toDouble (decimalValue first : ℚ))) := by
  obtain ⟨-, -, -, hmap⟩ := rowItem_eq_some row item h
  have hnone : (textCellsOf row).find? reMarker.test = none := by
    rw [List.find?_eq_none]
    intro c hc ht
    have hin := (reMarker_test_iff c).mp ht
    rcases hmarker with hm | hm
    · exact hm c hc (marker_of_pair c hin)
    · exact hm c hc hin
  have hlead : (textCellsOf row).find? reLeadScore.test = some first := by
    cases hcells : textCellsOf row with
    | nil => rw [hcells] at hfirst; simp at hfirst
    | cons x xs =>
      rw [hcells] at hfirst
      simp only [List.getElem?_cons_zero, Option.some.injEq] at hfirst
      subst hfirst
      have ht : reLeadScore.test x = true :=
        (reLeadScore_test_iff x).mpr ((three_le_takeWhile_iff x).mpr hdigits)
      simp [List.find?, ht]
  have hscore : item.score = toFloat (some first) := by
    rw [hmap]
    simp only [mapFields, hnone, hlead]
    rfl
  have hrank : item.rankUB = toInt (some first) := by
    rw [hmap]
    simp only [mapFields, hfirst]
  refine ⟨hscore, hrank, ?_⟩
  intro hd
  rw [hscore, hrank, toFloat_digits first hd, toInt_digits first hd]
  exact ⟨rfl, rfl⟩

/-- C19, amended, at the row `100`, `Model-Z`, `1234`: score and rank are both
100, although the third cell holds 1234. -/
theorem score_from_rank_cell_witness :
    Item.score ⟨some 100, some "Model-Z".toList, some 100, some 100, none, none⟩
        = toFloat (some "100".toList) ∧
      toFloat (some "100".toList) = some 100 ∧
      Item.score ⟨some 100, some "Model-Z".toList, some 100, some 100, none, none⟩
        = Item.rankUB ⟨some 100, some "Model-Z".toList, some 100, some 100, none, none⟩ :=
  have hw := score_from_rank_cell rankScoreRow
      ⟨some 100, some "Model-Z".toList, some 100, some 100, none, none⟩ "100".toList
      (by decide!)
      (Or.inl (fun c hc hin => by
        have hall : ∀ c ∈ textCellsOf rankScoreRow, includes ['\u00B1'] c = false := by decide
        have hi := (includes_iff _ _).mpr hin
        rw [hall c hc] at hi
        exact Bool.false_ne_true hi))
      (by decide)
      ⟨'1', '0', '0', [], rfl, by decide, by decide, by decide⟩
  ⟨hw.1, by decide!, (hw.2.2 ⟨by decide, by decide⟩).1⟩

/-! ## Order of the records -/

theorem extractTableRows_eq_map (page : Page) :
    extractTableRows page = ((pageRows page).filter survives).map itemOf := by
  rw [extractTableRows_eq]
  induction pageRows page with
  | nil => rfl
  | cons r rs ih =>
    cases hr : rowItem r with
    | none =>
      have hs : survives r = false := by simp [survives, hr]
      simp only [List.filterMap_cons, hr, List.filter_cons, hs, ih]
      rfl
    | some item =>
      obtain ⟨-, -, -, hmap⟩ := rowItem_eq_some r item hr
      have hs : survives r = keeps item := by simp [survives, hr]
      cases hk : keeps item with
      | true =>
        simp only [List.filterMap_cons, hr, List.filter_cons, hs, hk, if_true, List.map_cons, ih]
        rw [hmap]
        rfl
      | false =>
        simp only [List.filterMap_cons, hr, List.filter_cons, hs, hk, ih]
        rfl

theorem mapWithIndex_map {α β γ : Type} (f : β → Nat → γ) (g : α → β) (l : List α) :
    ∀ k, mapWithIndex f k (l.map g) = mapWithIndex (fun a i => f (g a) i) k l := by
  induction l with
  | nil => intro k; rfl
  | cons a as ih => intro k; simp [mapWithIndex, ih]

theorem length_mapWithIndex {α β : Type} (f : α → Nat → β) (l : List α) :
    ∀ k, (mapWithIndex f k l).length = l.length := by
  induction l with
  | nil => intro k; rfl
  | cons a as ih => intro k; simp [mapWithIndex, ih]

theorem rank_positions_of_no_rank (slug url : Str) (l : List Item)
    (h : ∀ r ∈ l, r.rankUB = none) :
    ∀ k, (mapWithIndex (toRecord slug url) k l).map Record.rank_position =
      (List.range l.length).map (fun i : Nat => JSNumber.fin ((k + i + 1 : Nat) : ℚ)) := by
  induction l with
  | nil => intro k; rfl
  | cons a as ih =>
    intro k
    have ha : a.rankUB = none := h a (by simp)
    simp only [mapWithIndex, List.map_cons, List.length_cons, List.range_succ_eq_map,
      List.map_map, ih (fun r hr => h r (by simp [hr])) (k + 1)]
    refine congrArg₂ List.cons ?_ ?_
    · simp [toRecord, ha]
    · apply List.map_congr_left
      intro i _
      simp only [Function.comp]
      congr 2
      omega

/-- C20 (order and positional ranks): the records of `scrapeArena` are the
mapped rows of a sublist of the rendered rows, in their order on the page, one
record a row, so they are no more than the rows; when no surviving item has a
parsed rank their positions are 1, 2, and so on up to their number. -/
theorem records_in_page_order (page : Page) (slug : Str) :
    ∃ sub : List RenderedRow, sub.Sublist (pageRows page) ∧
      extractTableRows page = sub.map itemOf ∧
      scrapeArena page slug =
        mapWithIndex (fun row i => toRecord slug (BASE ++ "/".toList ++ slug) (itemOf row) i)
          0 sub ∧
      (scrapeArena page slug).length = sub.length ∧
      (scrapeArena page slug).length ≤ (pageRows page).length ∧
      ((∀ r ∈ extractTableRows page, r.rankUB = none) →
        (scrapeArena page slug).map Record.rank_position =
          (List.range (scrapeArena page slug).length).map
            (fun i : Nat => JSNumber.fin ((i + 1 : Nat) : ℚ))) := by
  refine ⟨(pageRows page).filter survives, List.filter_sublist _,
    extractTableRows_eq_map page, ?_, ?_, ?_, ?_⟩
  · unfold scrapeArena
    simp only [extractTableRows_eq_map, mapWithIndex_map]
  · unfold scrapeArena
    rw [length_mapWithIndex, extractTableRows_eq_map, List.length_map]
  · unfold scrapeArena
    rw [length_mapWithIndex, extractTableRows_eq_map, List.length_map]
    exact List.length_filter_le _ _
  · intro h
    unfold scrapeArena
    simp only
    rw [rank_positions_of_no_rank _ _ _ h 0, length_mapWithIndex]
    apply List.map_congr_left
    intro i _
    simp

/-! ## Provenance of the payload -/

theorem mem_arenaEvents_upsert (w : World) (scraped_at slug tbl oc : Str)
    (payload : List Payload) (h : Event.upsert tbl payload oc ∈ arenaEvents w scraped_at slug) :
    tbl = TABLE ∧ oc = ON_CONFLICT ∧
      ∃ page, w.render slug = .ok page ∧ payload = snapshotBatch page slug scraped_at := by
  unfold arenaEvents at h
  cases hr : w.render slug with
  | error e => simp [hr] at h
  | ok page =>
    simp only [hr, List.mem_cons, reduceCtorEq, false_or] at h
    split at h
    · simp at h
    · simp only [List.mem_cons, Event.upsert.injEq] at h
      rcases h with ⟨h1, h2, h3⟩ | h
      · exact ⟨h1, h3, page, rfl, h2⟩
      · exfalso
        cases hst : w.store TABLE ((scrapeArena page slug).map (toPayload scraped_at))
            ON_CONFLICT with
        | error e => simp [hst] at h
        | ok res => cases res <;> simp [hst] at h

theorem mem_main_upsert (w : World) (scraped_at : Str) (arenas : List Str) (tbl oc : Str)
    (payload : List Payload)
    (h : Event.upsert tbl payload oc ∈ (main w scraped_at arenas []).2) :
    tbl = TABLE ∧ oc = ON_CONFLICT ∧
      ∃ slug ∈ arenas, ∃ page, w.render slug = .ok page ∧
        payload = snapshotBatch page slug scraped_at := by
  rw [main_run] at h
  simp only [List.nil_append, List.mem_append, List.mem_flatMap, List.mem_singleton,
    reduceCtorEq, or_false] at h
  obtain ⟨slug, hslug, hev⟩ := h
  obtain ⟨h1, h2, page, hp, hb⟩ := mem_arenaEvents_upsert w scraped_at slug tbl oc payload hev
  exact ⟨h1, h2, slug, hslug, page, hp, hb⟩

theorem mem_scrapeArena (page : Page) (slug : Str) (rec : Record)
    (h : rec ∈ scrapeArena page slug) :
    rec.arena = slug ∧ rec.source_url = BASE ++ "/".toList ++ slug := by
  obtain ⟨r, -, i, rfl⟩ := mem_mapWithIndex _ _ _ _ h
  exact ⟨rfl, rfl⟩

/-- C14 (shared timestamp and provenance): every batch handed to upsert in a
run is the batch of one category of the list, and each of its records carries
the timestamp fixed before the loop, that category as `arena`, and the base
address followed by `/` and the category as `source_url`. -/
theorem shared_timestamp_and_provenance (w : World) (scraped_at : Str) (arenas : List Str)
    (tbl oc : Str) (payload : List Payload)
    (h : Event.upsert tbl payload oc ∈ (main w scraped_at arenas []).2) :
    ∃ slug ∈ arenas, (∃ page, w.render slug = .ok page ∧
        payload = snapshotBatch page slug scraped_at) ∧
      ∀ p ∈ payload, p.scraped_at = scraped_at ∧ p.record.arena = slug ∧
        p.record.source_url = BASE ++ "/".toList ++ slug := by
  obtain ⟨-, -, slug, hslug, page, hp, rfl⟩ := mem_main_upsert w scraped_at arenas tbl oc payload h
  refine ⟨slug, hslug, ⟨page, hp, rfl⟩, ?_⟩
  intro p hmem
  unfold snapshotBatch at hmem
  obtain ⟨rec, hrec, rfl⟩ := List.mem_map.mp hmem
  obtain ⟨h1, h2⟩ := mem_scrapeArena page slug rec hrec
  exact ⟨rfl, h1, h2⟩

/-- C14 at the run over `text`, `webdev` and `vision` in which `webdev` throws:
the batch of `vision` carries the timestamp of the run, `vision` and its
address. -/
theorem shared_timestamp_and_provenance_witness :
    ∃ slug ∈ ["text".toList, "webdev".toList, "vision".toList],
      (∃ page, isolationWorld.render slug = .ok page ∧
        snapshotBatch rankPage "vision".toList "2025-01-01T00:00:00.000Z".toList =
          snapshotBatch page slug "2025-01-01T00:00:00.000Z".toList) ∧
      ∀ p ∈ snapshotBatch rankPage "vision".toList "2025-01-01T00:00:00.000Z".toList,
        p.scraped_at = "2025-01-01T00:00:00.000Z".toList ∧ p.record.arena = slug ∧
          p.record.source_url = BASE ++ "/".toList ++ slug :=
  shared_timestamp_and_provenance isolationWorld "2025-01-01T00:00:00.000Z".toList
    ["text".toList, "webdev".toList, "vision".toList] TABLE ON_CONFLICT
    (snapshotBatch rankPage "vision".toList "2025-01-01T00:00:00.000Z".toList)
    (by rw [main_run]; decide!)


/-! ## The lines on the console -/

theorem console_arenaEvents (w : World) (scraped_at slug : Str) :
    (arenaEvents w scraped_at slug).filter Event.isConsole = [outcomeLine w scraped_at slug] := by
  unfold arenaEvents outcomeLine
  rw [List.filter_cons]
  simp only [Event.isConsole, Bool.false_eq_true, if_false]
  cases w.render slug with
  | error e => rfl
  | ok page =>
    simp only
    split
    · rfl
    · rw [List.filter_cons]
      simp only [Event.isConsole, Bool.false_eq_true, if_false]
      cases w.store TABLE ((scrapeArena page slug).map (toPayload scraped_at)) ON_CONFLICT with
      | error e => rfl
      | ok res => cases res <;> rfl

/-- C15, as stated, fails: in a run where `text` persists three records,
`webdev` throws and `vision` has no rows, the console gets `[OK] text: 3 rijen`,
`[ARENA FAIL] webdev: Timeout 60000ms exceeded` and
`[WARN] Geen rijen voor vision`, and none of the three lines of the specification. -/
theorem log_surface_counterexample :
    (main logWorld "2025-01-01T00:00:00.000Z".toList
        ["text".toList, "webdev".toList, "vision".toList] []).2.filterMap Event.text? =
      ["[OK] text: 3 rijen".toList, "[ARENA FAIL] webdev: Timeout 60000ms exceeded".toList,
        "[WARN] Geen rijen voor vision".toList] ∧
    specOkLine "text".toList 3 = "OK text: 3 rows".toList ∧
    specErrorLine "webdev".toList "Timeout 60000ms exceeded".toList =
      "ERROR webdev: Timeout 60000ms exceeded".toList ∧
    specWarnLine "vision".toList = "WARN vision: no rows".toList ∧
    (∀ line ∈ (main logWorld "2025-01-01T00:00:00.000Z".toList
        ["text".toList, "webdev".toList, "vision".toList] []).2.filterMap Event.text?,
      line ≠ specOkLine "text".toList 3 ∧
      line ≠ specErrorLine "webdev".toList "Timeout 60000ms exceeded".toList ∧
      line ≠ specWarnLine "vision".toList) := by
  rw [main_run]
  decide!

/-- C15, amended: the console calls of a run are one for each category, in list
order: `[ARENA FAIL] <category>: <message>` by `console.error` when scraping or
the upsert throws, `[WARN] Geen rijen voor <category>` by `console.warn` when
no record survives, `[ERROR] Upsert <category>:` with the error object by
`console.error` when the upsert answers with an error, and
`[OK] <category>: <n> rijen` by `console.log` when the batch of `n` records is
persisted. -/
theorem log_surface (w : World) (scraped_at : Str) (arenas : List Str) :
    (main w scraped_at arenas []).2.filter Event.isConsole =
      arenas.map (outcomeLine w scraped_at) ∧
    ∀ slug,
      (∀ e, w.render slug = .error e → outcomeLine w scraped_at slug =
        .error ("[ARENA FAIL] ".toList ++ slug ++ ": ".toList ++ e) none) ∧
      (∀ page, w.render slug = .ok page → scrapeArena page slug = [] →
        outcomeLine w scraped_at slug = .warn ("[WARN] Geen rijen voor ".toList ++ slug)) ∧
      (∀ page, w.render slug = .ok page → scrapeArena page slug ≠ [] →
        (∀ e, w.store TABLE (snapshotBatch page slug scraped_at) ON_CONFLICT = .error e →
          outcomeLine w scraped_at slug =
            .error ("[ARENA FAIL] ".toList ++ slug ++ ": ".toList ++ e) none) ∧
        (∀ e, w.store TABLE (snapshotBatch page slug scraped_at) ON_CONFLICT = .ok (some e) →
          outcomeLine w scraped_at slug =
            .error ("[ERROR] Upsert ".toList ++ slug ++ ":".toList) (some e)) ∧
        (w.store TABLE (snapshotBatch page slug scraped_at) ON_CONFLICT = .ok none →
          outcomeLine w scraped_at slug =
            .log ("[OK] ".toList ++ slug ++ ": ".toList ++
              showNat (snapshotBatch page slug scraped_at).length ++ " rijen".toList))) := by
  constructor
  · rw [main_run]
    simp only [List.nil_append, List.filter_append]
    have hflat : ∀ l : List Str,
        (l.flatMap (arenaEvents w scraped_at)).filter Event.isConsole =
          l.map (outcomeLine w scraped_at) := by
      intro l
      induction l with
      | nil => rfl
      | cons a as ih =>
        rw [List.flatMap_cons, List.filter_append, console_arenaEvents, ih]
        rfl
    rw [hflat]
    simp [Event.isConsole]
  · intro slug
    refine ⟨?_, ?_, ?_⟩
    · intro e he
      simp [outcomeLine, he]
    · intro page hp hrows
      simp [outcomeLine, hp, hrows]
    · intro page hp hrows
      have hemp : (scrapeArena page slug).isEmpty = false := by
        cases hs : scrapeArena page slug with
        | nil => exact absurd hs hrows
        | cons a as => rfl
      unfold snapshotBatch
      refine ⟨?_, ?_, ?_⟩
      · intro e he
        simp [outcomeLine, hp, hemp, he]
      · intro e he
        simp [outcomeLine, hp, hemp, he]
      · intro he
        simp [outcomeLine, hp, hemp, he]

/-! ## Natural keys -/

/-- C11, as stated, fails: a page that renders the row `1`, `Alpha`, `1300` twice
gives a batch of two records with one natural key. -/
theorem natural_key_counterexample :
    (snapshotBatch duplicatePage "text".toList "2025-01-01T00:00:00.000Z".toList).length = 2 ∧
    ¬ ((snapshotBatch duplicatePage "text".toList "2025-01-01T00:00:00.000Z".toList).map
      naturalKey).Nodup := by
  decide!

/-- C11, amended: two records of the batch of one category have the same natural
key exactly when they have the same model name and the same rank position,
arena and timestamp being shared; the keys are pairwise distinct when no
surviving row has a parsed rank, the positions then being 1, 2 and so on. -/
theorem natural_key_uniqueness (page : Page) (slug scraped_at : Str) :
    (∀ p ∈ snapshotBatch page slug scraped_at, ∀ q ∈ snapshotBatch page slug scraped_at,
      (naturalKey p = naturalKey q ↔
        p.record.model_name = q.record.model_name ∧
          p.record.rank_position = q.record.rank_position)) ∧
    ((∀ r ∈ extractTableRows page, r.rankUB = none) →
      ((snapshotBatch page slug scraped_at).map naturalKey).Nodup) := by
  constructor
  · intro p hp q hq
    unfold snapshotBatch at hp hq
    obtain ⟨r1, hr1, rfl⟩ := List.mem_map.mp hp
    obtain ⟨r2, hr2, rfl⟩ := List.mem_map.mp hq
    obtain ⟨ha1, -⟩ := mem_scrapeArena page slug r1 hr1
    obtain ⟨ha2, -⟩ := mem_scrapeArena page slug r2 hr2
    simp only [naturalKey, toPayload, Prod.mk.injEq, ha1, ha2, true_and]
  · intro h
    have hpos := rank_positions_of_no_rank slug (BASE ++ "/".toList ++ slug)
      (extractTableRows page) h 0
    have hkeys : ((snapshotBatch page slug scraped_at).map naturalKey).map
        (fun k => k.2.2.2) = (scrapeArena page slug).map Record.rank_position := by
      unfold snapshotBatch
      simp only [List.map_map]
      apply List.map_congr_left
      intro r _
      rfl
    apply List.Nodup.of_map (fun k : NaturalKey => k.2.2.2)
    rw [hkeys]
    unfold scrapeArena
    rw [hpos]
    apply List.Nodup.map
    · intro a b hab
      simpa using hab
    · exact List.nodup_range _

/-! ## The field `row_json` -/

/-- C12, as stated, fails: two pages whose only rows differ in their cell texts
give the same payload, so the payload does not carry the cell texts. -/
theorem audit_payload_counterexample :
    (pageRows auditPageA).map textCellsOf ≠ (pageRows auditPageB).map textCellsOf ∧
    (snapshotBatch auditPageA "text".toList "2025-01-01T00:00:00.000Z".toList).length = 1 ∧
    snapshotBatch auditPageA "text".toList "2025-01-01T00:00:00.000Z".toList =
      snapshotBatch auditPageB "text".toList "2025-01-01T00:00:00.000Z".toList := by
  decide!

/-- C12, amended: the field `row_json` of every element of the payload is the
record that `scrapeArena` built for the row, with its eight fields from `arena`
to `source_url`, the same record the other fields of the element come from. -/
theorem audit_payload (page : Page) (slug scraped_at : Str) :
    ∀ p ∈ snapshotBatch page slug scraped_at,
      p.row_json = p.record ∧ p.record ∈ scrapeArena page slug ∧
        ∃ row ∈ pageRows page, rowItem row = some (itemOf row) ∧
          p.row_json.model_name = (itemOf row).model ∧
          p.row_json.organization = (itemOf row).organization ∧
          p.row_json.overall_score = (itemOf row).score ∧
          p.row_json.votes = (itemOf row).votes ∧
          p.row_json.license = (itemOf row).license := by
  intro p hp
  unfold snapshotBatch at hp
  obtain ⟨rec, hrec, rfl⟩ := List.mem_map.mp hp
  refine ⟨rfl, hrec, ?_⟩
  unfold scrapeArena at hrec
  obtain ⟨r, hr, i, rfl⟩ := mem_mapWithIndex _ _ _ _ hrec
  obtain ⟨⟨row, hrow, hitem⟩, -⟩ := (mem_extractTableRows page r).mp hr
  obtain ⟨-, -, -, hmap⟩ := rowItem_eq_some row r hitem
  subst hmap
  exact ⟨row, hrow, hitem, rfl, rfl, rfl, rfl, rfl⟩

/-- C12, amended, at the page `auditPageA`: the element of the payload built
from its row has the record of that row as `row_json`. -/
theorem audit_payload_witness :
    (toPayload "2025-01-01T00:00:00.000Z".toList auditRecord).row_json = auditRecord ∧
      auditRecord ∈ scrapeArena auditPageA "text".toList :=
  ⟨(audit_payload auditPageA "text".toList "2025-01-01T00:00:00.000Z".toList
      (toPayload "2025-01-01T00:00:00.000Z".toList auditRecord) (by decide!)).1,
    (audit_payload auditPageA "text".toList "2025-01-01T00:00:00.000Z".toList
      (toPayload "2025-01-01T00:00:00.000Z".toList auditRecord) (by decide!)).2.1⟩

/-! ## Persistence -/

theorem store_upsert_apply (batch : List Payload) :
    ∀ (s : Store) (k : NaturalKey), s.upsert batch k =
      match batch.reverse.find? (fun p => decide (k = naturalKey p)) with
      | some p => some p
      | none => s k := by
  induction batch with
  | nil => intro s k; rfl
  | cons p rest ih =>
    intro s k
    have hstep : s.upsert (p :: rest) = (s.put p).upsert rest := rfl
    rw [hstep, ih, List.reverse_cons, List.find?_append]
    cases hf : rest.reverse.find? (fun p => decide (k = naturalKey p)) with
    | some q => rfl
    | none =>
      by_cases hk : k = naturalKey p
      · simp [Store.put, hk]
      · simp [Store.put, hk]

/-- C13 (idempotent persistence): every upsert of a run names the table and the
conflict key `arena, scraped_at, model_name, rank_position`; with the store a
map from that key to a row, a batch written twice leaves the store it leaves
when written once, each key of the batch holds one row, the last record of
the batch with that key, and the other keys hold what they held. -/
theorem idempotent_persistence :
    (∀ w scraped_at arenas tbl payload oc,
      Event.upsert tbl payload oc ∈ (main w scraped_at arenas []).2 →
        tbl = TABLE ∧ oc = "arena, scraped_at, model_name, rank_position".toList) ∧
    (∀ (s : Store) batch, (s.upsert batch).upsert batch = s.upsert batch) ∧
    (∀ (s : Store) batch, ∀ p ∈ batch, ∃ q ∈ batch, naturalKey q = naturalKey p ∧
      s.upsert batch (naturalKey p) = some q) ∧
    (∀ (s : Store) batch k, (∀ p ∈ batch, naturalKey p ≠ k) → s.upsert batch k = s k) := by
  refine ⟨?_, ?_, ?_, ?_⟩
  · intro w scraped_at arenas tbl payload oc h
    obtain ⟨h1, h2, -⟩ := mem_main_upsert w scraped_at arenas tbl oc payload h
    exact ⟨h1, h2⟩
  · intro s batch
    funext k
    rw [store_upsert_apply batch (s.upsert batch) k, store_upsert_apply batch s k]
    cases batch.reverse.find? (fun p => decide (k = naturalKey p)) <;> rfl
  · intro s batch p hp
    rw [store_upsert_apply]
    cases hf : batch.reverse.find? (fun q => decide (naturalKey p = naturalKey q)) with
    | none =>
      have := List.find?_eq_none.mp hf p (List.mem_reverse.mpr hp)
      simp at this
    | some q =>
      have hq := List.find?_some hf
      have hmem := List.mem_of_find?_eq_some hf
      exact ⟨q, List.mem_reverse.mp hmem, (of_decide_eq_true hq).symm, rfl⟩
  · intro s batch k hk
    rw [store_upsert_apply]
    cases hf : batch.reverse.find? (fun p => decide (k = naturalKey p)) with
    | none => rfl
    | some q =>
      have hq := List.find?_some hf
      have hmem := List.mem_reverse.mp (List.mem_of_find?_eq_some hf)
      exact absurd (of_decide_eq_true hq).symm (hk q hmem)

end LmArena
